import Mathlib

/-! Marching squares: a shallow embedding of `marching_squares.cpp`.

The repository holds six variants of one program
(`checkpoint_1`, `checkpoint_3`, `checkpoint_5`, `alternative_optimizations`,
`commented_version`, `non_optimized_results_compilation`).  `Point`,
`LineSegment`, `EPS` and `lerp` are textually the same in all six files and are
embedded once; the static tables and the functions that differ between the
variants live in a namespace named after the variant's directory.

Conventions of the embedding.

* `float` is embedded twice.  Outside the namespace `binary32` it is `ℚ`: a
  statement on those definitions is a statement about the program in exact
  arithmetic (no rounding, no NaN, no infinities).  In the namespace `binary32`
  it is the type `binary32.F32` of the IEEE 754 binary32 values (finite
  numbers, the two infinities, NaN) with round-to-nearest-even operations; the
  statements on `lerp` and on the points it returns that depend on rounding or
  overflow are made there.
* `int` is embedded as `Int` for table entries (the tables hold `-1`) and as
  `Nat` for quantities the code never makes negative (`caseIdx`, loop
  counters, grid dimensions).
* A C array of four elements (`float values[4]`, `Point corners[4]`) is a
  function on `Fin 4`; a read at an `int` index is bounds-checked and returns
  `none` outside `0..3`.  Reads of the static tables and of the scalar field
  are bounds-checked in the same way, so a function that may index returns an
  `Option`, and `none` stands for an out-of-bounds access.
-/

/-! ## Geometry primitives (identical in all six files) -/

/-- Source: `struct Point { float x, y; }`. -/
structure Point where
  x : ℚ
  y : ℚ
deriving DecidableEq

/-- Source: `struct LineSegment { Point start, end; }` (`end` is reserved in Lean, the
field is written `end_`). -/
structure LineSegment where
  start : Point
  end_ : Point
deriving DecidableEq

/-- Source: `float EPS = 1e-6f;`.  The literal denotes the binary32 number nearest
to `10^(-6)`, which is `8796093 * 2^(-43)`, a little below `10^(-6)`. -/
def EPS : ℚ := 8796093 / 8796093022208

/-- Instrumented body of `lerp`: the returned point together with the list of
divisions `(numerator, denominator)` the call executes.

```
float denom = v2 - v1;
if (std::fabs(denom) < EPS) return p1;
float t = (iso - v1) / denom;
return {p1.x + t * (p2.x - p1.x), p1.y + t * (p2.y - p1.y)};
``` -/
def lerpTraced (p1 p2 : Point) (v1 v2 iso : ℚ) : Point × List (ℚ × ℚ) :=
  let denom := v2 - v1
  if |denom| < EPS then
    (p1, [])
  else
    let t := (iso - v1) / denom
    (⟨p1.x + t * (p2.x - p1.x), p1.y + t * (p2.y - p1.y)⟩, [(iso - v1, denom)])

/-- Source: `Point lerp(Point p1, Point p2, float v1, float v2, float iso)`. -/
def lerp (p1 p2 : Point) (v1 v2 iso : ℚ) : Point :=
  (lerpTraced p1 p2 v1 v2 iso).1

/-! ## Bounds-checked reads -/

/-- Read of a four-element C array at an `int` index. -/
def at4 {α : Type} (a : Fin 4 → α) (i : Int) : Option α :=
  if i = 0 then some (a 0)
  else if i = 1 then some (a 1)
  else if i = 2 then some (a 2)
  else if i = 3 then some (a 3)
  else none

/-- Read of a row of a static `int` table at an `int` index. -/
def tableRow (t : List (List Int)) (i : Int) : Option (List Int) :=
  if 0 ≤ i then t[i.toNat]? else none

/-! ## The static tables, one copy per source file -/

namespace checkpoint_1

/-- Table `int edgeCorners[4][2]` of `checkpoint_1/marching_squares.cpp`. -/
def edgeCorners : List (List Int) :=
  [[0, 1], [1, 2], [2, 3], [3, 0]]

/-- Table `int edgePairs[16][4]` of `checkpoint_1/marching_squares.cpp`. -/
def edgePairs : List (List Int) :=
  [ [-1, -1, -1, -1],
    [3, 0, -1, -1],
    [0, 1, -1, -1],
    [3, 1, -1, -1],
    [1, 2, -1, -1],
    [0, 1, 3, 2],
    [0, 2, -1, -1],
    [3, 2, -1, -1],
    [2, 3, -1, -1],
    [0, 2, -1, -1],
    [0, 3, 1, 2],
    [1, 2, -1, -1],
    [3, 1, -1, -1],
    [0, 1, -1, -1],
    [3, 0, -1, -1],
    [-1, -1, -1, -1] ]

end checkpoint_1

namespace checkpoint_3

/-- Table `int edgeCorners[4][2]` of `checkpoint_3/marching_squares.cpp`. -/
def edgeCorners : List (List Int) :=
  [[0, 1], [1, 2], [2, 3], [3, 0]]

/-- Table `int edgePairs[16][4]` of `checkpoint_3/marching_squares.cpp`. -/
def edgePairs : List (List Int) :=
  [ [-1, -1, -1, -1],
    [3, 0, -1, -1],
    [0, 1, -1, -1],
    [3, 1, -1, -1],
    [1, 2, -1, -1],
    [0, 1, 3, 2],
    [0, 2, -1, -1],
    [3, 2, -1, -1],
    [2, 3, -1, -1],
    [0, 2, -1, -1],
    [0, 3, 1, 2],
    [1, 2, -1, -1],
    [3, 1, -1, -1],
    [0, 1, -1, -1],
    [3, 0, -1, -1],
    [-1, -1, -1, -1] ]

end checkpoint_3

namespace checkpoint_5

/-- Table `int edgeCorners[4][2]` of `checkpoint_5/marching_squares.cpp`. -/
def edgeCorners : List (List Int) :=
  [[0, 1], [1, 2], [2, 3], [3, 0]]

/-- Table `int edgePairs[16][4]` of `checkpoint_5/marching_squares.cpp`. -/
def edgePairs : List (List Int) :=
  [ [-1, -1, -1, -1],
    [3, 0, -1, -1],
    [0, 1, -1, -1],
    [3, 1, -1, -1],
    [1, 2, -1, -1],
    [0, 1, 3, 2],
    [0, 2, -1, -1],
    [3, 2, -1, -1],
    [2, 3, -1, -1],
    [0, 2, -1, -1],
    [0, 3, 1, 2],
    [1, 2, -1, -1],
    [3, 1, -1, -1],
    [0, 1, -1, -1],
    [3, 0, -1, -1],
    [-1, -1, -1, -1] ]

end checkpoint_5

namespace alternative_optimizations

/-- Table `int edgeCorners[4][2]` of `alternative_optimizations/marching_squares.cpp`. -/
def edgeCorners : List (List Int) :=
  [[0, 1], [1, 2], [2, 3], [3, 0]]

/-- Table `int edgePairs[16][4]` of `alternative_optimizations/marching_squares.cpp`. -/
def edgePairs : List (List Int) :=
  [ [-1, -1, -1, -1],
    [3, 0, -1, -1],
    [0, 1, -1, -1],
    [3, 1, -1, -1],
    [1, 2, -1, -1],
    [0, 1, 3, 2],
    [0, 2, -1, -1],
    [3, 2, -1, -1],
    [2, 3, -1, -1],
    [0, 2, -1, -1],
    [0, 3, 1, 2],
    [1, 2, -1, -1],
    [3, 1, -1, -1],
    [0, 1, -1, -1],
    [3, 0, -1, -1],
    [-1, -1, -1, -1] ]

end alternative_optimizations

namespace commented_version

/-- Table `int edgeCorners[4][2]` of `commented_version/marching_squares.cpp`. -/
def edgeCorners : List (List Int) :=
  [[0, 1], [1, 2], [2, 3], [3, 0]]

/-- Table `int edgePairs[16][4]` of `commented_version/marching_squares.cpp`. -/
def edgePairs : List (List Int) :=
  [ [-1, -1, -1, -1],
    [3, 0, -1, -1],
    [0, 1, -1, -1],
    [3, 1, -1, -1],
    [1, 2, -1, -1],
    [0, 1, 3, 2],
    [0, 2, -1, -1],
    [3, 2, -1, -1],
    [2, 3, -1, -1],
    [0, 2, -1, -1],
    [0, 3, 1, 2],
    [1, 2, -1, -1],
    [3, 1, -1, -1],
    [0, 1, -1, -1],
    [3, 0, -1, -1],
    [-1, -1, -1, -1] ]

end commented_version

namespace non_optimized_results_compilation

/-- Table `int edgeCorners[4][2]` of
`non_optimized_results_compilation/marching_squares.cpp`. -/
def edgeCorners : List (List Int) :=
  [[0, 1], [1, 2], [2, 3], [3, 0]]

/-- Table `int edgePairs[16][4]` of
`non_optimized_results_compilation/marching_squares.cpp`. -/
def edgePairs : List (List Int) :=
  [ [-1, -1, -1, -1],
    [3, 0, -1, -1],
    [0, 1, -1, -1],
    [3, 1, -1, -1],
    [1, 2, -1, -1],
    [0, 1, 3, 2],
    [0, 2, -1, -1],
    [3, 2, -1, -1],
    [2, 3, -1, -1],
    [0, 2, -1, -1],
    [0, 3, 1, 2],
    [1, 2, -1, -1],
    [3, 1, -1, -1],
    [0, 1, -1, -1],
    [3, 0, -1, -1],
    [-1, -1, -1, -1] ]

end non_optimized_results_compilation

/-- A table row read up to the first `-1` (the terminator of `edgePairs`). -/
def readRow (row : List Int) : List Int :=
  row.takeWhile (fun e => e ≠ -1)

/-- The edge pairs `(pair[i], pair[i+1])`, `i = 0, 2, ..`, of a table row read
up to the first `-1` in an even position. -/
def rowPairs : List Int → List (Int × Int)
  | a :: b :: rest => if a = -1 then [] else (a, b) :: rowPairs rest
  | _ => []

/-! ## The cell evaluator -/

/-- Ghost record of one call `lerp(p1, p2, v1, v2, iso)` made by `getEdgePoint`
for the edge `edge`. -/
structure LerpCall where
  edge : Int
  p1 : Point
  p2 : Point
  v1 : ℚ
  v2 : ℚ
  iso : ℚ
deriving DecidableEq

/-- The lambda `getEdgePoint` of `marchSquare` (the same text in every file),
with the table it captures as a parameter; it returns the point together with
the ghost record of its `lerp` call.

```
int c0 = edgeCorners[e][0], c1 = edgeCorners[e][1];
return lerp(corners[c0], corners[c1], values[c0], values[c1], isolevel);
``` -/
def getEdgePoint (edgeCorners : List (List Int)) (corners : Fin 4 → Point)
    (values : Fin 4 → ℚ) (isolevel : ℚ) (e : Int) : Option (Point × LerpCall) := do
  let row ← tableRow edgeCorners e
  let c0 ← row[0]?
  let c1 ← row[1]?
  let q0 ← at4 corners c0
  let q1 ← at4 corners c1
  let w0 ← at4 values c0
  let w1 ← at4 values c1
  pure (lerp q0 q1 w0 w1 isolevel, ⟨e, q0, q1, w0, w1, isolevel⟩)

/-- The loop of `marchSquare` (the same text in every file), started at `i`;
the state is the output vector and the ghost log of `lerp` calls.

```
for (int i = 0; i < 4 && pair[i] != -1; i += 2)
    outSegments.push_back({getEdgePoint(pair[i]), getEdgePoint(pair[i + 1])});
``` -/
def segmentLoop (gep : Int → Option (Point × LerpCall)) (pair : List Int) (i : Nat)
    (st : List LineSegment × List LerpCall) : Option (List LineSegment × List LerpCall) :=
  if i < 4 then do
    let a ← pair[i]?
    if a ≠ -1 then do
      let pa ← gep a
      let b ← pair[i + 1]?
      let pb ← gep b
      segmentLoop gep pair (i + 2) (st.1 ++ [⟨pa.1, pb.1⟩], st.2 ++ [pa.2, pb.2])
    else
      pure st
  else
    pure st
termination_by 4 - i
decreasing_by omega

namespace checkpoint_5

/-- The case index computed by the first statements of `marchSquare`.

```
int caseIdx = 0;
if (values[0] >= isolevel) caseIdx |= 1;
if (values[1] >= isolevel) caseIdx |= 2;
if (values[2] >= isolevel) caseIdx |= 4;
if (values[3] >= isolevel) caseIdx |= 8;
``` -/
def caseIdx (values : Fin 4 → ℚ) (isolevel : ℚ) : Nat :=
  let caseIdx := 0
  let caseIdx := if values 0 ≥ isolevel then caseIdx ||| 1 else caseIdx
  let caseIdx := if values 1 ≥ isolevel then caseIdx ||| 2 else caseIdx
  let caseIdx := if values 2 ≥ isolevel then caseIdx ||| 4 else caseIdx
  let caseIdx := if values 3 ≥ isolevel then caseIdx ||| 8 else caseIdx
  caseIdx

/-- The local array `Point corners[4]` of `marchSquare`. -/
def cellCorners (cell_x cell_y : ℚ) : Fin 4 → Point :=
  ![⟨cell_x, cell_y⟩, ⟨cell_x + 1, cell_y⟩, ⟨cell_x + 1, cell_y + 1⟩, ⟨cell_x, cell_y + 1⟩]

/-- Source: `void marchSquare(float cell_x, float cell_y, float values[4], float isolevel,
std::vector<LineSegment>& outSegments)` with the ghost log of its `lerp` calls:
the result is the output vector after the call and the log. -/
def marchSquareTraced (cell_x cell_y : ℚ) (values : Fin 4 → ℚ) (isolevel : ℚ)
    (outSegments : List LineSegment) : Option (List LineSegment × List LerpCall) :=
  let caseIdx := caseIdx values isolevel
  if caseIdx = 0 ∨ caseIdx = 15 then
    some (outSegments, [])
  else do
    let corners := cellCorners cell_x cell_y
    let pair ← edgePairs[caseIdx]?
    segmentLoop (getEdgePoint edgeCorners corners values isolevel) pair 0 (outSegments, [])

/-- Function `marchSquare` of `checkpoint_5`: the output vector after the call. -/
def marchSquare (cell_x cell_y : ℚ) (values : Fin 4 → ℚ) (isolevel : ℚ)
    (outSegments : List LineSegment) : Option (List LineSegment) :=
  (marchSquareTraced cell_x cell_y values isolevel outSegments).map Prod.fst

end checkpoint_5

namespace checkpoint_1

/-- The case index computed by the first loop of `marchSquare`.

```
int caseIdx = 0;
for (int i = 0; i < 4; ++i)
    if (values[i] >= isolevel)
        caseIdx |= (1 << i);
``` -/
def caseIdx (values : Fin 4 → ℚ) (isolevel : ℚ) : Nat :=
  (List.finRange 4).foldl
    (fun caseIdx i => if values i ≥ isolevel then caseIdx ||| (1 <<< i.val) else caseIdx) 0

/-- Source: `std::vector<LineSegment> marchSquare(Point corners[4], float values[4],
float isolevel)` with the ghost log of its `lerp` calls. -/
def marchSquareTraced (corners : Fin 4 → Point) (values : Fin 4 → ℚ) (isolevel : ℚ) :
    Option (List LineSegment × List LerpCall) :=
  let caseIdx := caseIdx values isolevel
  if caseIdx = 0 ∨ caseIdx = 15 then
    some ([], [])
  else do
    let pair ← edgePairs[caseIdx]?
    segmentLoop (getEdgePoint edgeCorners corners values isolevel) pair 0 ([], [])

/-- Function `marchSquare` of `checkpoint_1`: the returned vector. -/
def marchSquare (corners : Fin 4 → Point) (values : Fin 4 → ℚ) (isolevel : ℚ) :
    Option (List LineSegment) :=
  (marchSquareTraced corners values isolevel).map Prod.fst

end checkpoint_1

/-! ## Grid traversal -/

/-- The threads of a parallel region run one after the other in the embedding:
`perThread f tids` is the list of their results, `none` if one of them fails. -/
def perThread {β : Type} (f : Nat → Option β) : List Nat → Option (List β)
  | [] => some []
  | tid :: rest => do
    let r ← f tid
    let rs ← perThread f rest
    pure (r :: rs)

/-- The iterations of `for (int y = 0; y < gridHeight - 1; ++y)` that the
worksharing construct `#pragma omp for` hands to thread `tid`, in increasing
order, when `owner y` is the thread that executes iteration `y`.  (For a grid
height of `0` the `int` bound `gridHeight - 1` is `-1` and the loop is empty, as
with the truncated subtraction on `Nat`.) -/
def threadRows (gridHeight : Nat) (owner : Nat → Nat) (tid : Nat) : List Nat :=
  (List.range (gridHeight - 1)).filter (fun y => owner y = tid)

namespace checkpoint_5

/-- State of one thread while it scans a row: the sliding window
(`left_top_val`, `left_bottom_val`), its buffer `privateSegments`, and the ghost
log `calls` of the cells `(x, y)` it has passed to `marchSquare`. -/
structure RowState where
  left_top_val : ℚ
  left_bottom_val : ℚ
  privateSegments : List LineSegment
  calls : List (Nat × Nat)

/-- Body of the inner loop `for (int x = 0; x < gridWidth - 1; ++x)` of `main`.

```
float right_top_val = scalarField[y * gridWidth + (x + 1)];
float right_bottom_val = scalarField[(y + 1) * gridWidth + (x + 1)];
float values[4] = {left_top_val, right_top_val, right_bottom_val, left_bottom_val};
marchSquare((float)x, (float)y, values, isolevel, privateSegments);
left_top_val = right_top_val;
left_bottom_val = right_bottom_val;
``` -/
def cellIteration (scalarField : List ℚ) (gridWidth : Nat) (isolevel : ℚ) (y : Nat)
    (st : RowState) (x : Nat) : Option RowState := do
  let right_top_val ← scalarField[y * gridWidth + (x + 1)]?
  let right_bottom_val ← scalarField[(y + 1) * gridWidth + (x + 1)]?
  let values : Fin 4 → ℚ :=
    ![st.left_top_val, right_top_val, right_bottom_val, st.left_bottom_val]
  let privateSegments ← marchSquare (x : ℚ) (y : ℚ) values isolevel st.privateSegments
  pure ⟨right_top_val, right_bottom_val, privateSegments, st.calls ++ [(x, y)]⟩

/-- Body of the outer loop `for (int y = 0; y < gridHeight - 1; ++y)` of `main`,
on the thread's buffer and ghost log.

```
float left_top_val = scalarField[y * gridWidth];
float left_bottom_val = scalarField[(y + 1) * gridWidth];
for (int x = 0; x < gridWidth - 1; ++x) { ... }
``` -/
def rowIteration (scalarField : List ℚ) (gridWidth : Nat) (isolevel : ℚ)
    (buf : List LineSegment × List (Nat × Nat)) (y : Nat) :
    Option (List LineSegment × List (Nat × Nat)) := do
  let left_top_val ← scalarField[y * gridWidth]?
  let left_bottom_val ← scalarField[(y + 1) * gridWidth]?
  let st ← (List.range (gridWidth - 1)).foldlM
    (cellIteration scalarField gridWidth isolevel y)
    ⟨left_top_val, left_bottom_val, buf.1, buf.2⟩
  pure (st.privateSegments, st.calls)

/-- One thread of the parallel region up to the `critical` section: it starts
with an empty `privateSegments` and runs the rows it was handed, in order. -/
def thread (scalarField : List ℚ) (gridWidth : Nat) (isolevel : ℚ) (rows : List Nat) :
    Option (List LineSegment × List (Nat × Nat)) :=
  rows.foldlM (rowIteration scalarField gridWidth isolevel) ([], [])

/-- The `critical` sections in the order `order` in which the threads enter
them: `allSegments.insert(allSegments.end(), privateSegments.begin(),
privateSegments.end())`. -/
def mergeBuffers (buffers : List (List LineSegment)) (order : List Nat) : List LineSegment :=
  order.foldl (fun allSegments tid => allSegments ++ buffers.getD tid []) []

/-- The region `#pragma omp parallel { ... }` of `main` with `numThreads`
threads.  The two choices OpenMP leaves open are parameters: `owner`, the
thread that runs each iteration of the `omp for` loop, and `order`, the order
in which the threads enter the `critical` section.  The result is `allSegments`
and, per thread, the ghost log of the cells it evaluated. -/
def parallelRegion (scalarField : List ℚ) (gridWidth gridHeight : Nat) (isolevel : ℚ)
    (numThreads : Nat) (owner : Nat → Nat) (order : List Nat) :
    Option (List LineSegment × List (List (Nat × Nat))) := do
  let results ← perThread
    (fun tid => thread scalarField gridWidth isolevel (threadRows gridHeight owner tid))
    (List.range numThreads)
  pure (mergeBuffers (results.map Prod.fst) order, results.map Prod.snd)

end checkpoint_5

namespace checkpoint_1

/-- The read `scalarField[y][x]` of the `std::vector<std::vector<float>>`. -/
def readField (scalarField : List (List ℚ)) (y x : Nat) : Option ℚ := do
  let row ← scalarField[y]?
  row[x]?

/-- Body of the inner loop `for (int x = 0; x < gridWidth - 1; ++x)` of `main`,
on `allSegments` and the ghost log of the cells passed to `marchSquare`.

```
Point corners[4] = {{(float)x, (float)y}, {(float)x + 1, (float)y},
                    {(float)x + 1, (float)y + 1}, {(float)x, (float)y + 1}};
float values[4] = {scalarField[y][x], scalarField[y][x + 1],
                   scalarField[y + 1][x + 1], scalarField[y + 1][x]};
std::vector<LineSegment> cellSegments = marchSquare(corners, values, isolevel);
allSegments.insert(allSegments.end(), cellSegments.begin(), cellSegments.end());
``` -/
def cellIteration (scalarField : List (List ℚ)) (isolevel : ℚ) (y : Nat)
    (st : List LineSegment × List (Nat × Nat)) (x : Nat) :
    Option (List LineSegment × List (Nat × Nat)) := do
  let corners : Fin 4 → Point :=
    ![⟨(x : ℚ), (y : ℚ)⟩, ⟨(x : ℚ) + 1, (y : ℚ)⟩,
      ⟨(x : ℚ) + 1, (y : ℚ) + 1⟩, ⟨(x : ℚ), (y : ℚ) + 1⟩]
  let v0 ← readField scalarField y x
  let v1 ← readField scalarField y (x + 1)
  let v2 ← readField scalarField (y + 1) (x + 1)
  let v3 ← readField scalarField (y + 1) x
  let values : Fin 4 → ℚ := ![v0, v1, v2, v3]
  let cellSegments ← marchSquare corners values isolevel
  pure (st.1 ++ cellSegments, st.2 ++ [(x, y)])

/-- The loop nest of `main` for one `isolevel` (the body of
`for (float isolevel : isolevels)`):
`for (int y = 0; y < gridHeight - 1; ++y) for (int x = 0; x < gridWidth - 1; ++x)`. -/
def traverse (scalarField : List (List ℚ)) (gridWidth gridHeight : Nat) (isolevel : ℚ)
    (st : List LineSegment × List (Nat × Nat)) :
    Option (List LineSegment × List (Nat × Nat)) :=
  (List.range (gridHeight - 1)).foldlM
    (fun st y => (List.range (gridWidth - 1)).foldlM (cellIteration scalarField isolevel y) st)
    st

end checkpoint_1

namespace alternative_optimizations

/-- Source: `std::size_t totalCells = std::size_t(gridHeight - 1) * (gridWidth - 1);`
in 64-bit unsigned arithmetic (the `int` operands are converted modulo `2^64`). -/
def totalCells (gridWidth gridHeight : Nat) : Nat :=
  ((((gridHeight : Int) - 1) % 2 ^ 64).toNat * (((gridWidth : Int) - 1) % 2 ^ 64).toNat) % 2 ^ 64

/-- Source: `std::size_t maxPerThread = (totalCells + numThreads - 1) / numThreads;`
in 64-bit unsigned arithmetic (`numThreads >= 1`, the value of
`omp_get_max_threads()`). -/
def maxPerThread (gridWidth gridHeight numThreads : Nat) : Nat :=
  ((totalCells gridWidth gridHeight + numThreads + (2 ^ 64 - 1)) % 2 ^ 64) / numThreads

/-- The argument of `mySegs.reserve(maxPerThread * 2)`. -/
def reservedCapacity (gridWidth gridHeight numThreads : Nat) : Nat :=
  (maxPerThread gridWidth gridHeight numThreads * 2) % 2 ^ 64

/-- The value of `std::vector<LineSegment>::max_size()`: the largest number of
16-byte elements (`LineSegment` is four `float`s) in `PTRDIFF_MAX = 2^63 - 1`
bytes. -/
def maxSize : Nat := (2 ^ 63 - 1) / 16

/-- The call `mySegs.reserve(n)` on the empty vector `mySegs`: it throws
`std::length_error` when `n > max_size()` and otherwise changes no content
(`none` stands for the exception, which nothing catches; the allocation of a
request within `max_size()` is taken to succeed). -/
def reserve (n : Nat) : Option Unit :=
  if n ≤ maxSize then some () else none

/-- The worksharing loops of the region without the `reserve` calls: thread `tid`
runs the rows it is handed on an empty `threadSegments[tid]`.  The loop nest
`#pragma omp for nowait schedule(static)` and `marchSquare` have the text of
`checkpoint_5` with `mySegs` for `privateSegments`, so the rows are run by
`checkpoint_5.thread`. -/
def fillBuffers (scalarField : List ℚ) (gridWidth gridHeight : Nat) (isolevel : ℚ)
    (numThreads : Nat) (owner : Nat → Nat) : Option (List (List LineSegment)) := do
  let results ← perThread
    (fun tid => checkpoint_5.thread scalarField gridWidth isolevel
      (threadRows gridHeight owner tid))
    (List.range numThreads)
  pure (results.map Prod.fst)

/-- One thread of the region: the reservation, then the rows it is handed.

```
auto &mySegs = threadSegments[tid];
std::size_t totalCells   = std::size_t(gridHeight - 1) * (gridWidth - 1);
std::size_t maxPerThread = (totalCells + numThreads - 1) / numThreads;
mySegs.reserve(maxPerThread * 2);
#pragma omp for nowait schedule(static)
for (int y = 0; y < gridHeight - 1; ++y) { ... }
``` -/
def thread (scalarField : List ℚ) (gridWidth gridHeight : Nat) (isolevel : ℚ)
    (numThreads : Nat) (rows : List Nat) : Option (List LineSegment × List (Nat × Nat)) := do
  reserve (reservedCapacity gridWidth gridHeight numThreads)
  checkpoint_5.thread scalarField gridWidth isolevel rows

/-- The region `#pragma omp parallel { ... }` of `main` with `numThreads`
threads (`numThreads` is also the value of `omp_get_max_threads()` that sizes
`threadSegments`): thread `tid` fills `threadSegments[tid]` and nothing is
merged.  The result is `threadSegments`; `none` stands for an out-of-bounds read
or for the exception of a `reserve` call. -/
def parallelRegion (scalarField : List ℚ) (gridWidth gridHeight : Nat) (isolevel : ℚ)
    (numThreads : Nat) (owner : Nat → Nat) : Option (List (List LineSegment)) := do
  let results ← perThread
    (fun tid => thread scalarField gridWidth gridHeight isolevel numThreads
      (threadRows gridHeight owner tid))
    (List.range numThreads)
  pure (results.map Prod.fst)

end alternative_optimizations

/-! ## Specification-side definitions

The following definitions follow the words of the specification, not the
code; the theorems compare them with the embedding above. -/

/-- Spec §4.2: "Edges indexed 0=TOP(corner0–1), 1=RIGHT(1–2), 2=BOTTOM(2–3),
3=LEFT(3–0)". -/
def specEdgeCorners : Fin 4 → Fin 4 × Fin 4
  | 0 => (0, 1)
  | 1 => (1, 2)
  | 2 => (2, 3)
  | 3 => (3, 0)

/-- Spec §4.2: the edge pairs of the sixteen case indices,
"{none},{3,0},{0,1},{3,1},{1,2},{0,1,3,2},{0,2},{3,2},{2,3},{0,2},{0,3,1,2},
{1,2},{3,1},{0,1},{3,0},{none}". -/
def specEdgePairs : Nat → List (Fin 4 × Fin 4)
  | 1 => [(3, 0)]
  | 2 => [(0, 1)]
  | 3 => [(3, 1)]
  | 4 => [(1, 2)]
  | 5 => [(0, 1), (3, 2)]
  | 6 => [(0, 2)]
  | 7 => [(3, 2)]
  | 8 => [(2, 3)]
  | 9 => [(0, 2)]
  | 10 => [(0, 3), (1, 2)]
  | 11 => [(1, 2)]
  | 12 => [(3, 1)]
  | 13 => [(0, 1)]
  | 14 => [(3, 0)]
  | _ => []

/-- Spec §4.3 step 3: the crossing point on edge `e`, "via `lerp`, using each
edge's two corner positions and values". -/
def specEdgePoint (corners : Fin 4 → Point) (values : Fin 4 → ℚ) (isolevel : ℚ)
    (e : Fin 4) : Point :=
  lerp (corners (specEdgeCorners e).1) (corners (specEdgeCorners e).2)
    (values (specEdgeCorners e).1) (values (specEdgeCorners e).2) isolevel

/-- The `lerp` call that computes `specEdgePoint`. -/
def specLerpCall (corners : Fin 4 → Point) (values : Fin 4 → ℚ) (isolevel : ℚ)
    (e : Fin 4) : LerpCall :=
  ⟨(e.val : Int), corners (specEdgeCorners e).1, corners (specEdgeCorners e).2,
    values (specEdgeCorners e).1, values (specEdgeCorners e).2, isolevel⟩

/-- Spec §4.3 step 3: one `LineSegment{pointA, pointB}` per edge pair of the
case. -/
def specSegments (corners : Fin 4 → Point) (values : Fin 4 → ℚ) (isolevel : ℚ)
    (c : Nat) : List LineSegment :=
  (specEdgePairs c).map fun ab =>
    ⟨specEdgePoint corners values isolevel ab.1, specEdgePoint corners values isolevel ab.2⟩

/-- The `lerp` calls behind `specSegments`, in call order. -/
def specLerpCalls (corners : Fin 4 → Point) (values : Fin 4 → ℚ) (isolevel : ℚ)
    (c : Nat) : List LerpCall :=
  (specEdgePairs c).flatMap fun ab =>
    [specLerpCall corners values isolevel ab.1, specLerpCall corners values isolevel ab.2]

/-- Claim C2: `p` is the value of
`lerp(corners[edgeCorners[e][0]], corners[edgeCorners[e][1]],
values[edgeCorners[e][0]], values[edgeCorners[e][1]], isolevel)`, all reads in
bounds. -/
def IsEdgePoint (edgeCorners : List (List Int)) (corners : Fin 4 → Point)
    (values : Fin 4 → ℚ) (isolevel : ℚ) (e : Int) (p : Point) : Prop :=
  ∃ c0 c1 : Fin 4, tableRow edgeCorners e = some [(c0.val : Int), (c1.val : Int)] ∧
    p = lerp (corners c0) (corners c1) (values c0) (values c1) isolevel

/-- Claim C8: an edge is crossed when exactly one of its two corner values is
`>= isolevel`. -/
def Crossed (v1 v2 isolevel : ℚ) : Prop :=
  (v1 ≥ isolevel ∧ ¬ v2 ≥ isolevel) ∨ (¬ v1 ≥ isolevel ∧ v2 ≥ isolevel)

/-- Claim C8: the closed edge `e` of the unit cell with origin `(cx, cy)`:
edge 0 on `y = cy`, edge 1 on `x = cx + 1`, edge 2 on `y = cy + 1`, edge 3 on
`x = cx`. -/
def OnEdge (cx cy : ℚ) (e : Int) (p : Point) : Prop :=
  (e = 0 ∧ p.y = cy ∧ cx ≤ p.x ∧ p.x ≤ cx + 1) ∨
  (e = 1 ∧ p.x = cx + 1 ∧ cy ≤ p.y ∧ p.y ≤ cy + 1) ∨
  (e = 2 ∧ p.y = cy + 1 ∧ cx ≤ p.x ∧ p.x ≤ cx + 1) ∨
  (e = 3 ∧ p.x = cx ∧ cy ≤ p.y ∧ p.y ≤ cy + 1)

instance (edgeCorners : List (List Int)) (corners : Fin 4 → Point) (values : Fin 4 → ℚ)
    (isolevel : ℚ) (e : Int) (p : Point) :
    Decidable (IsEdgePoint edgeCorners corners values isolevel e p) := by
  unfold IsEdgePoint; infer_instance

instance (v1 v2 isolevel : ℚ) : Decidable (Crossed v1 v2 isolevel) := by
  unfold Crossed; infer_instance

instance (cx cy : ℚ) (e : Int) (p : Point) : Decidable (OnEdge cx cy e p) := by
  unfold OnEdge; infer_instance

/-- Spec §3: the cells of a `width × height` field in row-major order, `(x, y)`
with `0 ≤ y ≤ height-2`, `0 ≤ x ≤ width-2`. -/
def specCells (width height : Nat) : List (Nat × Nat) :=
  (List.range (height - 1)).flatMap fun y => (List.range (width - 1)).map fun x => (x, y)

/-! ## Derived quantities used in the statements on the traversal -/

namespace checkpoint_5

/-- What row `y` contributes (segments and evaluated cells) when scanned from an
empty buffer; `([], [])` if the scan fails. -/
def rowOutput (scalarField : List ℚ) (gridWidth : Nat) (isolevel : ℚ) (y : Nat) :
    List LineSegment × List (Nat × Nat) :=
  (rowIteration scalarField gridWidth isolevel ([], []) y).getD ([], [])

/-- The single-thread run of the parallel region: one thread owns every row, so
the rows are scanned in row-major order. -/
def singleWorker (scalarField : List ℚ) (gridWidth gridHeight : Nat) (isolevel : ℚ) :
    Option (List LineSegment × List (List (Nat × Nat))) :=
  parallelRegion scalarField gridWidth gridHeight isolevel 1 (fun _ => 0) [0]

end checkpoint_5

/-! ## The direct-read parallel traversal of `checkpoint_3` -/

namespace checkpoint_3

/-- The case index computed by the first loop of `marchSquare` (the text of
`checkpoint_1`).

```
int caseIdx = 0;
for (int i = 0; i < 4; ++i)
    if (values[i] >= isolevel)
        caseIdx |= (1 << i);
``` -/
def caseIdx (values : Fin 4 → ℚ) (isolevel : ℚ) : Nat :=
  (List.finRange 4).foldl
    (fun caseIdx i => if values i ≥ isolevel then caseIdx ||| (1 <<< i.val) else caseIdx) 0

/-- Source: `std::vector<LineSegment> marchSquare(Point corners[4], float values[4],
float isolevel)` of `checkpoint_3`, with the ghost log of its `lerp` calls. -/
def marchSquareTraced (corners : Fin 4 → Point) (values : Fin 4 → ℚ) (isolevel : ℚ) :
    Option (List LineSegment × List LerpCall) :=
  let caseIdx := caseIdx values isolevel
  if caseIdx = 0 ∨ caseIdx = 15 then
    some ([], [])
  else do
    let pair ← edgePairs[caseIdx]?
    segmentLoop (getEdgePoint edgeCorners corners values isolevel) pair 0 ([], [])

/-- Function `marchSquare` of `checkpoint_3`: the returned vector. -/
def marchSquare (corners : Fin 4 → Point) (values : Fin 4 → ℚ) (isolevel : ℚ) :
    Option (List LineSegment) :=
  (marchSquareTraced corners values isolevel).map Prod.fst

/-- The read `scalarField[y][x]` of the `std::vector<std::vector<float>>`. -/
def readField (scalarField : List (List ℚ)) (y x : Nat) : Option ℚ := do
  let row ← scalarField[y]?
  row[x]?

/-- Body of the inner loop `for (int x = 0; x < gridWidth - 1; ++x)` of `main`,
on the thread's `privateSegments` and the ghost log of the cells passed to
`marchSquare`.

```
Point corners[4] = {{(float)x, (float)y}, {(float)x + 1, (float)y},
                    {(float)x + 1, (float)y + 1}, {(float)x, (float)y + 1}};
float values[4] = {scalarField[y][x], scalarField[y][x + 1],
                   scalarField[y + 1][x + 1], scalarField[y + 1][x]};
std::vector<LineSegment> cellSegments = marchSquare(corners, values, isolevel);
if (!cellSegments.empty())
    privateSegments.insert(privateSegments.end(), cellSegments.begin(), cellSegments.end());
``` -/
def cellIteration (scalarField : List (List ℚ)) (isolevel : ℚ) (y : Nat)
    (st : List LineSegment × List (Nat × Nat)) (x : Nat) :
    Option (List LineSegment × List (Nat × Nat)) := do
  let corners : Fin 4 → Point :=
    ![⟨(x : ℚ), (y : ℚ)⟩, ⟨(x : ℚ) + 1, (y : ℚ)⟩,
      ⟨(x : ℚ) + 1, (y : ℚ) + 1⟩, ⟨(x : ℚ), (y : ℚ) + 1⟩]
  let v0 ← readField scalarField y x
  let v1 ← readField scalarField y (x + 1)
  let v2 ← readField scalarField (y + 1) (x + 1)
  let v3 ← readField scalarField (y + 1) x
  let values : Fin 4 → ℚ := ![v0, v1, v2, v3]
  let cellSegments ← marchSquare corners values isolevel
  let privateSegments := if !cellSegments.isEmpty then st.1 ++ cellSegments else st.1
  pure (privateSegments, st.2 ++ [(x, y)])

/-- Body of the outer loop `for (int y = 0; y < gridHeight - 1; ++y)` of `main`:
the inner loop over `x`. -/
def rowIteration (scalarField : List (List ℚ)) (gridWidth : Nat) (isolevel : ℚ)
    (buf : List LineSegment × List (Nat × Nat)) (y : Nat) :
    Option (List LineSegment × List (Nat × Nat)) :=
  (List.range (gridWidth - 1)).foldlM (cellIteration scalarField isolevel y) buf

/-- One thread of the parallel region up to the `critical` section. -/
def thread (scalarField : List (List ℚ)) (gridWidth : Nat) (isolevel : ℚ) (rows : List Nat) :
    Option (List LineSegment × List (Nat × Nat)) :=
  rows.foldlM (rowIteration scalarField gridWidth isolevel) ([], [])

/-- The region `#pragma omp parallel { ... }` of `main` with `numThreads`
threads, `owner` and `order` as for `checkpoint_5.parallelRegion`; the
`critical` section has the text of `checkpoint_5`. -/
def parallelRegion (scalarField : List (List ℚ)) (gridWidth gridHeight : Nat) (isolevel : ℚ)
    (numThreads : Nat) (owner : Nat → Nat) (order : List Nat) :
    Option (List LineSegment × List (List (Nat × Nat))) := do
  let results ← perThread
    (fun tid => thread scalarField gridWidth isolevel (threadRows gridHeight owner tid))
    (List.range numThreads)
  pure (checkpoint_5.mergeBuffers (results.map Prod.fst) order, results.map Prod.snd)

/-- The single-thread run of the parallel region of `checkpoint_3`. -/
def singleWorker (scalarField : List (List ℚ)) (gridWidth gridHeight : Nat) (isolevel : ℚ) :
    Option (List LineSegment × List (List (Nat × Nat))) :=
  parallelRegion scalarField gridWidth gridHeight isolevel 1 (fun _ => 0) [0]

end checkpoint_3

/-! ## Derived quantities used in the statements on direct reads -/

/-- The four corner values of the cell `(x, y)` read directly from the flat field,
`field[y*width+x]`, `field[y*width+x+1]`, `field[(y+1)*width+x+1]`,
`field[(y+1)*width+x]` (`0` stands for a sample outside the field). -/
def cellValues (scalarField : List ℚ) (gridWidth : Nat) (x y : Nat) : Fin 4 → ℚ :=
  ![scalarField.getD (y * gridWidth + x) 0, scalarField.getD (y * gridWidth + x + 1) 0,
    scalarField.getD ((y + 1) * gridWidth + x + 1) 0, scalarField.getD ((y + 1) * gridWidth + x) 0]

/-- The segments of the cell `(x, y)` of the flat field, by the specification's
table, on the corner values read directly. -/
def cellSegments (scalarField : List ℚ) (gridWidth : Nat) (isolevel : ℚ) (x y : Nat) :
    List LineSegment :=
  specSegments (checkpoint_5.cellCorners (x : ℚ) (y : ℚ)) (cellValues scalarField gridWidth x y)
    isolevel (checkpoint_5.caseIdx (cellValues scalarField gridWidth x y) isolevel)

/-- Claim C17: a segment of zero length. -/
def ZeroLength (s : LineSegment) : Prop := s.start = s.end_

instance (s : LineSegment) : Decidable (ZeroLength s) := by
  unfold ZeroLength; infer_instance


/-! ## Derived quantities used in the statements on symmetry and counting -/

/-- The four corner values negated (claim C22). -/
def negValues (values : Fin 4 → ℚ) : Fin 4 → ℚ := fun i => -values i

/-- The case index of the cell `c = (x, y)` of the flat field, on the corner
values read directly. -/
def cellCase (scalarField : List ℚ) (gridWidth : Nat) (isolevel : ℚ) (c : Nat × Nat) : Nat :=
  checkpoint_5.caseIdx (cellValues scalarField gridWidth c.1 c.2) isolevel

/-- Claim C22: two segments are the same up to exchanging start and end. -/
def SameUpToExchange (s t : LineSegment) : Prop :=
  t = s ∨ (t.start = s.end_ ∧ t.end_ = s.start)

instance (s t : LineSegment) : Decidable (SameUpToExchange s t) := by
  unfold SameUpToExchange; infer_instance


/-! ## The cell evaluator in binary32 arithmetic

The definitions above compute with exact rationals.  The program computes with
the C++ type `float` (IEEE 754 binary32, round to nearest, ties to even, every
operation rounded on its own to a normal or subnormal number, no fused
multiply-add).  The namespace `binary32` embeds `lerp` and `marchSquare` a second
time with that arithmetic: the same statements, with every operation replaced by
its binary32 counterpart. -/

namespace binary32

/-- A value of type `float`: a finite number, an infinity with its sign, or a
NaN.  The two zeros are the one value `finite 0`: no comparison tells them
apart, and the only operation that does, a division by zero, is never executed
by `lerp` (the guard returns first). -/
inductive F32 where
  | finite (q : ℚ)
  | infinite (negative : Bool)
  | nan
deriving DecidableEq

/-- The nearest integer, a tie going to the even one. -/
def roundHalfEven (x : ℚ) : Int :=
  let f := ⌊x⌋
  if x - f < 1 / 2 then f
  else if 1 / 2 < x - f then f + 1
  else if f % 2 = 0 then f else f + 1

/-- The distance between neighbouring binary32 numbers around `q`: `2^(e-23)` for
`2^e <= |q| < 2^(e+1)`, and `2^(-149)` below `2^(-126)` (subnormal numbers). -/
def quantum (q : ℚ) : ℚ := 2 ^ (max (Int.log 2 |q|) (-126) - 23)

/-- The binary32 number nearest to `q` (ties to even), the exponent range taken
as unbounded above. -/
def roundToGrid (q : ℚ) : ℚ := roundHalfEven (q / quantum q) * quantum q

/-- Results of this magnitude or more round to an infinity: the largest finite
number `2^128 - 2^104` plus half a unit in its last place. -/
def overflowThreshold : ℚ := 2 ^ 128 - 2 ^ 103

/-- The `float` that an operation with the exact result `q` returns. -/
def roundNearestEven (q : ℚ) : F32 :=
  if overflowThreshold ≤ |q| then .infinite (decide (q < 0)) else .finite (roundToGrid q)

/-- The number `q` is a finite binary32 number: rounding returns `q` itself. -/
def Representable (q : ℚ) : Prop := roundNearestEven q = .finite q

instance (q : ℚ) : Decidable (Representable q) := by
  unfold Representable; infer_instance

/-- Operator `+` on `float`. -/
def add : F32 → F32 → F32
  | .finite a, .finite b => roundNearestEven (a + b)
  | .finite _, .infinite t => .infinite t
  | .infinite s, .finite _ => .infinite s
  | .infinite s, .infinite t => if s = t then .infinite s else .nan
  | _, _ => .nan

/-- Operator `-` on `float`. -/
def sub : F32 → F32 → F32
  | .finite a, .finite b => roundNearestEven (a - b)
  | .finite _, .infinite t => .infinite (!t)
  | .infinite s, .finite _ => .infinite s
  | .infinite s, .infinite t => if s = t then .nan else .infinite s
  | _, _ => .nan

/-- Operator `*` on `float`. -/
def mul : F32 → F32 → F32
  | .finite a, .finite b => roundNearestEven (a * b)
  | .finite a, .infinite t => if a = 0 then .nan else .infinite (decide (a < 0) != t)
  | .infinite s, .finite b => if b = 0 then .nan else .infinite (s != decide (b < 0))
  | .infinite s, .infinite t => .infinite (s != t)
  | _, _ => .nan

/-- Operator `/` on `float`.  For a zero divisor the sign of the infinity is that
of the dividend: the sign of a zero is not tracked (`lerp` never divides by
zero). -/
def div : F32 → F32 → F32
  | .finite a, .finite b =>
    if b = 0 then (if a = 0 then .nan else .infinite (decide (a < 0)))
    else roundNearestEven (a / b)
  | .finite _, .infinite _ => .finite 0
  | .infinite s, .finite b => .infinite (s != decide (b < 0))
  | _, _ => .nan

/-- Function `std::fabs` on `float`. -/
def fabs : F32 → F32
  | .finite a => .finite |a|
  | .infinite _ => .infinite false
  | .nan => .nan

/-- Operator `<` on `float`: false when an operand is a NaN. -/
def lt : F32 → F32 → Bool
  | .finite a, .finite b => decide (a < b)
  | .finite _, .infinite t => !t
  | .infinite s, .finite _ => s
  | .infinite s, .infinite t => s && !t
  | _, _ => false

/-- Operator `>=` on `float`: false when an operand is a NaN. -/
def ge : F32 → F32 → Bool
  | .finite a, .finite b => decide (a ≥ b)
  | .finite _, .infinite t => t
  | .infinite s, .finite _ => !s
  | .infinite s, .infinite t => !s || t
  | _, _ => false

/-- Source: `struct Point { float x, y; }`. -/
structure Point where
  x : F32
  y : F32
deriving DecidableEq

/-- Source: `struct LineSegment { Point start, end; }`. -/
structure LineSegment where
  start : Point
  end_ : Point
deriving DecidableEq

/-- Source: `float EPS = 1e-6f;`, the binary32 number nearest to `10^(-6)`. -/
def EPS : F32 := .finite (8796093 / 8796093022208)

/-- Instrumented body of `lerp` in binary32 arithmetic: the returned point and
the list of divisions `(numerator, denominator)` the call executes.

```
float denom = v2 - v1;
if (std::fabs(denom) < EPS) return p1;
float t = (iso - v1) / denom;
return {p1.x + t * (p2.x - p1.x), p1.y + t * (p2.y - p1.y)};
``` -/
def lerpTraced (p1 p2 : Point) (v1 v2 iso : F32) : Point × List (F32 × F32) :=
  let denom := sub v2 v1
  if lt (fabs denom) EPS then
    (p1, [])
  else
    let t := div (sub iso v1) denom
    (⟨add p1.x (mul t (sub p2.x p1.x)), add p1.y (mul t (sub p2.y p1.y))⟩,
      [(sub iso v1, denom)])

/-- Source: `Point lerp(Point p1, Point p2, float v1, float v2, float iso)`. -/
def lerp (p1 p2 : Point) (v1 v2 iso : F32) : Point :=
  (lerpTraced p1 p2 v1 v2 iso).1

/-- Ghost record of one call `lerp(p1, p2, v1, v2, iso)` made by `getEdgePoint`
for the edge `edge`. -/
structure LerpCall where
  edge : Int
  p1 : Point
  p2 : Point
  v1 : F32
  v2 : F32
  iso : F32
deriving DecidableEq

/-- The lambda `getEdgePoint` of `marchSquare`.

```
int c0 = edgeCorners[e][0], c1 = edgeCorners[e][1];
return lerp(corners[c0], corners[c1], values[c0], values[c1], isolevel);
``` -/
def getEdgePoint (edgeCorners : List (List Int)) (corners : Fin 4 → Point)
    (values : Fin 4 → F32) (isolevel : F32) (e : Int) : Option (Point × LerpCall) := do
  let row ← tableRow edgeCorners e
  let c0 ← row[0]?
  let c1 ← row[1]?
  let q0 ← at4 corners c0
  let q1 ← at4 corners c1
  let w0 ← at4 values c0
  let w1 ← at4 values c1
  pure (lerp q0 q1 w0 w1 isolevel, ⟨e, q0, q1, w0, w1, isolevel⟩)

/-- The loop of `marchSquare`, started at `i`.

```
for (int i = 0; i < 4 && pair[i] != -1; i += 2)
    outSegments.push_back({getEdgePoint(pair[i]), getEdgePoint(pair[i + 1])});
``` -/
def segmentLoop (gep : Int → Option (Point × LerpCall)) (pair : List Int) (i : Nat)
    (st : List LineSegment × List LerpCall) : Option (List LineSegment × List LerpCall) :=
  if i < 4 then do
    let a ← pair[i]?
    if a ≠ -1 then do
      let pa ← gep a
      let b ← pair[i + 1]?
      let pb ← gep b
      segmentLoop gep pair (i + 2) (st.1 ++ [⟨pa.1, pb.1⟩], st.2 ++ [pa.2, pb.2])
    else
      pure st
  else
    pure st
termination_by 4 - i
decreasing_by omega

/-- The case index computed by the first statements of `marchSquare`
(`checkpoint_5`).

```
int caseIdx = 0;
if (values[0] >= isolevel) caseIdx |= 1;
if (values[1] >= isolevel) caseIdx |= 2;
if (values[2] >= isolevel) caseIdx |= 4;
if (values[3] >= isolevel) caseIdx |= 8;
``` -/
def caseIdx (values : Fin 4 → F32) (isolevel : F32) : Nat :=
  let caseIdx := 0
  let caseIdx := if ge (values 0) isolevel then caseIdx ||| 1 else caseIdx
  let caseIdx := if ge (values 1) isolevel then caseIdx ||| 2 else caseIdx
  let caseIdx := if ge (values 2) isolevel then caseIdx ||| 4 else caseIdx
  let caseIdx := if ge (values 3) isolevel then caseIdx ||| 8 else caseIdx
  caseIdx

/-- The local array `Point corners[4]` of `marchSquare` (`checkpoint_5`); the
`int` constant `1` is converted to `float`. -/
def cellCorners (cell_x cell_y : F32) : Fin 4 → Point :=
  ![⟨cell_x, cell_y⟩, ⟨add cell_x (.finite 1), cell_y⟩,
    ⟨add cell_x (.finite 1), add cell_y (.finite 1)⟩, ⟨cell_x, add cell_y (.finite 1)⟩]

/-- Source: `void marchSquare(float cell_x, float cell_y, float values[4], float isolevel,
std::vector<LineSegment>& outSegments)` of `checkpoint_5` in binary32 arithmetic,
with the ghost log of its `lerp` calls. -/
def marchSquareTraced (cell_x cell_y : F32) (values : Fin 4 → F32) (isolevel : F32)
    (outSegments : List LineSegment) : Option (List LineSegment × List LerpCall) :=
  let caseIdx := caseIdx values isolevel
  if caseIdx = 0 ∨ caseIdx = 15 then
    some (outSegments, [])
  else do
    let corners := cellCorners cell_x cell_y
    let pair ← checkpoint_5.edgePairs[caseIdx]?
    segmentLoop (getEdgePoint checkpoint_5.edgeCorners corners values isolevel) pair 0
      (outSegments, [])

/-- Function `marchSquare` of `checkpoint_5` in binary32 arithmetic: the output
vector after the call. -/
def marchSquare (cell_x cell_y : F32) (values : Fin 4 → F32) (isolevel : F32)
    (outSegments : List LineSegment) : Option (List LineSegment) :=
  (marchSquareTraced cell_x cell_y values isolevel outSegments).map Prod.fst

/-- Claim C8 in binary32 arithmetic: `t` lies in `[0, 1]` (a NaN does not). -/
def InUnitInterval (t : F32) : Prop := ge t (.finite 0) = true ∧ ge (.finite 1) t = true

instance (t : F32) : Decidable (InUnitInterval t) := by
  unfold InUnitInterval; infer_instance

/-- Claim C8 in binary32 arithmetic: the point has finite coordinates and lies on
the closed edge `e` of the unit cell with origin `(cx, cy)` (a point with an
infinite or NaN coordinate lies on no edge). -/
def LiesOnEdge (cx cy : ℚ) (e : Int) : Point → Prop
  | ⟨.finite x, .finite y⟩ => OnEdge cx cy e ⟨x, y⟩
  | _ => False

/-- Spec §4.3 step 3 in binary32 arithmetic: the crossing point on edge `e`
(compare `specEdgePoint`). -/
def specEdgePoint (corners : Fin 4 → Point) (values : Fin 4 → F32) (isolevel : F32)
    (e : Fin 4) : Point :=
  lerp (corners (specEdgeCorners e).1) (corners (specEdgeCorners e).2)
    (values (specEdgeCorners e).1) (values (specEdgeCorners e).2) isolevel

/-- The `lerp` call that computes `binary32.specEdgePoint`. -/
def specLerpCall (corners : Fin 4 → Point) (values : Fin 4 → F32) (isolevel : F32)
    (e : Fin 4) : LerpCall :=
  ⟨(e.val : Int), corners (specEdgeCorners e).1, corners (specEdgeCorners e).2,
    values (specEdgeCorners e).1, values (specEdgeCorners e).2, isolevel⟩

/-- Spec §4.3 step 3 in binary32 arithmetic: one segment per edge pair of the
case (compare `specSegments`). -/
def specSegments (corners : Fin 4 → Point) (values : Fin 4 → F32) (isolevel : F32)
    (c : Nat) : List LineSegment :=
  (specEdgePairs c).map fun ab =>
    ⟨specEdgePoint corners values isolevel ab.1, specEdgePoint corners values isolevel ab.2⟩

/-- The `lerp` calls behind `binary32.specSegments`, in call order. -/
def specLerpCalls (corners : Fin 4 → Point) (values : Fin 4 → F32) (isolevel : F32)
    (c : Nat) : List LerpCall :=
  (specEdgePairs c).flatMap fun ab =>
    [specLerpCall corners values isolevel ab.1, specLerpCall corners values isolevel ab.2]

/-- The corner values of a cell as `float`s. -/
def ofValues (values : Fin 4 → ℚ) : Fin 4 → F32 := fun i => .finite (values i)

end binary32

/-! # Theorems -/

/-! ## Unfolding lemmas for the cell evaluator -/

theorem segmentLoop_four (gep : Int → Option (Point × LerpCall)) (a b c d : Int)
    (st : List LineSegment × List LerpCall) :
    segmentLoop gep [a, b, c, d] 0 st =
      if a ≠ -1 then
        (gep a).bind fun pa => (gep b).bind fun pb =>
          if c ≠ -1 then
            (gep c).bind fun pc => (gep d).bind fun pd =>
              some (st.1 ++ [⟨pa.1, pb.1⟩, ⟨pc.1, pd.1⟩], st.2 ++ [pa.2, pb.2, pc.2, pd.2])
          else some (st.1 ++ [⟨pa.1, pb.1⟩], st.2 ++ [pa.2, pb.2])
      else some st := by
  have h4 : ∀ s, segmentLoop gep [a, b, c, d] 4 s = some s := by
    intro s; rw [segmentLoop]; simp
  have h2 : ∀ s, segmentLoop gep [a, b, c, d] 2 s =
      if c ≠ -1 then
        (gep c).bind fun pc => (gep d).bind fun pd =>
          some (s.1 ++ [⟨pc.1, pd.1⟩], s.2 ++ [pc.2, pd.2])
      else some s := by
    intro s; rw [segmentLoop]
    simp only [h4]
    by_cases hc : c = -1 <;> simp [hc]
  rw [segmentLoop]
  simp only [h2]
  by_cases ha : a = -1 <;> simp [ha]

theorem getEdgePoint_zero (corners : Fin 4 → Point) (values : Fin 4 → ℚ) (iso : ℚ) :
    getEdgePoint [[0, 1], [1, 2], [2, 3], [3, 0]] corners values iso 0 =
      some (lerp (corners 0) (corners 1) (values 0) (values 1) iso,
        ⟨0, corners 0, corners 1, values 0, values 1, iso⟩) := by
  rfl

theorem getEdgePoint_one (corners : Fin 4 → Point) (values : Fin 4 → ℚ) (iso : ℚ) :
    getEdgePoint [[0, 1], [1, 2], [2, 3], [3, 0]] corners values iso 1 =
      some (lerp (corners 1) (corners 2) (values 1) (values 2) iso,
        ⟨1, corners 1, corners 2, values 1, values 2, iso⟩) := by
  rfl

theorem getEdgePoint_two (corners : Fin 4 → Point) (values : Fin 4 → ℚ) (iso : ℚ) :
    getEdgePoint [[0, 1], [1, 2], [2, 3], [3, 0]] corners values iso 2 =
      some (lerp (corners 2) (corners 3) (values 2) (values 3) iso,
        ⟨2, corners 2, corners 3, values 2, values 3, iso⟩) := by
  rfl

theorem getEdgePoint_three (corners : Fin 4 → Point) (values : Fin 4 → ℚ) (iso : ℚ) :
    getEdgePoint [[0, 1], [1, 2], [2, 3], [3, 0]] corners values iso 3 =
      some (lerp (corners 3) (corners 0) (values 3) (values 0) iso,
        ⟨3, corners 3, corners 0, values 3, values 0, iso⟩) := by
  rfl

/-- The case index in closed form: each corner contributes its own bit. -/
theorem checkpoint_5.caseIdx_eq_sum (values : Fin 4 → ℚ) (iso : ℚ) :
    checkpoint_5.caseIdx values iso =
      (if values 0 ≥ iso then 1 else 0) + (if values 1 ≥ iso then 2 else 0) +
      (if values 2 ≥ iso then 4 else 0) + (if values 3 ≥ iso then 8 else 0) := by
  unfold checkpoint_5.caseIdx
  by_cases h0 : values 0 ≥ iso <;> by_cases h1 : values 1 ≥ iso <;>
    by_cases h2 : values 2 ≥ iso <;> by_cases h3 : values 3 ≥ iso <;>
    simp [h0, h1, h2, h3]

theorem checkpoint_1.caseIdx_eq (values : Fin 4 → ℚ) (iso : ℚ) :
    checkpoint_1.caseIdx values iso = checkpoint_5.caseIdx values iso := by
  have hr : List.finRange 4 = [0, 1, 2, 3] := rfl
  unfold checkpoint_1.caseIdx checkpoint_5.caseIdx
  rw [hr]
  by_cases h0 : values 0 ≥ iso <;> by_cases h1 : values 1 ≥ iso <;>
    by_cases h2 : values 2 ≥ iso <;> by_cases h3 : values 3 ≥ iso <;>
    simp [h0, h1, h2, h3, show ((3 : Fin 4) : Nat) = 3 from rfl]

theorem checkpoint_5.caseIdx_lt (values : Fin 4 → ℚ) (iso : ℚ) :
    checkpoint_5.caseIdx values iso < 16 := by
  rw [checkpoint_5.caseIdx_eq_sum]
  split_ifs <;> omega

theorem checkpoint_5.testBit_caseIdx (values : Fin 4 → ℚ) (iso : ℚ) (i : Fin 4) :
    (checkpoint_5.caseIdx values iso).testBit i.val = true ↔ values i ≥ iso := by
  rw [checkpoint_5.caseIdx_eq_sum]
  by_cases h0 : values 0 ≥ iso <;> by_cases h1 : values 1 ≥ iso <;>
    by_cases h2 : values 2 ≥ iso <;> by_cases h3 : values 3 ≥ iso <;>
    fin_cases i <;> simp [h0, h1, h2, h3] <;> decide

/-- The output-parameter `marchSquare` computes the specification's segments
and appends them; its `lerp` calls are the specification's. -/
theorem checkpoint_5.marchSquareTraced_eq (cx cy : ℚ) (values : Fin 4 → ℚ) (iso : ℚ)
    (out : List LineSegment) :
    checkpoint_5.marchSquareTraced cx cy values iso out =
      some (out ++ specSegments (checkpoint_5.cellCorners cx cy) values iso
          (checkpoint_5.caseIdx values iso),
        specLerpCalls (checkpoint_5.cellCorners cx cy) values iso
          (checkpoint_5.caseIdx values iso)) := by
  obtain ⟨c, hc⟩ : ∃ c, checkpoint_5.caseIdx values iso = c := ⟨_, rfl⟩
  have hlt := checkpoint_5.caseIdx_lt values iso
  simp only [checkpoint_5.marchSquareTraced, hc]
  rw [hc] at hlt
  interval_cases c <;>
    simp [checkpoint_5.edgePairs, checkpoint_5.edgeCorners, segmentLoop_four,
      getEdgePoint_zero, getEdgePoint_one, getEdgePoint_two, getEdgePoint_three,
      specSegments, specLerpCalls, specEdgePairs, specEdgePoint, specLerpCall, specEdgeCorners,
      show ((3 : Fin 4) : Nat) = 3 from rfl]

theorem checkpoint_1.marchSquareTraced_spec (corners : Fin 4 → Point) (values : Fin 4 → ℚ)
    (iso : ℚ) :
    checkpoint_1.marchSquareTraced corners values iso =
      some (specSegments corners values iso (checkpoint_1.caseIdx values iso),
        specLerpCalls corners values iso (checkpoint_1.caseIdx values iso)) := by
  obtain ⟨c, hc⟩ : ∃ c, checkpoint_1.caseIdx values iso = c := ⟨_, rfl⟩
  have hlt := checkpoint_5.caseIdx_lt values iso
  simp only [checkpoint_1.marchSquareTraced, hc]
  rw [← checkpoint_1.caseIdx_eq, hc] at hlt
  interval_cases c <;>
    simp [checkpoint_1.edgePairs, checkpoint_1.edgeCorners, segmentLoop_four,
      getEdgePoint_zero, getEdgePoint_one, getEdgePoint_two, getEdgePoint_three,
      specSegments, specLerpCalls, specEdgePairs, specEdgePoint, specLerpCall, specEdgeCorners,
      show ((3 : Fin 4) : Nat) = 3 from rfl]

theorem checkpoint_5.marchSquare_eq (cx cy : ℚ) (values : Fin 4 → ℚ) (iso : ℚ)
    (out : List LineSegment) :
    checkpoint_5.marchSquare cx cy values iso out =
      some (out ++ specSegments (checkpoint_5.cellCorners cx cy) values iso
          (checkpoint_5.caseIdx values iso)) := by
  simp [checkpoint_5.marchSquare, checkpoint_5.marchSquareTraced_eq]

theorem checkpoint_1.marchSquare_spec (corners : Fin 4 → Point) (values : Fin 4 → ℚ)
    (iso : ℚ) :
    checkpoint_1.marchSquare corners values iso =
      some (specSegments corners values iso (checkpoint_1.caseIdx values iso)) := by
  simp [checkpoint_1.marchSquare, checkpoint_1.marchSquareTraced_spec]

/-- Each row of `edgePairs`, read pairwise, is the specification's list of edge
pairs for that case. -/
theorem checkpoint_5.rowPairs_edgePairs (c : Nat) (hc : c < 16) :
    ∃ pair, checkpoint_5.edgePairs[c]? = some pair ∧
      rowPairs pair = (specEdgePairs c).map (fun ab => ((ab.1.val : Int), (ab.2.val : Int))) := by
  interval_cases c <;> exact ⟨_, rfl, by decide⟩

/-- The specification's crossing point is the value of the `lerp` call the
claim writes with the code's `edgeCorners`. -/
theorem checkpoint_5.isEdgePoint_spec (corners : Fin 4 → Point) (values : Fin 4 → ℚ) (iso : ℚ)
    (e : Fin 4) :
    IsEdgePoint checkpoint_5.edgeCorners corners values iso (e.val : Int)
      (specEdgePoint corners values iso e) :=
  ⟨(specEdgeCorners e).1, (specEdgeCorners e).2, by revert e; decide, rfl⟩

theorem specSegments_length (corners : Fin 4 → Point) (values : Fin 4 → ℚ) (iso : ℚ) (c : Nat) :
    (specSegments corners values iso c).length = (specEdgePairs c).length := by
  simp [specSegments]

theorem specEdgePairs_length (c : Nat) (hc : c < 16) :
    (specEdgePairs c).length =
      if c = 0 ∨ c = 15 then 0 else if c = 5 ∨ c = 10 then 2 else 1 := by
  interval_cases c <;> rfl

/-- The case index is `0` exactly when every corner is below the isolevel. -/
theorem checkpoint_5.caseIdx_eq_zero_iff (values : Fin 4 → ℚ) (iso : ℚ) :
    checkpoint_5.caseIdx values iso = 0 ↔ ∀ i : Fin 4, values i < iso := by
  rw [checkpoint_5.caseIdx_eq_sum]
  constructor
  · intro h i
    by_contra hi
    have hi := not_lt.mp hi
    fin_cases i <;> simp only [Fin.zero_eta, Fin.mk_one, Fin.reduceFinMk] at hi <;>
      rw [if_pos hi] at h <;> omega
  · intro h
    have h0 := not_le.mpr (h 0)
    have h1 := not_le.mpr (h 1)
    have h2 := not_le.mpr (h 2)
    have h3 := not_le.mpr (h 3)
    simp [h0, h1, h2, h3]

/-- The case index is `15` exactly when every corner is at or above the isolevel. -/
theorem checkpoint_5.caseIdx_eq_fifteen_iff (values : Fin 4 → ℚ) (iso : ℚ) :
    checkpoint_5.caseIdx values iso = 15 ↔ ∀ i : Fin 4, values i ≥ iso := by
  rw [checkpoint_5.caseIdx_eq_sum]
  constructor
  · intro h i
    by_contra hi
    fin_cases i <;> simp only [Fin.zero_eta, Fin.mk_one, Fin.reduceFinMk] at hi <;>
      rw [if_neg hi] at h <;> split_ifs at h <;> omega
  · intro h
    simp [h 0, h 1, h 2, h 3]

/-- In every case of the specification's table, each listed edge joins a corner
whose bit is set to a corner whose bit is clear. -/
theorem specEdgePairs_bits_differ (c : Nat) (hc : c < 16) :
    ∀ ab ∈ specEdgePairs c, ∀ e ∈ [ab.1, ab.2],
      c.testBit (specEdgeCorners e).1.val ≠ c.testBit (specEdgeCorners e).2.val := by
  interval_cases c <;> decide

/-- On a crossed edge `lerp` returns `p1 + t * (p2 - p1)` for some `t` in
`[0, 1]` (`t = 0` on the guarded path), and a division it executes has its
quotient in `[0, 1]`. -/
theorem lerp_of_crossed (p1 p2 : Point) (v1 v2 iso : ℚ) (h : Crossed v1 v2 iso) :
    (∃ t : ℚ, 0 ≤ t ∧ t ≤ 1 ∧
      lerp p1 p2 v1 v2 iso = ⟨p1.x + t * (p2.x - p1.x), p1.y + t * (p2.y - p1.y)⟩) ∧
    ∀ nd ∈ (lerpTraced p1 p2 v1 v2 iso).2, 0 ≤ nd.1 / nd.2 ∧ nd.1 / nd.2 ≤ 1 := by
  by_cases hg : |v2 - v1| < EPS
  · refine ⟨⟨0, le_refl _, zero_le_one, ?_⟩, ?_⟩
    · simp [lerp, lerpTraced, hg]
    · simp [lerpTraced, hg]
  · have ht : 0 ≤ (iso - v1) / (v2 - v1) ∧ (iso - v1) / (v2 - v1) ≤ 1 := by
      rcases h with ⟨h1, h2⟩ | ⟨h1, h2⟩
      · have h2 := not_le.mp h2
        have hneg : v2 - v1 < 0 := by linarith
        constructor
        · exact div_nonneg_of_nonpos (by linarith) hneg.le
        · rw [div_le_one_of_neg hneg]; linarith
      · have h1 := not_le.mp h1
        have hpos : 0 < v2 - v1 := by linarith
        constructor
        · exact div_nonneg (by linarith) hpos.le
        · rw [div_le_one hpos]; linarith
    refine ⟨⟨(iso - v1) / (v2 - v1), ht.1, ht.2, ?_⟩, ?_⟩
    · simp [lerp, lerpTraced, hg]
    · simp only [lerpTraced, hg, if_false, List.mem_singleton]
      rintro nd rfl
      exact ht

/-- A point `p1 + t * (p2 - p1)`, `t` in `[0, 1]`, between the two corners of
edge `e` of the unit cell lies on that closed edge. -/
theorem onEdge_of_interpolant (cx cy : ℚ) (e : Fin 4) (t : ℚ) (h0 : 0 ≤ t) (h1 : t ≤ 1) :
    OnEdge cx cy (e.val : Int)
      ⟨(checkpoint_5.cellCorners cx cy (specEdgeCorners e).1).x +
          t * ((checkpoint_5.cellCorners cx cy (specEdgeCorners e).2).x -
            (checkpoint_5.cellCorners cx cy (specEdgeCorners e).1).x),
        (checkpoint_5.cellCorners cx cy (specEdgeCorners e).1).y +
          t * ((checkpoint_5.cellCorners cx cy (specEdgeCorners e).2).y -
            (checkpoint_5.cellCorners cx cy (specEdgeCorners e).1).y)⟩ := by
  fin_cases e
  · refine Or.inl ⟨rfl, ?_, ?_, ?_⟩ <;>
      simp [checkpoint_5.cellCorners, specEdgeCorners] <;> linarith
  · refine Or.inr (Or.inl ⟨rfl, ?_, ?_, ?_⟩) <;>
      simp [checkpoint_5.cellCorners, specEdgeCorners] <;> linarith
  · refine Or.inr (Or.inr (Or.inl ⟨rfl, ?_, ?_, ?_⟩)) <;>
      simp [checkpoint_5.cellCorners, specEdgeCorners] <;> linarith
  · refine Or.inr (Or.inr (Or.inr ⟨rfl, ?_, ?_, ?_⟩)) <;>
      simp [checkpoint_5.cellCorners, specEdgeCorners] <;> linarith

/-- Every edge the specification's table lists for the case index of a cell is
crossed. -/
theorem checkpoint_5.crossed_of_mem (values : Fin 4 → ℚ) (iso : ℚ) :
    ∀ ab ∈ specEdgePairs (checkpoint_5.caseIdx values iso), ∀ e ∈ [ab.1, ab.2],
      Crossed (values (specEdgeCorners e).1) (values (specEdgeCorners e).2) iso := by
  intro ab hab e he
  have hne := specEdgePairs_bits_differ _ (checkpoint_5.caseIdx_lt values iso) ab hab e he
  have hb := checkpoint_5.testBit_caseIdx values iso
  unfold Crossed
  by_cases h1 : values (specEdgeCorners e).1 ≥ iso <;>
    by_cases h2 : values (specEdgeCorners e).2 ≥ iso
  · exact absurd (((hb _).mpr h1).trans ((hb _).mpr h2).symm) hne
  · exact Or.inl ⟨h1, h2⟩
  · exact Or.inr ⟨h1, h2⟩
  · have e1 : (checkpoint_5.caseIdx values iso).testBit (specEdgeCorners e).1.val = false := by
      rw [← Bool.not_eq_true, hb]; exact h1
    have e2 : (checkpoint_5.caseIdx values iso).testBit (specEdgeCorners e).2.val = false := by
      rw [← Bool.not_eq_true, hb]; exact h2
    exact absurd (e1.trans e2.symm) hne

/-! ## Lemmas on the traversal -/

/-- One cell appends the specification's segments of the cell and logs the cell;
it fails only on an out-of-bounds read. -/
theorem checkpoint_5.cellIteration_eq (F : List ℚ) (w : Nat) (iso : ℚ) (y : Nat)
    (st : checkpoint_5.RowState) (x : Nat) :
    checkpoint_5.cellIteration F w iso y st x =
      (F[y * w + (x + 1)]?).bind fun rt => (F[(y + 1) * w + (x + 1)]?).bind fun rb =>
        some ⟨rt, rb,
          st.privateSegments ++
            specSegments (checkpoint_5.cellCorners (x : ℚ) (y : ℚ))
              ![st.left_top_val, rt, rb, st.left_bottom_val] iso
              (checkpoint_5.caseIdx ![st.left_top_val, rt, rb, st.left_bottom_val] iso),
          st.calls ++ [(x, y)]⟩ := by
  unfold checkpoint_5.cellIteration
  cases h1 : F[y * w + (x + 1)]? with
  | none => rfl
  | some rt =>
    cases h2 : F[(y + 1) * w + (x + 1)]? with
    | none => rfl
    | some rb => simp [checkpoint_5.marchSquare_eq]

/-- The scan of a row only appends to the buffer and the log it starts from. -/
theorem checkpoint_5.foldlM_cellIteration_appends (F : List ℚ) (w : Nat) (iso : ℚ) (y : Nat)
    (xs : List Nat) :
    ∀ (lt lb : ℚ) (segs : List LineSegment) (calls : List (Nat × Nat)),
      xs.foldlM (checkpoint_5.cellIteration F w iso y) ⟨lt, lb, segs, calls⟩ =
        (xs.foldlM (checkpoint_5.cellIteration F w iso y) ⟨lt, lb, [], []⟩).map
          fun st => ⟨st.left_top_val, st.left_bottom_val,
            segs ++ st.privateSegments, calls ++ st.calls⟩ := by
  induction xs with
  | nil => intro lt lb segs calls; simp
  | cons x xs ih =>
    intro lt lb segs calls
    simp only [List.foldlM_cons, checkpoint_5.cellIteration_eq]
    cases h1 : F[y * w + (x + 1)]? with
    | none => rfl
    | some rt =>
      cases h2 : F[(y + 1) * w + (x + 1)]? with
      | none => rfl
      | some rb =>
        simp only [Option.some_bind, Option.bind_eq_bind, List.nil_append]
        rw [ih rt rb (segs ++ _) (calls ++ _), ih rt rb (specSegments _ _ _ _) [(x, y)]]
        cases xs.foldlM (checkpoint_5.cellIteration F w iso y) ⟨rt, rb, [], []⟩ with
        | none => rfl
        | some st => simp

theorem checkpoint_5.rowIteration_appends (F : List ℚ) (w : Nat) (iso : ℚ)
    (buf : List LineSegment × List (Nat × Nat)) (y : Nat) :
    checkpoint_5.rowIteration F w iso buf y =
      (checkpoint_5.rowIteration F w iso ([], []) y).map
        fun r => (buf.1 ++ r.1, buf.2 ++ r.2) := by
  unfold checkpoint_5.rowIteration
  cases h1 : F[y * w]? with
  | none => rfl
  | some lt =>
    cases h2 : F[(y + 1) * w]? with
    | none => rfl
    | some lb =>
      simp only [Option.some_bind, Option.bind_eq_bind]
      rw [checkpoint_5.foldlM_cellIteration_appends F w iso y _ lt lb buf.1 buf.2]
      cases (List.range (w - 1)).foldlM (checkpoint_5.cellIteration F w iso y) ⟨lt, lb, [], []⟩ with
      | none => rfl
      | some st => simp

/-- A thread whose rows all scan successfully ends with the concatenation of
the row outputs. -/
theorem checkpoint_5.foldlM_rowIteration_of_isSome (F : List ℚ) (w : Nat) (iso : ℚ)
    (rows : List Nat)
    (h : ∀ y ∈ rows, (checkpoint_5.rowIteration F w iso ([], []) y).isSome = true) :
    ∀ buf, rows.foldlM (checkpoint_5.rowIteration F w iso) buf =
      some (buf.1 ++ rows.flatMap (fun y => (checkpoint_5.rowOutput F w iso y).1),
        buf.2 ++ rows.flatMap (fun y => (checkpoint_5.rowOutput F w iso y).2)) := by
  induction rows with
  | nil => intro buf; simp
  | cons y rows ih =>
    intro buf
    have hy := h y (List.mem_cons_self _ _)
    obtain ⟨r, hr⟩ := Option.isSome_iff_exists.mp hy
    rw [List.foldlM_cons, checkpoint_5.rowIteration_appends, hr]
    simp only [Option.map_some', Option.some_bind, Option.bind_eq_bind]
    rw [ih (fun z hz => h z (List.mem_cons_of_mem _ hz))]
    simp [checkpoint_5.rowOutput, hr]

/-- A thread that is handed a row whose scan fails, fails. -/
theorem checkpoint_5.foldlM_rowIteration_of_none (F : List ℚ) (w : Nat) (iso : ℚ)
    (rows : List Nat)
    (h : ∃ y ∈ rows, checkpoint_5.rowIteration F w iso ([], []) y = none) :
    ∀ buf, rows.foldlM (checkpoint_5.rowIteration F w iso) buf = none := by
  induction rows with
  | nil => obtain ⟨y, hy, -⟩ := h; exact absurd hy (List.not_mem_nil _)
  | cons y rows ih =>
    intro buf
    rw [List.foldlM_cons, checkpoint_5.rowIteration_appends]
    cases hr : checkpoint_5.rowIteration F w iso ([], []) y with
    | none => rfl
    | some r =>
      simp only [Option.map_some', Option.some_bind, Option.bind_eq_bind]
      obtain ⟨z, hz, hnone⟩ := h
      rcases List.mem_cons.mp hz with rfl | hz
      · rw [hr] at hnone; exact absurd hnone (by simp)
      · exact ih ⟨z, hz, hnone⟩ _

theorem perThread_of_isSome {β : Type} (f : Nat → Option β) (g : Nat → β) (tids : List Nat)
    (h : ∀ tid ∈ tids, f tid = some (g tid)) : perThread f tids = some (tids.map g) := by
  induction tids with
  | nil => rfl
  | cons t ts ih =>
    simp [perThread, h t (List.mem_cons_self _ _),
      ih (fun z hz => h z (List.mem_cons_of_mem _ hz))]

theorem perThread_of_none {β : Type} (f : Nat → Option β) (tids : List Nat)
    (h : ∃ tid ∈ tids, f tid = none) : perThread f tids = none := by
  induction tids with
  | nil => obtain ⟨y, hy, -⟩ := h; exact absurd hy (List.not_mem_nil _)
  | cons t ts ih =>
    obtain ⟨z, hz, hnone⟩ := h
    cases hf : f t with
    | none => simp [perThread, hf]
    | some r =>
      rcases List.mem_cons.mp hz with rfl | hz
      · rw [hf] at hnone; exact absurd hnone (by simp)
      · simp [perThread, hf, ih ⟨z, hz, hnone⟩]

theorem checkpoint_5.mergeBuffers_eq (buffers : List (List LineSegment)) (order : List Nat) :
    checkpoint_5.mergeBuffers buffers order = order.flatMap (fun tid => buffers.getD tid []) := by
  have h : ∀ (acc : List LineSegment),
      order.foldl (fun allSegments tid => allSegments ++ buffers.getD tid []) acc =
        acc ++ order.flatMap (fun tid => buffers.getD tid []) := by
    induction order with
    | nil => intro acc; simp
    | cons t ts ih =>
      intro acc
      simp only [List.foldl_cons, List.flatMap_cons, ih, List.append_assoc]
  simpa [checkpoint_5.mergeBuffers] using h []

/-- The rows with owner below `W + 1` are those with owner below `W` together
with those owned by `W`. -/
theorem filter_owner_succ (owner : Nat → Nat) (W : Nat) (l : List Nat) :
    (l.filter fun y => owner y < W + 1).Perm
      ((l.filter fun y => owner y < W) ++ l.filter fun y => owner y = W) := by
  induction l with
  | nil => simp
  | cons y l ih =>
    by_cases h1 : owner y < W
    · have h2 : owner y < W + 1 := by omega
      have h3 : owner y ≠ W := by omega
      simpa [List.filter_cons, h1, h2, h3] using ih
    · by_cases h3 : owner y = W
      · have h2 : owner y < W + 1 := by omega
        simp only [List.filter_cons, h1, h2, h3, decide_True, decide_False, if_true]
        simp only [h3, lt_irrefl, lt_add_one, decide_True, decide_False, if_true,
          Bool.false_eq_true, if_false] at ih ⊢
        exact (List.Perm.cons y ih).trans List.perm_middle.symm
      · have h2 : ¬ owner y < W + 1 := by omega
        simpa [List.filter_cons, h1, h2, h3] using ih

/-- The worksharing loop hands every iteration to exactly one thread: the rows
of all threads together are a permutation of the iteration space. -/
theorem threadRows_perm (gridHeight : Nat) (owner : Nat → Nat) (W : Nat)
    (h : ∀ y, y < gridHeight - 1 → owner y < W) :
    ((List.range W).flatMap (threadRows gridHeight owner)).Perm (List.range (gridHeight - 1)) := by
  have key : ∀ V, ((List.range V).flatMap (threadRows gridHeight owner)).Perm
      ((List.range (gridHeight - 1)).filter fun y => owner y < V) := by
    intro V
    induction V with
    | zero => simp
    | succ V ih =>
      rw [List.range_succ, List.flatMap_append, List.flatMap_singleton]
      exact (List.Perm.append_right _ ih).trans (filter_owner_succ owner V _).symm
  have hall : ((List.range (gridHeight - 1)).filter fun y => owner y < W) =
      List.range (gridHeight - 1) :=
    List.filter_eq_self.mpr fun y hy => by simpa using h y (List.mem_range.mp hy)
  rw [← hall]
  exact key W

/-- The buffers and logs of the threads when every row of the grid scans
successfully. -/
theorem checkpoint_5.parallelRegion_of_isSome (F : List ℚ) (w h : Nat) (iso : ℚ)
    (W : Nat) (owner : Nat → Nat) (order : List Nat)
    (hrows : ∀ y, y < h - 1 → (checkpoint_5.rowIteration F w iso ([], []) y).isSome = true) :
    checkpoint_5.parallelRegion F w h iso W owner order =
      some (order.flatMap (fun tid => ((List.range W).map fun t =>
          (threadRows h owner t).flatMap fun y => (checkpoint_5.rowOutput F w iso y).1).getD tid []),
        (List.range W).map fun t =>
          (threadRows h owner t).flatMap fun y => (checkpoint_5.rowOutput F w iso y).2) := by
  have hthread : ∀ tid ∈ List.range W,
      checkpoint_5.thread F w iso (threadRows h owner tid) =
        some ((threadRows h owner tid).flatMap (fun y => (checkpoint_5.rowOutput F w iso y).1),
          (threadRows h owner tid).flatMap (fun y => (checkpoint_5.rowOutput F w iso y).2)) := by
    intro tid _
    have := checkpoint_5.foldlM_rowIteration_of_isSome F w iso (threadRows h owner tid)
      (fun y hy => hrows y (List.mem_range.mp (List.mem_filter.mp hy).1)) ([], [])
    simpa [checkpoint_5.thread] using this
  unfold checkpoint_5.parallelRegion
  rw [perThread_of_isSome _ _ _ hthread]
  simp [checkpoint_5.mergeBuffers_eq, Function.comp_def]

/-- Appending the buffers `threadSegments` of `alternative_optimizations` in the
order `order` gives `allSegments` of `checkpoint_5`. -/
theorem alternative_optimizations.merge_fillBuffers (F : List ℚ) (w h : Nat) (iso : ℚ)
    (W : Nat) (owner : Nat → Nat) (order : List Nat) :
    (alternative_optimizations.fillBuffers F w h iso W owner).map
        (fun threadSegments => checkpoint_5.mergeBuffers threadSegments order) =
      (checkpoint_5.parallelRegion F w h iso W owner order).map Prod.fst := by
  unfold alternative_optimizations.fillBuffers checkpoint_5.parallelRegion
  cases perThread (fun tid => checkpoint_5.thread F w iso (threadRows h owner tid))
      (List.range W) with
  | none => rfl
  | some results => rfl

/-- A thread of `alternative_optimizations` whose reservation fits runs its rows
as a thread of `checkpoint_5` does. -/
theorem alternative_optimizations.thread_of_fit (F : List ℚ) (w h : Nat) (iso : ℚ) (W : Nat)
    (rows : List Nat)
    (hfit : alternative_optimizations.reservedCapacity w h W ≤
      alternative_optimizations.maxSize) :
    alternative_optimizations.thread F w h iso W rows = checkpoint_5.thread F w iso rows := by
  unfold alternative_optimizations.thread alternative_optimizations.reserve
  rw [if_pos hfit]
  rfl

/-- A thread of `alternative_optimizations` whose reservation exceeds
`max_size()` fails. -/
theorem alternative_optimizations.thread_of_not_fit (F : List ℚ) (w h : Nat) (iso : ℚ) (W : Nat)
    (rows : List Nat)
    (hfit : ¬ alternative_optimizations.reservedCapacity w h W ≤
      alternative_optimizations.maxSize) :
    alternative_optimizations.thread F w h iso W rows = none := by
  unfold alternative_optimizations.thread alternative_optimizations.reserve
  rw [if_neg hfit]
  rfl

/-- The region of `alternative_optimizations` is its worksharing loops when the
reservation fits (or no thread runs), and fails when a thread runs and the
reservation exceeds `max_size()`. -/
theorem alternative_optimizations.parallelRegion_eq (F : List ℚ) (w h : Nat) (iso : ℚ)
    (W : Nat) (owner : Nat → Nat) :
    alternative_optimizations.parallelRegion F w h iso W owner =
      if W = 0 ∨ alternative_optimizations.reservedCapacity w h W ≤
          alternative_optimizations.maxSize then
        alternative_optimizations.fillBuffers F w h iso W owner
      else none := by
  unfold alternative_optimizations.parallelRegion alternative_optimizations.fillBuffers
  by_cases hfit : alternative_optimizations.reservedCapacity w h W ≤
      alternative_optimizations.maxSize
  · have hthread : (fun tid => alternative_optimizations.thread F w h iso W
          (threadRows h owner tid)) =
        fun tid => checkpoint_5.thread F w iso (threadRows h owner tid) :=
      funext fun tid => alternative_optimizations.thread_of_fit F w h iso W _ hfit
    rw [hthread, if_pos (Or.inr hfit)]
  · by_cases hW : W = 0
    · rw [if_pos (Or.inl hW), hW, List.range_zero]
      simp only [perThread]
    · have hnone : ∃ tid ∈ List.range W, alternative_optimizations.thread F w h iso W
          (threadRows h owner tid) = none :=
        ⟨0, List.mem_range.mpr (Nat.pos_of_ne_zero hW),
          alternative_optimizations.thread_of_not_fit F w h iso W _ hfit⟩
      have hcond : ¬ (W = 0 ∨ alternative_optimizations.reservedCapacity w h W ≤
          alternative_optimizations.maxSize) := fun hc => hc.elim hW hfit
      rw [perThread_of_none _ _ hnone, if_neg hcond]
      simp only [Option.none_bind, Option.bind_eq_bind]

/-- With every iteration owned by a thread below `W` and the threads merging in
an order that is a permutation of `0..W-1`, the merged segments are a
permutation of the row outputs in row order. -/
theorem checkpoint_5.merged_perm (F : List ℚ) (w h : Nat) (iso : ℚ)
    (W : Nat) (owner : Nat → Nat) (order : List Nat)
    (howner : ∀ y, y < h - 1 → owner y < W) (horder : order.Perm (List.range W)) :
    (order.flatMap (fun tid => ((List.range W).map fun t =>
        (threadRows h owner t).flatMap fun y => (checkpoint_5.rowOutput F w iso y).1).getD tid [])).Perm
      ((List.range (h - 1)).flatMap fun y => (checkpoint_5.rowOutput F w iso y).1) := by
  refine (List.Perm.flatMap_right _ horder).trans ?_
  have hcongr : ((List.range W).flatMap (fun tid => ((List.range W).map fun t =>
        (threadRows h owner t).flatMap fun y => (checkpoint_5.rowOutput F w iso y).1).getD tid [])).Perm
      ((List.range W).flatMap fun t =>
        (threadRows h owner t).flatMap fun y => (checkpoint_5.rowOutput F w iso y).1) := by
    refine List.Perm.flatMap_left _ fun tid htid => ?_
    have hlt := List.mem_range.mp htid
    simp [List.getD_eq_getElem?_getD, hlt]
  refine hcongr.trans ?_
  rw [← List.flatMap_assoc]
  exact List.Perm.flatMap_right _ (threadRows_perm h owner W howner)

/-- The logs of all threads together are a permutation of the row logs in row
order. -/
theorem checkpoint_5.logs_perm (F : List ℚ) (w h : Nat) (iso : ℚ)
    (W : Nat) (owner : Nat → Nat) (howner : ∀ y, y < h - 1 → owner y < W) :
    (((List.range W).map fun t =>
        (threadRows h owner t).flatMap fun y => (checkpoint_5.rowOutput F w iso y).2).flatten).Perm
      ((List.range (h - 1)).flatMap fun y => (checkpoint_5.rowOutput F w iso y).2) := by
  rw [← List.flatMap_def, ← List.flatMap_assoc]
  exact List.Perm.flatMap_right _ (threadRows_perm h owner W howner)

/-- If the scan of some row of the grid fails, the parallel region fails,
whichever thread owns the row. -/
theorem checkpoint_5.parallelRegion_of_none (F : List ℚ) (w h : Nat) (iso : ℚ)
    (W : Nat) (owner : Nat → Nat) (order : List Nat)
    (howner : ∀ y, y < h - 1 → owner y < W)
    (hrow : ∃ y, y < h - 1 ∧ checkpoint_5.rowIteration F w iso ([], []) y = none) :
    checkpoint_5.parallelRegion F w h iso W owner order = none := by
  obtain ⟨y, hy, hnone⟩ := hrow
  have hthread : checkpoint_5.thread F w iso (threadRows h owner (owner y)) = none :=
    checkpoint_5.foldlM_rowIteration_of_none F w iso _
      ⟨y, List.mem_filter.mpr ⟨List.mem_range.mpr hy, by simp⟩, hnone⟩ _
  unfold checkpoint_5.parallelRegion
  rw [perThread_of_none _ _ ⟨owner y, List.mem_range.mpr (howner y hy), hthread⟩]
  rfl

/-- On a field of `w * h` samples with `w ≥ 1`, the scan of the cells of a row
`y < h - 1` reads in bounds and logs each cell it is given, in order. -/
theorem checkpoint_5.foldlM_cellIteration_wf (F : List ℚ) (w h : Nat) (iso : ℚ) (y : Nat)
    (hF : F.length = w * h) (hy : y < h - 1) (xs : List Nat) (hxs : ∀ x ∈ xs, x + 1 < w) :
    ∀ st : checkpoint_5.RowState, ∃ st',
      xs.foldlM (checkpoint_5.cellIteration F w iso y) st = some st' ∧
      st'.calls = st.calls ++ xs.map fun x => (x, y) := by
  induction xs with
  | nil => intro st; exact ⟨st, rfl, by simp⟩
  | cons x xs ih =>
    intro st
    have hx : x + 1 < w := hxs x (List.mem_cons_self _ _)
    have hle : (y + 2) * w ≤ w * h := by
      rw [Nat.mul_comm w h]
      exact Nat.mul_le_mul_right w (by omega)
    have e : (y + 2) * w = (y + 1) * w + w := by ring
    have e1 : (y + 1) * w = y * w + w := by ring
    have b1 : y * w + (x + 1) < F.length := by omega
    have b2 : (y + 1) * w + (x + 1) < F.length := by omega
    rw [List.foldlM_cons, checkpoint_5.cellIteration_eq,
      List.getElem?_eq_getElem b1, List.getElem?_eq_getElem b2]
    simp only [Option.some_bind, Option.bind_eq_bind]
    obtain ⟨st', hst', hcalls⟩ := ih (fun z hz => hxs z (List.mem_cons_of_mem _ hz))
      ⟨F[y * w + (x + 1)], F[(y + 1) * w + (x + 1)], _, st.calls ++ [(x, y)]⟩
    exact ⟨st', hst', by simp [hcalls]⟩

/-- On a field of `w * h` samples with `w ≥ 1`, the scan of a row `y < h - 1`
succeeds and evaluates the cells `(0, y), .., (w - 2, y)` in this order. -/
theorem checkpoint_5.rowIteration_wf (F : List ℚ) (w h : Nat) (iso : ℚ) (y : Nat)
    (hF : F.length = w * h) (hw : 1 ≤ w) (hy : y < h - 1) :
    ∃ segs, checkpoint_5.rowIteration F w iso ([], []) y =
      some (segs, (List.range (w - 1)).map fun x => (x, y)) := by
  have hle : (y + 2) * w ≤ w * h := by
    rw [Nat.mul_comm w h]
    exact Nat.mul_le_mul_right w (by omega)
  have e : (y + 2) * w = (y + 1) * w + w := by ring
  have e1 : (y + 1) * w = y * w + w := by ring
  have b1 : y * w < F.length := by omega
  have b2 : (y + 1) * w < F.length := by omega
  obtain ⟨st', hst', hcalls⟩ := checkpoint_5.foldlM_cellIteration_wf F w h iso y hF hy
    (List.range (w - 1)) (fun x hx => by have := List.mem_range.mp hx; omega)
    ⟨F[y * w], F[(y + 1) * w], [], []⟩
  refine ⟨st'.privateSegments, ?_⟩
  unfold checkpoint_5.rowIteration
  rw [List.getElem?_eq_getElem b1, List.getElem?_eq_getElem b2]
  simp only [Option.some_bind, Option.bind_eq_bind, hst']
  simp [hcalls]

/-- The row-major list of cells holds exactly the cells `(x, y)` with
`x ≤ w - 2` and `y ≤ h - 2`. -/
theorem mem_specCells (w h x y : Nat) :
    (x, y) ∈ specCells w h ↔ x + 2 ≤ w ∧ y + 2 ≤ h := by
  simp only [specCells, List.mem_flatMap, List.mem_map, List.mem_range, Prod.mk.injEq]
  constructor
  · rintro ⟨b, hb, a, ha, rfl, rfl⟩; omega
  · rintro ⟨hx, hy⟩; exact ⟨y, by omega, x, by omega, rfl, rfl⟩

/-- No cell occurs twice in the row-major list of cells. -/
theorem nodup_specCells (w h : Nat) : (specCells w h).Nodup := by
  rw [specCells, List.nodup_flatMap]
  refine ⟨fun b _ => ?_, ?_⟩
  · exact (List.nodup_range _).map (fun a a' haa => by simpa using haa)
  · refine (List.nodup_range _).pairwise_of_forall_ne fun b _ b' _ hbb => ?_
    simp only [Function.onFun, List.disjoint_left, List.mem_map, List.mem_range]
    rintro ⟨p, q⟩ ⟨a, _, ha⟩ ⟨a', _, ha'⟩
    simp only [Prod.mk.injEq] at ha ha'
    exact hbb (ha.2.trans ha'.2.symm)

theorem specCells_length (w h : Nat) : (specCells w h).length = (w - 1) * (h - 1) := by
  simp [specCells, List.length_flatMap, Function.comp_def, Nat.mul_comm]

theorem checkpoint_1.readField_wf (F : List (List ℚ)) (w y x : Nat) (hy : y < F.length)
    (hrow : ∀ row ∈ F, row.length = w) (hx : x < w) :
    ∃ v, checkpoint_1.readField F y x = some v := by
  have hlen : x < (F[y]).length := by rw [hrow _ (List.getElem_mem hy)]; exact hx
  exact ⟨(F[y])[x], by simp [checkpoint_1.readField, List.getElem?_eq_getElem hy,
    List.getElem?_eq_getElem hlen]⟩

/-- On a well-formed two-dimensional field the cells of a row `y < h - 1` are
read in bounds and logged in order. -/
theorem checkpoint_1.foldlM_cellIteration_rows (F : List (List ℚ)) (w : Nat) (iso : ℚ) (y : Nat)
    (hrow : ∀ row ∈ F, row.length = w) (hy : y + 1 < F.length) (xs : List Nat)
    (hxs : ∀ x ∈ xs, x + 1 < w) :
    ∀ st : List LineSegment × List (Nat × Nat), ∃ segs,
      xs.foldlM (checkpoint_1.cellIteration F iso y) st =
        some (st.1 ++ segs, st.2 ++ xs.map fun x => (x, y)) := by
  induction xs with
  | nil => intro st; exact ⟨[], by simp⟩
  | cons x xs ih =>
    intro st
    have hx : x + 1 < w := hxs x (List.mem_cons_self _ _)
    obtain ⟨v0, h0⟩ := checkpoint_1.readField_wf F w y x (by omega) hrow (by omega)
    obtain ⟨v1, h1⟩ := checkpoint_1.readField_wf F w y (x + 1) (by omega) hrow hx
    obtain ⟨v2, h2⟩ := checkpoint_1.readField_wf F w (y + 1) (x + 1) hy hrow hx
    obtain ⟨v3, h3⟩ := checkpoint_1.readField_wf F w (y + 1) x hy hrow (by omega)
    have hcell : checkpoint_1.cellIteration F iso y st x =
        some (st.1 ++ specSegments
            ![⟨(x : ℚ), (y : ℚ)⟩, ⟨(x : ℚ) + 1, (y : ℚ)⟩,
              ⟨(x : ℚ) + 1, (y : ℚ) + 1⟩, ⟨(x : ℚ), (y : ℚ) + 1⟩]
            ![v0, v1, v2, v3] iso (checkpoint_1.caseIdx ![v0, v1, v2, v3] iso),
          st.2 ++ [(x, y)]) := by
      simp [checkpoint_1.cellIteration, h0, h1, h2, h3, checkpoint_1.marchSquare_spec]
    obtain ⟨segs, hsegs⟩ := ih (fun z hz => hxs z (List.mem_cons_of_mem _ hz))
      (st.1 ++ specSegments
            ![⟨(x : ℚ), (y : ℚ)⟩, ⟨(x : ℚ) + 1, (y : ℚ)⟩,
              ⟨(x : ℚ) + 1, (y : ℚ) + 1⟩, ⟨(x : ℚ), (y : ℚ) + 1⟩]
            ![v0, v1, v2, v3] iso (checkpoint_1.caseIdx ![v0, v1, v2, v3] iso),
          st.2 ++ [(x, y)])
    refine ⟨specSegments
        ![⟨(x : ℚ), (y : ℚ)⟩, ⟨(x : ℚ) + 1, (y : ℚ)⟩,
          ⟨(x : ℚ) + 1, (y : ℚ) + 1⟩, ⟨(x : ℚ), (y : ℚ) + 1⟩]
        ![v0, v1, v2, v3] iso (checkpoint_1.caseIdx ![v0, v1, v2, v3] iso) ++ segs, ?_⟩
    rw [List.foldlM_cons, hcell]
    simp only [Option.some_bind, Option.bind_eq_bind, hsegs]
    simp

/-- On a well-formed two-dimensional field the sequential loop nest succeeds
and evaluates the cells in row-major order. -/
theorem checkpoint_1.traverse_wf (F : List (List ℚ)) (w h : Nat) (iso : ℚ)
    (hF : F.length = h) (hrow : ∀ row ∈ F, row.length = w)
    (st : List LineSegment × List (Nat × Nat)) :
    ∃ segs, checkpoint_1.traverse F w h iso st = some (st.1 ++ segs, st.2 ++ specCells w h) := by
  have key : ∀ ys : List Nat, (∀ y ∈ ys, y + 1 < F.length) →
      ∀ st : List LineSegment × List (Nat × Nat), ∃ segs,
        ys.foldlM (fun st y =>
            (List.range (w - 1)).foldlM (checkpoint_1.cellIteration F iso y) st) st =
          some (st.1 ++ segs,
            st.2 ++ ys.flatMap fun y => (List.range (w - 1)).map fun x => (x, y)) := by
    intro ys
    induction ys with
    | nil => intro _ st; exact ⟨[], by simp⟩
    | cons y ys ih =>
      intro hys st
      obtain ⟨s1, hs1⟩ := checkpoint_1.foldlM_cellIteration_rows F w iso y hrow
        (hys y (List.mem_cons_self _ _)) (List.range (w - 1))
        (fun x hx => by have := List.mem_range.mp hx; omega) st
      obtain ⟨s2, hs2⟩ := ih (fun z hz => hys z (List.mem_cons_of_mem _ hz))
        (st.1 ++ s1, st.2 ++ (List.range (w - 1)).map fun x => (x, y))
      refine ⟨s1 ++ s2, ?_⟩
      rw [List.foldlM_cons, hs1]
      simp only [Option.some_bind, Option.bind_eq_bind, hs2]
      simp
  exact key (List.range (h - 1))
    (fun y hy => by have := List.mem_range.mp hy; omega) st

/-! ## The claims on the tables and the cell evaluator -/

/-- C1: the static tables hold the specified data. `edgeCorners` is
`[(0,1),(1,2),(2,3),(3,0)]`; `edgePairs[0..15]`, each row read up to the first
`-1`, is `[], [3,0], [0,1], [3,1], [1,2], [0,1,3,2], [0,2], [3,2], [2,3], [0,2],
[0,3,1,2], [1,2], [3,1], [0,1], [3,0], []` in index order (sixteen rows of four
entries, whose pairs are the specification's pairs and whose `edgeCorners` rows
are the specification's corner pairs); and the two tables of each of the other
five source files equal those of `checkpoint_5`. -/
theorem static_tables_hold_specified_data :
    checkpoint_5.edgeCorners = [[0, 1], [1, 2], [2, 3], [3, 0]] ∧
    checkpoint_5.edgePairs.map readRow =
      [[], [3, 0], [0, 1], [3, 1], [1, 2], [0, 1, 3, 2], [0, 2], [3, 2], [2, 3], [0, 2],
        [0, 3, 1, 2], [1, 2], [3, 1], [0, 1], [3, 0], []] ∧
    checkpoint_5.edgePairs.map List.length = List.replicate 16 4 ∧
    checkpoint_5.edgePairs.map rowPairs =
      (List.range 16).map (fun c =>
        (specEdgePairs c).map (fun ab => ((ab.1.val : Int), (ab.2.val : Int)))) ∧
    (∀ e : Fin 4, tableRow checkpoint_5.edgeCorners (e.val : Int) =
      some [((specEdgeCorners e).1.val : Int), ((specEdgeCorners e).2.val : Int)]) ∧
    (checkpoint_1.edgeCorners = checkpoint_5.edgeCorners ∧
      checkpoint_1.edgePairs = checkpoint_5.edgePairs) ∧
    (checkpoint_3.edgeCorners = checkpoint_5.edgeCorners ∧
      checkpoint_3.edgePairs = checkpoint_5.edgePairs) ∧
    (alternative_optimizations.edgeCorners = checkpoint_5.edgeCorners ∧
      alternative_optimizations.edgePairs = checkpoint_5.edgePairs) ∧
    (commented_version.edgeCorners = checkpoint_5.edgeCorners ∧
      commented_version.edgePairs = checkpoint_5.edgePairs) ∧
    (non_optimized_results_compilation.edgeCorners = checkpoint_5.edgeCorners ∧
      non_optimized_results_compilation.edgePairs = checkpoint_5.edgePairs) :=
  ⟨rfl, by decide, by decide, by decide, by decide,
    ⟨rfl, rfl⟩, ⟨rfl, rfl⟩, ⟨rfl, rfl⟩, ⟨rfl, rfl⟩, ⟨rfl, rfl⟩⟩

/-- C2 (case-table fidelity): for every cell origin, corner values and isolevel,
`marchSquare` succeeds and appends, in table order, exactly one segment per edge
pair `(a, b)` of `edgePairs[caseIdx]`, whose start is
`lerp(corners[edgeCorners[a][0]], corners[edgeCorners[a][1]],
values[edgeCorners[a][0]], values[edgeCorners[a][1]], isolevel)` and whose end is
the same expression for `b`; and corner values realising case 5 yield exactly two
segments, the first on edges `(0, 1)` and the second on edges `(3, 2)`. -/
theorem marchSquare_case_table_fidelity (cx cy : ℚ) (values : Fin 4 → ℚ) (iso : ℚ)
    (out : List LineSegment) :
    (∃ pair segs,
      checkpoint_5.edgePairs[checkpoint_5.caseIdx values iso]? = some pair ∧
      checkpoint_5.marchSquare cx cy values iso out = some (out ++ segs) ∧
      List.Forall₂
        (fun (seg : LineSegment) (ab : Int × Int) =>
          IsEdgePoint checkpoint_5.edgeCorners (checkpoint_5.cellCorners cx cy) values iso
            ab.1 seg.start ∧
          IsEdgePoint checkpoint_5.edgeCorners (checkpoint_5.cellCorners cx cy) values iso
            ab.2 seg.end_)
        segs (rowPairs pair)) ∧
    (checkpoint_5.caseIdx values iso = 5 →
      checkpoint_5.marchSquare cx cy values iso out = some (out ++
        [⟨lerp ⟨cx, cy⟩ ⟨cx + 1, cy⟩ (values 0) (values 1) iso,
          lerp ⟨cx + 1, cy⟩ ⟨cx + 1, cy + 1⟩ (values 1) (values 2) iso⟩,
         ⟨lerp ⟨cx, cy + 1⟩ ⟨cx, cy⟩ (values 3) (values 0) iso,
          lerp ⟨cx + 1, cy + 1⟩ ⟨cx, cy + 1⟩ (values 2) (values 3) iso⟩])) := by
  constructor
  · obtain ⟨pair, hpair, hrow⟩ :=
      checkpoint_5.rowPairs_edgePairs _ (checkpoint_5.caseIdx_lt values iso)
    refine ⟨pair, _, hpair, checkpoint_5.marchSquare_eq cx cy values iso out, ?_⟩
    rw [hrow, specSegments, List.forall₂_map_left_iff, List.forall₂_map_right_iff]
    exact List.forall₂_same.mpr fun ab _ =>
      ⟨checkpoint_5.isEdgePoint_spec _ values iso ab.1,
        checkpoint_5.isEdgePoint_spec _ values iso ab.2⟩
  · intro h5
    rw [checkpoint_5.marchSquare_eq, h5]
    simp [specSegments, specEdgePairs, specEdgePoint, specEdgeCorners, checkpoint_5.cellCorners]

/-- Witness for C2: the corner values `(1, 0, 1, 0)` at isolevel `1/2` realise
case 5. -/
theorem marchSquare_case_table_fidelity_witness :
    checkpoint_5.caseIdx ![1, 0, 1, 0] (1 / 2) = 5 ∧
    checkpoint_5.marchSquare 0 0 ![1, 0, 1, 0] (1 / 2) [] = some ([] ++
      [⟨lerp ⟨0, 0⟩ ⟨0 + 1, 0⟩ ((![1, 0, 1, 0] : Fin 4 → ℚ) 0) ((![1, 0, 1, 0] : Fin 4 → ℚ) 1) (1 / 2),
        lerp ⟨0 + 1, 0⟩ ⟨0 + 1, 0 + 1⟩ ((![1, 0, 1, 0] : Fin 4 → ℚ) 1) ((![1, 0, 1, 0] : Fin 4 → ℚ) 2) (1 / 2)⟩,
       ⟨lerp ⟨0, 0 + 1⟩ ⟨0, 0⟩ ((![1, 0, 1, 0] : Fin 4 → ℚ) 3) ((![1, 0, 1, 0] : Fin 4 → ℚ) 0) (1 / 2),
        lerp ⟨0 + 1, 0 + 1⟩ ⟨0, 0 + 1⟩ ((![1, 0, 1, 0] : Fin 4 → ℚ) 2) ((![1, 0, 1, 0] : Fin 4 → ℚ) 3) (1 / 2)⟩]) :=
  have h : checkpoint_5.caseIdx ![1, 0, 1, 0] (1 / 2) = 5 := by
    norm_num [checkpoint_5.caseIdx]
    simp
  ⟨h, (marchSquare_case_table_fidelity 0 0 ![1, 0, 1, 0] (1 / 2) []).2 h⟩

/-- C3: the case index is the number in `0..15` whose bit `i` is set if and only
if `values[i] >= isolevel`, for the unrolled tests of `checkpoint_5` and for the
loop of `checkpoint_1` alike; a corner value equal to the isolevel sets its
bit. -/
theorem caseIdx_bits (values : Fin 4 → ℚ) (iso : ℚ) :
    (checkpoint_5.caseIdx values iso < 16 ∧
      ∀ i : Fin 4, (checkpoint_5.caseIdx values iso).testBit i.val = true ↔ values i ≥ iso) ∧
    (checkpoint_1.caseIdx values iso < 16 ∧
      ∀ i : Fin 4, (checkpoint_1.caseIdx values iso).testBit i.val = true ↔ values i ≥ iso) ∧
    (∀ i : Fin 4, values i = iso →
      (checkpoint_5.caseIdx values iso).testBit i.val = true ∧
      (checkpoint_1.caseIdx values iso).testBit i.val = true) := by
  have h5 := checkpoint_5.caseIdx_lt values iso
  have hb := checkpoint_5.testBit_caseIdx values iso
  rw [checkpoint_1.caseIdx_eq]
  exact ⟨⟨h5, hb⟩, ⟨h5, hb⟩, fun i hi => ⟨(hb i).mpr hi.ge, (hb i).mpr hi.ge⟩⟩

/-- Witness for C3: corner 0 of `(1/2, 0, 1, 0)` equals the isolevel `1/2`, and
its bit is set. -/
theorem caseIdx_bits_witness :
    (checkpoint_5.caseIdx ![1 / 2, 0, 1, 0] (1 / 2)).testBit (0 : Fin 4).val = true ∧
    (checkpoint_1.caseIdx ![1 / 2, 0, 1, 0] (1 / 2)).testBit (0 : Fin 4).val = true :=
  (caseIdx_bits ![1 / 2, 0, 1, 0] (1 / 2)).2.2 0 rfl

/-- C4: `marchSquare` emits 0, 1 or 2 segments and never more: none when the case
index is 0 or 15, two when it is 5 or 10, one for each of the other twelve case
indices (for the appending evaluator of `checkpoint_5` and the returning one of
`checkpoint_1`). -/
theorem marchSquare_segment_count (cx cy : ℚ) (corners : Fin 4 → Point) (values : Fin 4 → ℚ)
    (iso : ℚ) (out : List LineSegment) :
    (∃ segs, checkpoint_5.marchSquare cx cy values iso out = some (out ++ segs) ∧
      segs.length ≤ 2 ∧
      segs.length =
        if checkpoint_5.caseIdx values iso = 0 ∨ checkpoint_5.caseIdx values iso = 15 then 0
        else if checkpoint_5.caseIdx values iso = 5 ∨ checkpoint_5.caseIdx values iso = 10 then 2
        else 1) ∧
    (∃ segs, checkpoint_1.marchSquare corners values iso = some segs ∧
      segs.length ≤ 2 ∧
      segs.length =
        if checkpoint_1.caseIdx values iso = 0 ∨ checkpoint_1.caseIdx values iso = 15 then 0
        else if checkpoint_1.caseIdx values iso = 5 ∨ checkpoint_1.caseIdx values iso = 10 then 2
        else 1) := by
  have hlt := checkpoint_5.caseIdx_lt values iso
  have hlen := specEdgePairs_length _ hlt
  have hle : (specEdgePairs (checkpoint_5.caseIdx values iso)).length ≤ 2 := by
    rw [hlen]; split_ifs <;> omega
  refine ⟨⟨_, checkpoint_5.marchSquare_eq cx cy values iso out, ?_, ?_⟩,
    ⟨_, checkpoint_1.marchSquare_spec corners values iso, ?_, ?_⟩⟩
  · rw [specSegments_length]; exact hle
  · rw [specSegments_length]; exact hlen
  · rw [specSegments_length, checkpoint_1.caseIdx_eq]; exact hle
  · rw [specSegments_length, checkpoint_1.caseIdx_eq]; exact hlen

/-- C5: `marchSquare` emits no segment if and only if all four corner values are
strictly below the isolevel or all four are at or above it. -/
theorem marchSquare_empty_iff (cx cy : ℚ) (values : Fin 4 → ℚ) (iso : ℚ)
    (out : List LineSegment) :
    ∃ segs, checkpoint_5.marchSquare cx cy values iso out = some (out ++ segs) ∧
      (segs = [] ↔ (∀ i : Fin 4, values i < iso) ∨ (∀ i : Fin 4, values i ≥ iso)) := by
  refine ⟨_, checkpoint_5.marchSquare_eq cx cy values iso out, ?_⟩
  rw [← checkpoint_5.caseIdx_eq_zero_iff, ← checkpoint_5.caseIdx_eq_fifteen_iff,
    ← List.length_eq_zero, specSegments_length,
    specEdgePairs_length _ (checkpoint_5.caseIdx_lt values iso)]
  split_ifs with h1 h2
  · simp [h1]
  · simp [h1]
  · simp [h1]

/-- C7: when `|v2 - v1| >= EPS`, `lerp` performs the one division
`t = (iso - v1) / (v2 - v1)` and returns `p1 + t * (p2 - p1)`; the linear
interpolant `v1 + t * (v2 - v1)` of the field at that point equals `iso`; and
`lerp((0,0), (1,0), 0, 1, 0.5) = (0.5, 0)`. -/
theorem lerp_interpolates (p1 p2 : Point) (v1 v2 iso : ℚ) (h : EPS ≤ |v2 - v1|) :
    lerp p1 p2 v1 v2 iso =
      ⟨p1.x + (iso - v1) / (v2 - v1) * (p2.x - p1.x),
        p1.y + (iso - v1) / (v2 - v1) * (p2.y - p1.y)⟩ ∧
    (lerpTraced p1 p2 v1 v2 iso).2 = [(iso - v1, v2 - v1)] ∧
    v1 + (iso - v1) / (v2 - v1) * (v2 - v1) = iso ∧
    lerp ⟨0, 0⟩ ⟨1, 0⟩ 0 1 (1 / 2) = ⟨1 / 2, 0⟩ := by
  have hnot : ¬ |v2 - v1| < EPS := not_lt.mpr h
  have hne : v2 - v1 ≠ 0 := by
    intro h0
    rw [h0, abs_zero] at h
    exact absurd h (by norm_num [EPS])
  refine ⟨by simp [lerp, lerpTraced, hnot], by simp [lerpTraced, hnot], ?_, ?_⟩
  · rw [div_mul_cancel₀ _ hne]; ring
  · have h1 : ¬ |(1 : ℚ) - 0| < EPS := by norm_num [EPS]
    simp only [lerp, lerpTraced, h1, if_false]
    norm_num

/-- Witness for C7: the corner values `0` and `1` differ by at least `EPS`. -/
theorem lerp_interpolates_witness :
    EPS ≤ |(1 : ℚ) - 0| ∧ lerp ⟨0, 0⟩ ⟨1, 0⟩ 0 1 (1 / 2) = ⟨1 / 2, 0⟩ :=
  have h : EPS ≤ |(1 : ℚ) - 0| := by norm_num [EPS]
  ⟨h, (lerp_interpolates ⟨0, 0⟩ ⟨1, 0⟩ 0 1 (1 / 2) h).2.2.2⟩

/-! ## The claims on the traversal -/

/-- C9 (grid coverage): on a flat field of `width * height` samples with
`width >= 1`, for every number of threads and every assignment of the rows to
the threads, the parallel traversal of `checkpoint_5` succeeds and the cells it
passes to `marchSquare`, over all threads, are each cell `(x, y)` with
`0 <= x <= width-2`, `0 <= y <= height-2` exactly once and no other coordinate,
`(width-1)*(height-1)` calls in total; the sequential loop nest of
`checkpoint_1` on a well-formed two-dimensional field makes exactly these calls,
in row-major order. -/
theorem traversal_grid_coverage (F : List ℚ) (F2 : List (List ℚ)) (w h : Nat) (iso : ℚ)
    (W : Nat) (owner : Nat → Nat) (order : List Nat) :
    (F.length = w * h → 1 ≤ w → (∀ y, y < h - 1 → owner y < W) →
      ∃ segs logs, checkpoint_5.parallelRegion F w h iso W owner order = some (segs, logs) ∧
        logs.length = W ∧
        logs.flatten.Perm (specCells w h) ∧
        logs.flatten.Nodup ∧
        (∀ x y, (x, y) ∈ logs.flatten ↔ x + 2 ≤ w ∧ y + 2 ≤ h) ∧
        logs.flatten.length = (w - 1) * (h - 1)) ∧
    (F2.length = h → (∀ row ∈ F2, row.length = w) →
      ∃ segs calls, checkpoint_1.traverse F2 w h iso ([], []) = some (segs, calls) ∧
        calls = specCells w h ∧
        calls.Nodup ∧
        (∀ x y, (x, y) ∈ calls ↔ x + 2 ≤ w ∧ y + 2 ≤ h) ∧
        calls.length = (w - 1) * (h - 1)) := by
  constructor
  · intro hF hw howner
    have hrows : ∀ y, y < h - 1 →
        (checkpoint_5.rowIteration F w iso ([], []) y).isSome = true := by
      intro y hy
      obtain ⟨segs, hs⟩ := checkpoint_5.rowIteration_wf F w h iso y hF hw hy
      simp [hs]
    have hlogs : ((List.range (h - 1)).flatMap fun y => (checkpoint_5.rowOutput F w iso y).2) =
        specCells w h := by
      unfold specCells
      refine List.flatMap_congr fun y hy => ?_
      obtain ⟨segs, hs⟩ := checkpoint_5.rowIteration_wf F w h iso y hF hw (List.mem_range.mp hy)
      simp [checkpoint_5.rowOutput, hs]
    have hperm := checkpoint_5.logs_perm F w h iso W owner howner
    rw [hlogs] at hperm
    refine ⟨_, _, checkpoint_5.parallelRegion_of_isSome F w h iso W owner order hrows,
      by simp, hperm, hperm.nodup_iff.mpr (nodup_specCells w h), fun x y => ?_, ?_⟩
    · rw [hperm.mem_iff]; exact mem_specCells w h x y
    · rw [hperm.length_eq]; exact specCells_length w h
  · intro hF hrow
    obtain ⟨segs, hs⟩ := checkpoint_1.traverse_wf F2 w h iso hF hrow ([], [])
    exact ⟨_, _, hs, by simp, by simpa using nodup_specCells w h,
      fun x y => by simpa using mem_specCells w h x y, by simpa using specCells_length w h⟩

/-- Witness for C9: a `2 × 3` field, two threads (thread `y` owns row `y`), and
the same field as a two-dimensional array. -/
theorem traversal_grid_coverage_witness :
    (∃ segs logs,
      checkpoint_5.parallelRegion [0, 1, 0, 1, 0, 1] 2 3 (1 / 2) 2 (fun y => y) [1, 0] =
        some (segs, logs) ∧
      logs.length = 2 ∧
      logs.flatten.Perm (specCells 2 3) ∧
      logs.flatten.Nodup ∧
      (∀ x y, (x, y) ∈ logs.flatten ↔ x + 2 ≤ 2 ∧ y + 2 ≤ 3) ∧
      logs.flatten.length = (2 - 1) * (3 - 1)) ∧
    (∃ segs calls,
      checkpoint_1.traverse [[0, 1], [0, 1], [0, 1]] 2 3 (1 / 2) ([], []) = some (segs, calls) ∧
      calls = specCells 2 3 ∧
      calls.Nodup ∧
      (∀ x y, (x, y) ∈ calls ↔ x + 2 ≤ 2 ∧ y + 2 ≤ 3) ∧
      calls.length = (2 - 1) * (3 - 1)) :=
  ⟨(traversal_grid_coverage [0, 1, 0, 1, 0, 1] [[0, 1], [0, 1], [0, 1]] 2 3 (1 / 2) 2
      (fun y => y) [1, 0]).1 rfl (by decide) (fun _ hy => hy),
    (traversal_grid_coverage [0, 1, 0, 1, 0, 1] [[0, 1], [0, 1], [0, 1]] 2 3 (1 / 2) 2
      (fun y => y) [1, 0]).2 rfl (by decide)⟩

/-- C10 (partition invariance): for every field and isolevel and all thread
counts `W1`, `W2`, whatever the split of the rows `0..height-2` among the
threads (the contiguous ranges of a static schedule are the splits with a
monotone `owner`) and whatever the order in which the private buffers are
appended, the two runs fail together or produce the same multiset of segments,
and so does each of them compared with the single-thread row-major run; the
same holds for the buffers `threadSegments` that the worksharing loops of
`alternative_optimizations` fill, appended in any order, and for its whole
region when the reservations of both runs fit; on a field of `width * height`
samples with `width >= 1` all three runs succeed and their results are
permutations of one another. -/
theorem partition_invariance (F : List ℚ) (w h : Nat) (iso : ℚ)
    (W1 : Nat) (owner1 : Nat → Nat) (order1 : List Nat)
    (W2 : Nat) (owner2 : Nat → Nat) (order2 : List Nat)
    (h1 : ∀ y, y < h - 1 → owner1 y < W1) (ho1 : order1.Perm (List.range W1))
    (h2 : ∀ y, y < h - 1 → owner2 y < W2) (ho2 : order2.Perm (List.range W2)) :
    ((checkpoint_5.parallelRegion F w h iso W1 owner1 order1).map
        (fun r => (r.1 : Multiset LineSegment)) =
      (checkpoint_5.parallelRegion F w h iso W2 owner2 order2).map
        (fun r => (r.1 : Multiset LineSegment))) ∧
    ((checkpoint_5.parallelRegion F w h iso W1 owner1 order1).map
        (fun r => (r.1 : Multiset LineSegment)) =
      (checkpoint_5.singleWorker F w h iso).map (fun r => (r.1 : Multiset LineSegment))) ∧
    ((alternative_optimizations.fillBuffers F w h iso W1 owner1).map
        (fun threadSegments =>
          (checkpoint_5.mergeBuffers threadSegments order1 : Multiset LineSegment)) =
      (alternative_optimizations.fillBuffers F w h iso W2 owner2).map
        (fun threadSegments =>
          (checkpoint_5.mergeBuffers threadSegments order2 : Multiset LineSegment))) ∧
    (alternative_optimizations.reservedCapacity w h W1 ≤ alternative_optimizations.maxSize →
      alternative_optimizations.reservedCapacity w h W2 ≤ alternative_optimizations.maxSize →
      (alternative_optimizations.parallelRegion F w h iso W1 owner1).map
          (fun threadSegments =>
            (checkpoint_5.mergeBuffers threadSegments order1 : Multiset LineSegment)) =
        (alternative_optimizations.parallelRegion F w h iso W2 owner2).map
          (fun threadSegments =>
            (checkpoint_5.mergeBuffers threadSegments order2 : Multiset LineSegment))) ∧
    (F.length = w * h → 1 ≤ w →
      ∃ r1 r2 r0,
        checkpoint_5.parallelRegion F w h iso W1 owner1 order1 = some r1 ∧
        checkpoint_5.parallelRegion F w h iso W2 owner2 order2 = some r2 ∧
        checkpoint_5.singleWorker F w h iso = some r0 ∧
        r1.1.Perm r2.1 ∧ r1.1.Perm r0.1 ∧ r2.1.Perm r0.1) := by
  have h0 : ∀ y, y < h - 1 → (fun _ : Nat => 0) y < 1 := fun _ _ => Nat.zero_lt_one
  have ho0 : [0].Perm (List.range 1) := by decide
  have halt : ∀ (W : Nat) (owner : Nat → Nat) (order : List Nat),
      (alternative_optimizations.fillBuffers F w h iso W owner).map
          (fun threadSegments =>
            (checkpoint_5.mergeBuffers threadSegments order : Multiset LineSegment)) =
        (checkpoint_5.parallelRegion F w h iso W owner order).map
          (fun r => (r.1 : Multiset LineSegment)) := by
    intro W owner order
    have := congrArg (Option.map (fun l : List LineSegment => (l : Multiset LineSegment)))
      (alternative_optimizations.merge_fillBuffers F w h iso W owner order)
    simpa [Option.map_map, Function.comp_def] using this
  have hreg : ∀ (W : Nat) (owner : Nat → Nat),
      alternative_optimizations.reservedCapacity w h W ≤ alternative_optimizations.maxSize →
      alternative_optimizations.parallelRegion F w h iso W owner =
        alternative_optimizations.fillBuffers F w h iso W owner := by
    intro W owner hfit
    rw [alternative_optimizations.parallelRegion_eq, if_pos (Or.inr hfit)]
  rw [halt W1 owner1 order1, halt W2 owner2 order2]
  by_cases hrows : ∀ y, y < h - 1 →
      (checkpoint_5.rowIteration F w iso ([], []) y).isSome = true
  · have e1 := checkpoint_5.parallelRegion_of_isSome F w h iso W1 owner1 order1 hrows
    have e2 := checkpoint_5.parallelRegion_of_isSome F w h iso W2 owner2 order2 hrows
    have e0 := checkpoint_5.parallelRegion_of_isSome F w h iso 1 (fun _ => 0) [0] hrows
    have p1 := checkpoint_5.merged_perm F w h iso W1 owner1 order1 h1 ho1
    have p2 := checkpoint_5.merged_perm F w h iso W2 owner2 order2 h2 ho2
    have p0 := checkpoint_5.merged_perm F w h iso 1 (fun _ => 0) [0] h0 ho0
    have e12 : (checkpoint_5.parallelRegion F w h iso W1 owner1 order1).map
          (fun r => (r.1 : Multiset LineSegment)) =
        (checkpoint_5.parallelRegion F w h iso W2 owner2 order2).map
          (fun r => (r.1 : Multiset LineSegment)) := by
      rw [e1, e2]
      simp only [Option.map_some', Option.some.injEq, Multiset.coe_eq_coe]
      exact p1.trans p2.symm
    refine ⟨e12, ?_, e12, fun hf1 hf2 => ?_,
      fun _ _ => ⟨_, _, _, e1, e2, e0, p1.trans p2.symm, p1.trans p0.symm, p2.trans p0.symm⟩⟩
    · rw [checkpoint_5.singleWorker, e1, e0]
      simp only [Option.map_some', Option.some.injEq, Multiset.coe_eq_coe]
      exact p1.trans p0.symm
    · rw [hreg W1 owner1 hf1, hreg W2 owner2 hf2, halt W1 owner1 order1, halt W2 owner2 order2]
      exact e12
  · have hrow : ∃ y, y < h - 1 ∧ checkpoint_5.rowIteration F w iso ([], []) y = none := by
      by_contra hcon
      refine hrows fun y hy => ?_
      cases hr : checkpoint_5.rowIteration F w iso ([], []) y with
      | none => exact absurd ⟨y, hy, hr⟩ hcon
      | some r => rfl
    have e1 := checkpoint_5.parallelRegion_of_none F w h iso W1 owner1 order1 h1 hrow
    have e2 := checkpoint_5.parallelRegion_of_none F w h iso W2 owner2 order2 h2 hrow
    have e0 := checkpoint_5.parallelRegion_of_none F w h iso 1 (fun _ => 0) [0] h0 hrow
    refine ⟨by rw [e1, e2], by rw [checkpoint_5.singleWorker, e1, e0], by rw [e1, e2],
      fun hf1 hf2 => by
        rw [hreg W1 owner1 hf1, hreg W2 owner2 hf2, halt W1 owner1 order1,
          halt W2 owner2 order2, e1, e2],
      fun hF hw => ?_⟩
    obtain ⟨y, hy, hnone⟩ := hrow
    obtain ⟨segs, hs⟩ := checkpoint_5.rowIteration_wf F w h iso y hF hw hy
    rw [hs] at hnone
    exact absurd hnone (by simp)

/-- Witness for C10: a `2 × 3` field split among two threads that merge in the
order `1, 0`, against the same field split among three threads. -/
theorem partition_invariance_witness :
    ∃ r1 r2 r0,
      checkpoint_5.parallelRegion [0, 1, 0, 1, 0, 1] 2 3 (1 / 2) 2 (fun y => y) [1, 0] = some r1 ∧
      checkpoint_5.parallelRegion [0, 1, 0, 1, 0, 1] 2 3 (1 / 2) 3 (fun y => y + 1) [2, 0, 1] =
        some r2 ∧
      checkpoint_5.singleWorker [0, 1, 0, 1, 0, 1] 2 3 (1 / 2) = some r0 ∧
      r1.1.Perm r2.1 ∧ r1.1.Perm r0.1 ∧ r2.1.Perm r0.1 :=
  (partition_invariance [0, 1, 0, 1, 0, 1] 2 3 (1 / 2) 2 (fun y => y) [1, 0]
    3 (fun y => y + 1) [2, 0, 1]
    (fun _ hy => hy) (by decide) (fun _ hy => Nat.succ_lt_succ hy) (by decide)).2.2.2.2
    rfl (by decide)

/-! ## Further lemmas on the cell evaluator -/

theorem checkpoint_3.marchSquare_eq_checkpoint_1 :
    checkpoint_3.marchSquare = checkpoint_1.marchSquare := rfl

/-- The two edges of a pair of the specification's table are different edges. -/
theorem specEdgePairs_ne (c : Nat) (hc : c < 16) : ∀ ab ∈ specEdgePairs c, ab.1 ≠ ab.2 := by
  interval_cases c <;> decide

/-- On a crossed edge whose second corner value is not the isolevel, `lerp`
returns `p1 + t * (p2 - p1)` for some `t` with `0 ≤ t < 1`. -/
theorem lerp_of_crossed_lt (p1 p2 : Point) (v1 v2 iso : ℚ) (h : Crossed v1 v2 iso)
    (hv : v2 ≠ iso) :
    ∃ t : ℚ, 0 ≤ t ∧ t < 1 ∧
      lerp p1 p2 v1 v2 iso = ⟨p1.x + t * (p2.x - p1.x), p1.y + t * (p2.y - p1.y)⟩ := by
  by_cases hg : |v2 - v1| < EPS
  · exact ⟨0, le_refl _, zero_lt_one, by simp [lerp, lerpTraced, hg]⟩
  · have ht : 0 ≤ (iso - v1) / (v2 - v1) ∧ (iso - v1) / (v2 - v1) < 1 := by
      rcases h with ⟨h1, h2⟩ | ⟨h1, h2⟩
      · have h2 := not_le.mp h2
        have hneg : v2 - v1 < 0 := by linarith
        constructor
        · exact div_nonneg_of_nonpos (by linarith) hneg.le
        · rw [div_lt_one_of_neg hneg]; linarith
      · have h1 := not_le.mp h1
        have hpos : 0 < v2 - v1 := by linarith
        have h2' : iso < v2 := lt_of_le_of_ne h2 (Ne.symm hv)
        constructor
        · exact div_nonneg (by linarith) hpos.le
        · rw [div_lt_one hpos]; linarith
    exact ⟨(iso - v1) / (v2 - v1), ht.1, ht.2, by simp [lerp, lerpTraced, hg]⟩

/-- Points `p1 + t * (p2 - p1)`, `t < 1`, taken on two different edges of the
unit cell are different points. -/
theorem interpolants_ne (cx cy : ℚ) (a b : Fin 4) (hab : a ≠ b) (s t : ℚ)
    (hs1 : s < 1) (ht1 : t < 1) :
    (⟨(checkpoint_5.cellCorners cx cy (specEdgeCorners a).1).x +
          s * ((checkpoint_5.cellCorners cx cy (specEdgeCorners a).2).x -
            (checkpoint_5.cellCorners cx cy (specEdgeCorners a).1).x),
        (checkpoint_5.cellCorners cx cy (specEdgeCorners a).1).y +
          s * ((checkpoint_5.cellCorners cx cy (specEdgeCorners a).2).y -
            (checkpoint_5.cellCorners cx cy (specEdgeCorners a).1).y)⟩ : Point) ≠
      ⟨(checkpoint_5.cellCorners cx cy (specEdgeCorners b).1).x +
          t * ((checkpoint_5.cellCorners cx cy (specEdgeCorners b).2).x -
            (checkpoint_5.cellCorners cx cy (specEdgeCorners b).1).x),
        (checkpoint_5.cellCorners cx cy (specEdgeCorners b).1).y +
          t * ((checkpoint_5.cellCorners cx cy (specEdgeCorners b).2).y -
            (checkpoint_5.cellCorners cx cy (specEdgeCorners b).1).y)⟩ := by
  intro heq
  rw [Point.mk.injEq] at heq
  obtain ⟨hx, hy⟩ := heq
  fin_cases a <;> fin_cases b <;>
    first
    | exact hab rfl
    | (simp [checkpoint_5.cellCorners, specEdgeCorners] at hx hy <;> linarith)

/-! ## Further lemmas on the traversal -/

theorem getElem?_eq_some_getD (F : List ℚ) (i : Nat) (h : i < F.length) :
    F[i]? = some (F.getD i 0) := by
  simp [List.getD_eq_getElem?_getD, List.getElem?_eq_getElem h]

/-- The index bounds of the reads of row `y` at cell `x`. -/
theorem read_index_bounds (w h y x : Nat) (hy : y + 2 ≤ h) (hx : x + 2 ≤ w) :
    y * w < w * h ∧ (y + 1) * w < w * h ∧
    y * w + (x + 1) < w * h ∧ (y + 1) * w + (x + 1) < w * h := by
  have hle : (y + 2) * w ≤ w * h := by
    rw [Nat.mul_comm w h]
    exact Nat.mul_le_mul_right w hy
  have e : (y + 2) * w = (y + 1) * w + w := by ring
  have e1 : (y + 1) * w = y * w + w := by ring
  omega

/-- Sliding-window invariant: on a field of `w * h` samples, after the cells
`0 .. n-1` of a row `y < h - 1` the window holds the two samples of column `n`,
and the buffer has received, cell by cell, the segments of the corner values
read directly. -/
theorem checkpoint_5.foldlM_cellIteration_window (F : List ℚ) (w h : Nat) (iso : ℚ) (y : Nat)
    (hF : F.length = w * h) (hy : y < h - 1) (segs : List LineSegment)
    (calls : List (Nat × Nat)) (n : Nat) (hn : n + 1 ≤ w) :
    (List.range n).foldlM (checkpoint_5.cellIteration F w iso y)
        ⟨F.getD (y * w) 0, F.getD ((y + 1) * w) 0, segs, calls⟩ =
      some ⟨F.getD (y * w + n) 0, F.getD ((y + 1) * w + n) 0,
        segs ++ (List.range n).flatMap (fun x => cellSegments F w iso x y),
        calls ++ (List.range n).map (fun x => (x, y))⟩ := by
  induction n with
  | zero => simp
  | succ n ih =>
    obtain ⟨-, -, b1, b2⟩ := read_index_bounds w h y n (by omega) (by omega)
    rw [← hF] at b1 b2
    rw [List.range_succ, List.foldlM_append, ih (by omega)]
    simp only [Option.some_bind, Option.bind_eq_bind, List.foldlM_cons, List.foldlM_nil,
      checkpoint_5.cellIteration_eq, getElem?_eq_some_getD F _ b1,
      getElem?_eq_some_getD F _ b2, Option.pure_def, Option.bind_some]
    simp [cellSegments, cellValues, Nat.add_assoc]

/-- On a field of `w * h` samples with `w ≥ 1`, the scan of a row `y < h - 1`
appends, cell by cell, the segments of the corner values read directly. -/
theorem checkpoint_5.rowIteration_direct (F : List ℚ) (w h : Nat) (iso : ℚ) (y : Nat)
    (hF : F.length = w * h) (hw : 1 ≤ w) (hy : y < h - 1)
    (buf : List LineSegment × List (Nat × Nat)) :
    checkpoint_5.rowIteration F w iso buf y =
      some (buf.1 ++ (List.range (w - 1)).flatMap (fun x => cellSegments F w iso x y),
        buf.2 ++ (List.range (w - 1)).map (fun x => (x, y))) := by
  have hle : (y + 2) * w ≤ w * h := by
    rw [Nat.mul_comm w h]
    exact Nat.mul_le_mul_right w (by omega)
  have e : (y + 2) * w = (y + 1) * w + w := by ring
  have e1 : (y + 1) * w = y * w + w := by ring
  have b1 : y * w < F.length := by omega
  have b2 : (y + 1) * w < F.length := by omega
  unfold checkpoint_5.rowIteration
  rw [getElem?_eq_some_getD F _ b1, getElem?_eq_some_getD F _ b2]
  simp only [Option.some_bind, Option.bind_eq_bind]
  rw [checkpoint_5.foldlM_cellIteration_window F w h iso y hF hy buf.1 buf.2 (w - 1) (by omega)]
  rfl

theorem checkpoint_5.rowOutput_direct (F : List ℚ) (w h : Nat) (iso : ℚ) (y : Nat)
    (hF : F.length = w * h) (hw : 1 ≤ w) (hy : y < h - 1) :
    checkpoint_5.rowOutput F w iso y =
      ((List.range (w - 1)).flatMap (fun x => cellSegments F w iso x y),
        (List.range (w - 1)).map (fun x => (x, y))) := by
  simp [checkpoint_5.rowOutput, checkpoint_5.rowIteration_direct F w h iso y hF hw hy]

theorem threadRows_single (h : Nat) : threadRows h (fun _ => 0) 0 = List.range (h - 1) := by
  simp [threadRows]

/-- The single-thread run, when every row scans successfully. -/
theorem checkpoint_5.singleWorker_of_isSome (F : List ℚ) (w h : Nat) (iso : ℚ)
    (hrows : ∀ y, y < h - 1 → (checkpoint_5.rowIteration F w iso ([], []) y).isSome = true) :
    checkpoint_5.singleWorker F w h iso =
      some ((List.range (h - 1)).flatMap (fun y => (checkpoint_5.rowOutput F w iso y).1),
        [(List.range (h - 1)).flatMap (fun y => (checkpoint_5.rowOutput F w iso y).2)]) := by
  rw [checkpoint_5.singleWorker,
    checkpoint_5.parallelRegion_of_isSome F w h iso 1 (fun _ => 0) [0] hrows]
  simp [threadRows_single, List.range_succ]

/-- The single-thread run on a field of `w * h` samples with `w ≥ 1`: the
segments of the cells in row-major order, on the corner values read directly. -/
theorem checkpoint_5.singleWorker_direct (F : List ℚ) (w h : Nat) (iso : ℚ)
    (hF : F.length = w * h) (hw : 1 ≤ w) :
    checkpoint_5.singleWorker F w h iso =
      some ((List.range (h - 1)).flatMap (fun y =>
          (List.range (w - 1)).flatMap (fun x => cellSegments F w iso x y)),
        [specCells w h]) := by
  rw [checkpoint_5.singleWorker_of_isSome F w h iso (fun y hy => by
    rw [checkpoint_5.rowIteration_direct F w h iso y hF hw hy]; rfl)]
  have h1 : ((List.range (h - 1)).flatMap fun y => (checkpoint_5.rowOutput F w iso y).1) =
      (List.range (h - 1)).flatMap (fun y =>
          (List.range (w - 1)).flatMap (fun x => cellSegments F w iso x y)) :=
    List.flatMap_congr fun y hy => by
      rw [checkpoint_5.rowOutput_direct F w h iso y hF hw (List.mem_range.mp hy)]
  have h2 : ((List.range (h - 1)).flatMap fun y => (checkpoint_5.rowOutput F w iso y).2) =
      specCells w h :=
    List.flatMap_congr fun y hy => by
      rw [checkpoint_5.rowOutput_direct F w h iso y hF hw (List.mem_range.mp hy)]
  rw [h1, h2]

/-- Row-major flattening of a two-dimensional field with rows of length `w`:
the sample `[y][x]` is the sample `y * w + x` of the flat field. -/
theorem checkpoint_3.readField_flatten (w : Nat) (F2 : List (List ℚ))
    (hrow : ∀ row ∈ F2, row.length = w) :
    ∀ y x, y < F2.length → x < w →
      checkpoint_3.readField F2 y x = some (F2.flatten.getD (y * w + x) 0) := by
  induction F2 with
  | nil => intro y x hy; exact absurd hy (Nat.not_lt_zero _)
  | cons r rs ih =>
    intro y x hy hx
    have hr : r.length = w := hrow r (List.mem_cons_self _ _)
    cases y with
    | zero =>
      have hxr : x < r.length := by omega
      simp [checkpoint_3.readField, List.getD_eq_getElem?_getD, List.getElem?_append_left hxr,
        List.getElem?_eq_getElem hxr]
    | succ y =>
      have hy' : y < rs.length := by simpa using hy
      have := ih (fun row hrow' => hrow row (List.mem_cons_of_mem _ hrow')) y x hy' hx
      have hidx : (y + 1) * w + x - r.length = y * w + x := by
        rw [hr, Nat.add_mul]; omega
      have hge : r.length ≤ (y + 1) * w + x := by
        rw [hr, Nat.add_mul]; omega
      simp only [checkpoint_3.readField, List.getElem?_cons_succ, List.flatten_cons,
        List.getD_eq_getElem?_getD, List.getElem?_append_right hge, hidx] at this ⊢
      exact this

theorem flatten_length_of_rows (w : Nat) (F2 : List (List ℚ))
    (hrow : ∀ row ∈ F2, row.length = w) : F2.flatten.length = w * F2.length := by
  induction F2 with
  | nil => simp
  | cons r rs ih =>
    rw [List.flatten_cons, List.length_append, hrow r (List.mem_cons_self _ _),
      ih (fun row hrow' => hrow row (List.mem_cons_of_mem _ hrow')), List.length_cons]
    ring

/-- On a well-formed two-dimensional field the direct-read cell step of
`checkpoint_3` appends the segments of the cell of the flattened field. -/
theorem checkpoint_3.cellIteration_direct (F2 : List (List ℚ)) (w : Nat) (iso : ℚ) (y x : Nat)
    (hrow : ∀ row ∈ F2, row.length = w) (hy : y + 1 < F2.length) (hx : x + 1 < w)
    (st : List LineSegment × List (Nat × Nat)) :
    checkpoint_3.cellIteration F2 iso y st x =
      some (st.1 ++ cellSegments F2.flatten w iso x y, st.2 ++ [(x, y)]) := by
  have h0 := checkpoint_3.readField_flatten w F2 hrow y x (by omega) (by omega)
  have h1 := checkpoint_3.readField_flatten w F2 hrow y (x + 1) (by omega) hx
  have h2 := checkpoint_3.readField_flatten w F2 hrow (y + 1) (x + 1) hy hx
  have h3 := checkpoint_3.readField_flatten w F2 hrow (y + 1) x hy (by omega)
  have hm : checkpoint_3.marchSquare
      ![⟨(x : ℚ), (y : ℚ)⟩, ⟨(x : ℚ) + 1, (y : ℚ)⟩,
        ⟨(x : ℚ) + 1, (y : ℚ) + 1⟩, ⟨(x : ℚ), (y : ℚ) + 1⟩]
      (cellValues F2.flatten w x y) iso = some (cellSegments F2.flatten w iso x y) := by
    rw [checkpoint_3.marchSquare_eq_checkpoint_1, checkpoint_1.marchSquare_spec,
      checkpoint_1.caseIdx_eq]
    rfl
  have hv : (![F2.flatten.getD (y * w + x) 0, F2.flatten.getD (y * w + (x + 1)) 0,
      F2.flatten.getD ((y + 1) * w + (x + 1)) 0, F2.flatten.getD ((y + 1) * w + x) 0] :
        Fin 4 → ℚ) = cellValues F2.flatten w x y := by
    simp [cellValues, Nat.add_assoc]
  simp only [checkpoint_3.cellIteration, h0, h1, h2, h3, Option.some_bind, Option.bind_eq_bind,
    hv, hm, Option.pure_def]
  cases hs : cellSegments F2.flatten w iso x y with
  | nil => simp
  | cons s ss => simp

theorem checkpoint_3.foldlM_cellIteration_direct (F2 : List (List ℚ)) (w : Nat) (iso : ℚ) (y : Nat)
    (hrow : ∀ row ∈ F2, row.length = w) (hy : y + 1 < F2.length) :
    ∀ (xs : List Nat), (∀ x ∈ xs, x + 1 < w) → ∀ st : List LineSegment × List (Nat × Nat),
      xs.foldlM (checkpoint_3.cellIteration F2 iso y) st =
        some (st.1 ++ xs.flatMap (fun x => cellSegments F2.flatten w iso x y),
          st.2 ++ xs.map (fun x => (x, y))) := by
  intro xs
  induction xs with
  | nil => intro _ st; simp
  | cons x xs ih =>
    intro hxs st
    rw [List.foldlM_cons, checkpoint_3.cellIteration_direct F2 w iso y x hrow hy
      (hxs x (List.mem_cons_self _ _))]
    simp only [Option.some_bind, Option.bind_eq_bind]
    rw [ih (fun z hz => hxs z (List.mem_cons_of_mem _ hz))]
    simp

/-- The single-thread run of `checkpoint_3` on a well-formed two-dimensional
field: the segments of the cells of the flattened field in row-major order. -/
theorem checkpoint_3.singleWorker_direct_read (F2 : List (List ℚ)) (w h : Nat) (iso : ℚ)
    (hF : F2.length = h) (hrow : ∀ row ∈ F2, row.length = w) :
    checkpoint_3.singleWorker F2 w h iso =
      some ((List.range (h - 1)).flatMap (fun y =>
          (List.range (w - 1)).flatMap (fun x => cellSegments F2.flatten w iso x y)),
        [specCells w h]) := by
  have key : ∀ ys : List Nat, (∀ y ∈ ys, y + 1 < F2.length) →
      ∀ st : List LineSegment × List (Nat × Nat),
        ys.foldlM (checkpoint_3.rowIteration F2 w iso) st =
          some (st.1 ++ ys.flatMap (fun y =>
              (List.range (w - 1)).flatMap (fun x => cellSegments F2.flatten w iso x y)),
            st.2 ++ ys.flatMap (fun y => (List.range (w - 1)).map (fun x => (x, y)))) := by
    intro ys
    induction ys with
    | nil => intro _ st; simp
    | cons y ys ih =>
      intro hys st
      rw [List.foldlM_cons, checkpoint_3.rowIteration,
        checkpoint_3.foldlM_cellIteration_direct F2 w iso y hrow (hys y (List.mem_cons_self _ _))
          (List.range (w - 1)) (fun x hx => by have := List.mem_range.mp hx; omega)]
      simp only [Option.some_bind, Option.bind_eq_bind]
      rw [ih (fun z hz => hys z (List.mem_cons_of_mem _ hz))]
      simp
  have hthread := key (List.range (h - 1))
    (fun y hy => by have := List.mem_range.mp hy; omega) ([], [])
  simp only [List.nil_append] at hthread
  simp [checkpoint_3.singleWorker, checkpoint_3.parallelRegion, perThread, List.range_succ,
    checkpoint_3.thread, threadRows_single, hthread, checkpoint_5.mergeBuffers, specCells]

/-- The results of the threads when every row of the grid scans successfully. -/
theorem checkpoint_5.perThread_of_rows (F : List ℚ) (w h : Nat) (iso : ℚ)
    (W : Nat) (owner : Nat → Nat)
    (hrows : ∀ y, y < h - 1 → (checkpoint_5.rowIteration F w iso ([], []) y).isSome = true) :
    perThread (fun tid => checkpoint_5.thread F w iso (threadRows h owner tid)) (List.range W) =
      some ((List.range W).map fun tid =>
        ((threadRows h owner tid).flatMap (fun y => (checkpoint_5.rowOutput F w iso y).1),
          (threadRows h owner tid).flatMap (fun y => (checkpoint_5.rowOutput F w iso y).2))) := by
  refine perThread_of_isSome _ _ _ fun tid _ => ?_
  have := checkpoint_5.foldlM_rowIteration_of_isSome F w iso (threadRows h owner tid)
    (fun y hy => hrows y (List.mem_range.mp (List.mem_filter.mp hy).1)) ([], [])
  simpa [checkpoint_5.thread] using this

/-- In a degenerate grid (`h ≤ 1`, or `w = 1`) every row that exists scans
successfully and contributes nothing. -/
theorem checkpoint_5.rowIteration_degenerate (F : List ℚ) (w h : Nat) (iso : ℚ)
    (hF : F.length = w * h) (hd : h ≤ 1 ∨ w = 1) (y : Nat) (hy : y < h - 1) :
    checkpoint_5.rowIteration F w iso ([], []) y = some ([], []) := by
  rcases hd with hd | hd
  · omega
  · subst hd
    rw [checkpoint_5.rowIteration_direct F 1 h iso y hF (le_refl _) hy]
    rfl

theorem flatMap_getD_replicate_nil (W : Nat) (order : List Nat) :
    order.flatMap (fun tid => (List.replicate W ([] : List LineSegment)).getD tid []) = [] := by
  rw [List.flatMap_eq_nil_iff]
  intro tid _
  rw [List.getD_eq_getElem?_getD, List.getElem?_replicate]
  split <;> rfl

theorem checkpoint_5.perThread_degenerate (F : List ℚ) (w h : Nat) (iso : ℚ)
    (W : Nat) (owner : Nat → Nat) (hF : F.length = w * h) (hd : h ≤ 1 ∨ w = 1) :
    perThread (fun tid => checkpoint_5.thread F w iso (threadRows h owner tid)) (List.range W) =
      some (List.replicate W ([], [])) := by
  have hrow := checkpoint_5.rowIteration_degenerate F w h iso hF hd
  rw [checkpoint_5.perThread_of_rows F w h iso W owner (fun y hy => by rw [hrow y hy]; rfl)]
  have hnil : ∀ tid,
      ((threadRows h owner tid).flatMap (fun y => (checkpoint_5.rowOutput F w iso y).1),
        (threadRows h owner tid).flatMap (fun y => (checkpoint_5.rowOutput F w iso y).2)) =
      (([], []) : List LineSegment × List (Nat × Nat)) := by
    intro tid
    have hout : ∀ y ∈ threadRows h owner tid, checkpoint_5.rowOutput F w iso y = ([], []) := by
      intro y hy
      simp [checkpoint_5.rowOutput, hrow y (List.mem_range.mp (List.mem_filter.mp hy).1)]
    rw [Prod.mk.injEq, List.flatMap_eq_nil_iff, List.flatMap_eq_nil_iff]
    exact ⟨fun y hy => by rw [hout y hy], fun y hy => by rw [hout y hy]⟩
  simp only [hnil, List.map_const', List.length_range]

/-- In a degenerate grid the parallel region of `checkpoint_5` succeeds, evaluates
no cell and produces no segment. -/
theorem checkpoint_5.parallelRegion_degenerate (F : List ℚ) (w h : Nat) (iso : ℚ)
    (W : Nat) (owner : Nat → Nat) (order : List Nat)
    (hF : F.length = w * h) (hd : h ≤ 1 ∨ w = 1) :
    checkpoint_5.parallelRegion F w h iso W owner order = some ([], List.replicate W []) := by
  unfold checkpoint_5.parallelRegion
  rw [checkpoint_5.perThread_degenerate F w h iso W owner hF hd]
  simp only [Option.some_bind, Option.bind_eq_bind, Option.pure_def, List.map_replicate,
    checkpoint_5.mergeBuffers_eq, flatMap_getD_replicate_nil]

/-- In a degenerate grid the sequential loop nest of `checkpoint_1` reads
nothing, evaluates no cell and produces no segment. -/
theorem checkpoint_1.traverse_degenerate (F2 : List (List ℚ)) (w h : Nat) (iso : ℚ)
    (hd : h ≤ 1 ∨ w ≤ 1) (st : List LineSegment × List (Nat × Nat)) :
    checkpoint_1.traverse F2 w h iso st = some st := by
  unfold checkpoint_1.traverse
  rcases hd with hd | hd
  · have : h - 1 = 0 := by omega
    rw [this]; rfl
  · have hw : w - 1 = 0 := by omega
    rw [hw]
    generalize List.range (h - 1) = ys
    induction ys generalizing st with
    | nil => rfl
    | cons y ys ih => simpa using ih st

theorem specSegments_length_le (corners : Fin 4 → Point) (values : Fin 4 → ℚ) (iso : ℚ) :
    (specSegments corners values iso (checkpoint_5.caseIdx values iso)).length ≤ 2 := by
  rw [specSegments_length, specEdgePairs_length _ (checkpoint_5.caseIdx_lt values iso)]
  split_ifs <;> omega

/-- A successful scan of the cells `xs` of a row appends at most two segments per
cell, whatever the field. -/
theorem checkpoint_5.foldlM_cellIteration_length (F : List ℚ) (w : Nat) (iso : ℚ) (y : Nat)
    (xs : List Nat) :
    ∀ st st' : checkpoint_5.RowState,
      xs.foldlM (checkpoint_5.cellIteration F w iso y) st = some st' →
      st'.privateSegments.length ≤ st.privateSegments.length + 2 * xs.length := by
  induction xs with
  | nil =>
    intro st st' hst
    simp only [List.foldlM_nil, Option.pure_def, Option.some.injEq] at hst
    subst hst; simp
  | cons x xs ih =>
    intro st st' hst
    rw [List.foldlM_cons, checkpoint_5.cellIteration_eq] at hst
    cases h1 : F[y * w + (x + 1)]? with
    | none => simp [h1] at hst
    | some rt =>
      cases h2 : F[(y + 1) * w + (x + 1)]? with
      | none => simp [h1, h2] at hst
      | some rb =>
        simp only [h1, h2, Option.some_bind, Option.bind_eq_bind] at hst
        have := ih _ _ hst
        have hle := specSegments_length_le (checkpoint_5.cellCorners (x : ℚ) (y : ℚ))
          ![st.left_top_val, rt, rb, st.left_bottom_val] iso
        simp only [List.length_append, List.length_cons] at this ⊢
        omega

/-- A successful row scan appends at most `2 * (w - 1)` segments. -/
theorem checkpoint_5.rowIteration_length (F : List ℚ) (w : Nat) (iso : ℚ) (y : Nat)
    (buf buf' : List LineSegment × List (Nat × Nat))
    (hrow : checkpoint_5.rowIteration F w iso buf y = some buf') :
    buf'.1.length ≤ buf.1.length + 2 * (w - 1) := by
  unfold checkpoint_5.rowIteration at hrow
  cases h1 : F[y * w]? with
  | none => simp [h1] at hrow
  | some lt =>
    cases h2 : F[(y + 1) * w]? with
    | none => simp [h1, h2] at hrow
    | some lb =>
      simp only [h1, h2, Option.some_bind, Option.bind_eq_bind] at hrow
      cases h3 : (List.range (w - 1)).foldlM (checkpoint_5.cellIteration F w iso y)
          ⟨lt, lb, buf.1, buf.2⟩ with
      | none => simp [h3] at hrow
      | some st =>
        simp only [h3, Option.some_bind, Option.pure_def, Option.some.injEq] at hrow
        subst hrow
        simpa using checkpoint_5.foldlM_cellIteration_length F w iso y _ _ _ h3

/-- A thread that completes has appended at most `2 * (w - 1)` segments per row
it was handed. -/
theorem checkpoint_5.thread_length (F : List ℚ) (w : Nat) (iso : ℚ) (rows : List Nat)
    (r : List LineSegment × List (Nat × Nat))
    (hthread : checkpoint_5.thread F w iso rows = some r) :
    r.1.length ≤ 2 * (w - 1) * rows.length := by
  have key : ∀ (rows : List Nat) (buf buf' : List LineSegment × List (Nat × Nat)),
      rows.foldlM (checkpoint_5.rowIteration F w iso) buf = some buf' →
      buf'.1.length ≤ buf.1.length + 2 * (w - 1) * rows.length := by
    intro rows
    induction rows with
    | nil =>
      intro buf buf' hb
      simp only [List.foldlM_nil, Option.pure_def, Option.some.injEq] at hb
      subst hb; simp
    | cons y ys ih =>
      intro buf buf' hb
      rw [List.foldlM_cons] at hb
      cases h1 : checkpoint_5.rowIteration F w iso buf y with
      | none => simp [h1] at hb
      | some b1 =>
        simp only [h1, Option.some_bind, Option.bind_eq_bind] at hb
        have hrow := checkpoint_5.rowIteration_length F w iso y buf b1 h1
        have := ih b1 buf' hb
        rw [List.length_cons, Nat.mul_succ]
        omega
  simpa using key rows ([], []) r hthread

theorem perThread_eq_some {β : Type} (f : Nat → Option β) :
    ∀ (tids : List Nat) (rs : List β), perThread f tids = some rs →
      ∀ r ∈ rs, ∃ tid ∈ tids, f tid = some r := by
  intro tids
  induction tids with
  | nil =>
    intro rs h r hr
    simp only [perThread, Option.some.injEq] at h
    subst h; exact absurd hr (List.not_mem_nil _)
  | cons t ts ih =>
    intro rs h r hr
    cases hf : f t with
    | none => simp [perThread, hf] at h
    | some r0 =>
      cases hp : perThread f ts with
      | none => simp [perThread, hf, hp] at h
      | some rs' =>
        simp only [perThread, hf, hp, Option.some_bind, Option.bind_eq_bind, Option.pure_def,
          Option.some.injEq] at h
        subst h
        rcases List.mem_cons.mp hr with rfl | hr'
        · exact ⟨t, List.mem_cons_self _ _, hf⟩
        · obtain ⟨tid, htid, hres⟩ := ih rs' hp r hr'
          exact ⟨tid, List.mem_cons_of_mem _ htid, hres⟩

/-- Every buffer of `threadSegments` is the buffer of a completed thread. -/
theorem alternative_optimizations.mem_threadSegments (F : List ℚ) (w h : Nat) (iso : ℚ)
    (W : Nat) (owner : Nat → Nat) (bufs : List (List LineSegment))
    (hrun : alternative_optimizations.parallelRegion F w h iso W owner = some bufs) :
    ∀ buf ∈ bufs, ∃ tid, tid < W ∧ ∃ log,
      checkpoint_5.thread F w iso (threadRows h owner tid) = some (buf, log) := by
  rw [alternative_optimizations.parallelRegion_eq] at hrun
  split at hrun
  swap
  · exact absurd hrun (by simp)
  unfold alternative_optimizations.fillBuffers at hrun
  cases hp : perThread (fun tid => checkpoint_5.thread F w iso (threadRows h owner tid))
      (List.range W) with
  | none => simp [hp] at hrun
  | some rs =>
    simp only [hp, Option.some_bind, Option.bind_eq_bind, Option.pure_def,
      Option.some.injEq] at hrun
    subst hrun
    intro buf hbuf
    obtain ⟨r, hr, rfl⟩ := List.mem_map.mp hbuf
    obtain ⟨tid, htid, hthread⟩ := perThread_eq_some _ _ _ hp r hr
    exact ⟨tid, List.mem_range.mp htid, r.2, hthread⟩

/-- The run of `alternative_optimizations` on the `4 × 2` checkerboard field at
isolevel `1/2` with two threads, thread 0 owning the only row. -/
theorem alternative_optimizations.checkerboard_run :
    alternative_optimizations.parallelRegion [0, 1, 0, 1, 1, 0, 1, 0] 4 2 (1 / 2) 2
        (fun _ => 0) =
      some [(List.range (4 - 1)).flatMap
          (fun x => cellSegments [0, 1, 0, 1, 1, 0, 1, 0] 4 (1 / 2) x 0), []] := by
  have hrow := checkpoint_5.rowIteration_direct [0, 1, 0, 1, 1, 0, 1, 0] 4 2 (1 / 2) 0 rfl
    (by decide) (by decide) ([], [])
  have ht0 : checkpoint_5.thread [0, 1, 0, 1, 1, 0, 1, 0] 4 (1 / 2)
      (threadRows 2 (fun _ => 0) 0) =
      some ((List.range (4 - 1)).flatMap
          (fun x => cellSegments [0, 1, 0, 1, 1, 0, 1, 0] 4 (1 / 2) x 0),
        (List.range (4 - 1)).map (fun x => (x, 0))) := by
    have hr : threadRows 2 (fun _ => 0) 0 = [0] := rfl
    rw [hr, checkpoint_5.thread, List.foldlM_cons, hrow]
    rfl
  have ht1 : checkpoint_5.thread [0, 1, 0, 1, 1, 0, 1, 0] 4 (1 / 2)
      (threadRows 2 (fun _ => 0) 1) = some ([], []) := rfl
  have hr2 : List.range 2 = [0, 1] := rfl
  rw [alternative_optimizations.parallelRegion_eq, if_pos (Or.inr (by decide))]
  simp only [alternative_optimizations.fillBuffers, hr2, perThread, ht0, ht1,
    Option.some_bind, Option.bind_eq_bind, Option.pure_def, List.map_cons, List.map_nil]

/-- C11 (end-to-end): for the 3×3 field `[[0,0,0],[0,1,0],[0,0,0]]` (flat,
row-major) and isolevel `1/2`, the cells `(0,0)`, `(1,0)`, `(0,1)`, `(1,1)`
classify to the single-bit cases 4, 8, 2, 1, each contributes one segment, and
the single-thread traversal evaluates these four cells and yields exactly the
four segments `(1,0.5)-(0.5,1)`, `(1.5,1)-(1,0.5)`, `(0.5,1)-(1,1.5)`,
`(1,1.5)-(1.5,1)`. -/
theorem end_to_end_three_by_three :
    (checkpoint_5.caseIdx (cellValues [0, 0, 0, 0, 1, 0, 0, 0, 0] 3 0 0) (1 / 2) = 4 ∧
      checkpoint_5.caseIdx (cellValues [0, 0, 0, 0, 1, 0, 0, 0, 0] 3 1 0) (1 / 2) = 8 ∧
      checkpoint_5.caseIdx (cellValues [0, 0, 0, 0, 1, 0, 0, 0, 0] 3 0 1) (1 / 2) = 2 ∧
      checkpoint_5.caseIdx (cellValues [0, 0, 0, 0, 1, 0, 0, 0, 0] 3 1 1) (1 / 2) = 1) ∧
    (checkpoint_5.marchSquare 0 0 (cellValues [0, 0, 0, 0, 1, 0, 0, 0, 0] 3 0 0) (1 / 2) [] =
        some [⟨⟨1, 1 / 2⟩, ⟨1 / 2, 1⟩⟩] ∧
      checkpoint_5.marchSquare 1 0 (cellValues [0, 0, 0, 0, 1, 0, 0, 0, 0] 3 1 0) (1 / 2) [] =
        some [⟨⟨3 / 2, 1⟩, ⟨1, 1 / 2⟩⟩] ∧
      checkpoint_5.marchSquare 0 1 (cellValues [0, 0, 0, 0, 1, 0, 0, 0, 0] 3 0 1) (1 / 2) [] =
        some [⟨⟨1 / 2, 1⟩, ⟨1, 3 / 2⟩⟩] ∧
      checkpoint_5.marchSquare 1 1 (cellValues [0, 0, 0, 0, 1, 0, 0, 0, 0] 3 1 1) (1 / 2) [] =
        some [⟨⟨1, 3 / 2⟩, ⟨3 / 2, 1⟩⟩]) ∧
    checkpoint_5.singleWorker [0, 0, 0, 0, 1, 0, 0, 0, 0] 3 3 (1 / 2) =
      some ([⟨⟨1, 1 / 2⟩, ⟨1 / 2, 1⟩⟩, ⟨⟨3 / 2, 1⟩, ⟨1, 1 / 2⟩⟩,
          ⟨⟨1 / 2, 1⟩, ⟨1, 3 / 2⟩⟩, ⟨⟨1, 3 / 2⟩, ⟨3 / 2, 1⟩⟩],
        [[(0, 0), (1, 0), (0, 1), (1, 1)]]) := by
  have hv00 : cellValues [0, 0, 0, 0, 1, 0, 0, 0, 0] 3 0 0 = ![0, 0, 1, 0] := by
    simp [cellValues]
  have hv10 : cellValues [0, 0, 0, 0, 1, 0, 0, 0, 0] 3 1 0 = ![0, 0, 0, 1] := by
    simp [cellValues]
  have hv01 : cellValues [0, 0, 0, 0, 1, 0, 0, 0, 0] 3 0 1 = ![0, 1, 0, 0] := by
    simp [cellValues]
  have hv11 : cellValues [0, 0, 0, 0, 1, 0, 0, 0, 0] 3 1 1 = ![1, 0, 0, 0] := by
    simp [cellValues]
  have hc00 : checkpoint_5.caseIdx ![0, 0, 1, 0] (1 / 2) = 4 := by
    norm_num [checkpoint_5.caseIdx]
  have hc10 : checkpoint_5.caseIdx ![0, 0, 0, 1] (1 / 2) = 8 := by
    norm_num [checkpoint_5.caseIdx]
  have hc01 : checkpoint_5.caseIdx ![0, 1, 0, 0] (1 / 2) = 2 := by
    norm_num [checkpoint_5.caseIdx]
  have hc11 : checkpoint_5.caseIdx ![1, 0, 0, 0] (1 / 2) = 1 := by
    norm_num [checkpoint_5.caseIdx]
  have hs00 : cellSegments [0, 0, 0, 0, 1, 0, 0, 0, 0] 3 (1 / 2) 0 0 =
      [⟨⟨1, 1 / 2⟩, ⟨1 / 2, 1⟩⟩] := by
    rw [cellSegments, hv00, hc00]
    norm_num [specSegments, specEdgePairs, specEdgePoint, specEdgeCorners,
      checkpoint_5.cellCorners, lerp, lerpTraced, EPS]
  have hs10 : cellSegments [0, 0, 0, 0, 1, 0, 0, 0, 0] 3 (1 / 2) 1 0 =
      [⟨⟨3 / 2, 1⟩, ⟨1, 1 / 2⟩⟩] := by
    rw [cellSegments, hv10, hc10]
    norm_num [specSegments, specEdgePairs, specEdgePoint, specEdgeCorners,
      checkpoint_5.cellCorners, lerp, lerpTraced, EPS]
  have hs01 : cellSegments [0, 0, 0, 0, 1, 0, 0, 0, 0] 3 (1 / 2) 0 1 =
      [⟨⟨1 / 2, 1⟩, ⟨1, 3 / 2⟩⟩] := by
    rw [cellSegments, hv01, hc01]
    norm_num [specSegments, specEdgePairs, specEdgePoint, specEdgeCorners,
      checkpoint_5.cellCorners, lerp, lerpTraced, EPS]
  have hs11 : cellSegments [0, 0, 0, 0, 1, 0, 0, 0, 0] 3 (1 / 2) 1 1 =
      [⟨⟨1, 3 / 2⟩, ⟨3 / 2, 1⟩⟩] := by
    rw [cellSegments, hv11, hc11]
    norm_num [specSegments, specEdgePairs, specEdgePoint, specEdgeCorners,
      checkpoint_5.cellCorners, lerp, lerpTraced, EPS]
  have hm : ∀ x y : Nat, checkpoint_5.marchSquare (x : ℚ) (y : ℚ)
      (cellValues [0, 0, 0, 0, 1, 0, 0, 0, 0] 3 x y) (1 / 2) [] =
        some (cellSegments [0, 0, 0, 0, 1, 0, 0, 0, 0] 3 (1 / 2) x y) := by
    intro x y
    rw [checkpoint_5.marchSquare_eq]; rfl
  refine ⟨⟨by rw [hv00, hc00], by rw [hv10, hc10], by rw [hv01, hc01], by rw [hv11, hc11]⟩,
    ⟨?_, ?_, ?_, ?_⟩, ?_⟩
  · have h := hm 0 0
    rw [hs00] at h
    simpa only [Nat.cast_zero, Nat.cast_one] using h
  · have h := hm 1 0
    rw [hs10] at h
    simpa only [Nat.cast_zero, Nat.cast_one] using h
  · have h := hm 0 1
    rw [hs01] at h
    simpa only [Nat.cast_zero, Nat.cast_one] using h
  · have h := hm 1 1
    rw [hs11] at h
    simpa only [Nat.cast_zero, Nat.cast_one] using h
  · rw [checkpoint_5.singleWorker_direct [0, 0, 0, 0, 1, 0, 0, 0, 0] 3 3 (1 / 2) rfl (by decide)]
    have hr : List.range (3 - 1) = [0, 1] := rfl
    simp only [hr, specCells, List.flatMap_cons, List.flatMap_nil, List.map_cons, List.map_nil,
      List.append_nil, hs00, hs10, hs01, hs11]
    rfl

/-- C12 (degenerate grid): for every field with `width = 1` or `height = 1` (the
other dimension at least 1), every isolevel, every number of threads and every
schedule, the parallel traversal of `checkpoint_5` on the flat field of
`width * height` samples completes (no field read is out of bounds), no thread
passes a cell to `marchSquare`, and `allSegments` is empty; the sequential loop
nest of `checkpoint_1` likewise returns an empty list and an empty call log. -/
theorem degenerate_grid_empty (F : List ℚ) (F2 : List (List ℚ)) (w h : Nat) (iso : ℚ)
    (W : Nat) (owner : Nat → Nat) (order : List Nat)
    (hd : (w = 1 ∧ 1 ≤ h) ∨ (h = 1 ∧ 1 ≤ w)) :
    (F.length = w * h →
      checkpoint_5.parallelRegion F w h iso W owner order = some ([], List.replicate W [])) ∧
    checkpoint_1.traverse F2 w h iso ([], []) = some ([], []) := by
  have hd5 : h ≤ 1 ∨ w = 1 := by omega
  have hd1 : h ≤ 1 ∨ w ≤ 1 := by omega
  exact ⟨fun hF => checkpoint_5.parallelRegion_degenerate F w h iso W owner order hF hd5,
    checkpoint_1.traverse_degenerate F2 w h iso hd1 _⟩

/-- Witness for C12: a field of width 1 and height 3, two threads. -/
theorem degenerate_grid_empty_witness :
    checkpoint_5.parallelRegion [0, 1, 0] 1 3 (1 / 2) 2 (fun y => y) [1, 0] =
      some ([], List.replicate 2 []) ∧
    checkpoint_1.traverse [[0], [1], [0]] 1 3 (1 / 2) ([], []) = some ([], []) :=
  ⟨(degenerate_grid_empty [0, 1, 0] [[0], [1], [0]] 1 3 (1 / 2) 2 (fun y => y) [1, 0]
      (Or.inl ⟨rfl, by decide⟩)).1 rfl,
    (degenerate_grid_empty [0, 1, 0] [[0], [1], [0]] 1 3 (1 / 2) 2 (fun y => y) [1, 0]
      (Or.inl ⟨rfl, by decide⟩)).2⟩

/-- C15: sliding-window reuse has no semantic effect. Let a two-dimensional
field with `h` rows of `w >= 1` samples be held flat in row-major order. Then
for every cell `(x, y)`: when the scan of row `y` by `checkpoint_5` reaches the
cell, the window holds `field[y*w+x]` and `field[(y+1)*w+x]`, the two reads give
`field[y*w+x+1]` and `field[(y+1)*w+x+1]`, and the step is the call of
`marchSquare` on the values `field[y*w+x]`, `field[y*w+x+1]`,
`field[(y+1)*w+x+1]`, `field[(y+1)*w+x]` in this order, which are the values
`[y][x]`, `[y][x+1]`, `[y+1][x+1]`, `[y+1][x]` that `checkpoint_3` reads; and
the single-thread runs of `checkpoint_5` and of `checkpoint_3` succeed with the
same sequence of segments. -/
theorem sliding_window_equals_direct_read (F2 : List (List ℚ)) (w h : Nat) (iso : ℚ)
    (hF : F2.length = h) (hrow : ∀ row ∈ F2, row.length = w) (hw : 1 ≤ w) :
    (∀ y x, y + 2 ≤ h → x + 2 ≤ w →
      ∃ v0 v1 v2 v3 : ℚ,
        (F2.flatten[y * w + x]? = some v0 ∧ F2.flatten[y * w + x + 1]? = some v1 ∧
          F2.flatten[(y + 1) * w + x + 1]? = some v2 ∧ F2.flatten[(y + 1) * w + x]? = some v3) ∧
        (checkpoint_3.readField F2 y x = some v0 ∧ checkpoint_3.readField F2 y (x + 1) = some v1 ∧
          checkpoint_3.readField F2 (y + 1) (x + 1) = some v2 ∧
          checkpoint_3.readField F2 (y + 1) x = some v3) ∧
        ∀ segs calls, ∃ st,
          (List.range x).foldlM (checkpoint_5.cellIteration F2.flatten w iso y)
              ⟨F2.flatten.getD (y * w) 0, F2.flatten.getD ((y + 1) * w) 0, segs, calls⟩ =
            some st ∧
          st.left_top_val = v0 ∧ st.left_bottom_val = v3 ∧
          checkpoint_5.cellIteration F2.flatten w iso y st x =
            (checkpoint_5.marchSquare (x : ℚ) (y : ℚ) ![v0, v1, v2, v3] iso
                st.privateSegments).map
              fun privateSegments => ⟨v1, v2, privateSegments, st.calls ++ [(x, y)]⟩) ∧
    (∃ segs, checkpoint_5.singleWorker F2.flatten w h iso = some (segs, [specCells w h]) ∧
      checkpoint_3.singleWorker F2 w h iso = some (segs, [specCells w h])) := by
  have hlen : F2.flatten.length = w * h := by
    rw [flatten_length_of_rows w F2 hrow, hF]
  constructor
  · intro y x hy hx
    obtain ⟨-, -, b1, b2⟩ := read_index_bounds w h y x hy hx
    have e1 : (y + 1) * w = y * w + w := by ring
    have hle : (y + 2) * w ≤ w * h := by
      rw [Nat.mul_comm w h]
      exact Nat.mul_le_mul_right w hy
    have e : (y + 2) * w = (y + 1) * w + w := by ring
    rw [← hlen] at b1 b2
    have b0 : y * w + x < F2.flatten.length := by omega
    have b3 : (y + 1) * w + x < F2.flatten.length := by omega
    refine ⟨F2.flatten.getD (y * w + x) 0, F2.flatten.getD (y * w + x + 1) 0,
      F2.flatten.getD ((y + 1) * w + x + 1) 0, F2.flatten.getD ((y + 1) * w + x) 0,
      ⟨getElem?_eq_some_getD _ _ b0, getElem?_eq_some_getD _ _ b1,
        getElem?_eq_some_getD _ _ b2, getElem?_eq_some_getD _ _ b3⟩,
      ⟨checkpoint_3.readField_flatten w F2 hrow y x (by omega) (by omega),
        checkpoint_3.readField_flatten w F2 hrow y (x + 1) (by omega) (by omega),
        checkpoint_3.readField_flatten w F2 hrow (y + 1) (x + 1) (by omega) (by omega),
        checkpoint_3.readField_flatten w F2 hrow (y + 1) x (by omega) (by omega)⟩, ?_⟩
    intro segs calls
    refine ⟨_, checkpoint_5.foldlM_cellIteration_window F2.flatten w h iso y hlen (by omega)
      segs calls x (by omega), rfl, rfl, ?_⟩
    simp only [checkpoint_5.cellIteration, getElem?_eq_some_getD _ _ b1,
      getElem?_eq_some_getD _ _ b2, Option.some_bind, Option.bind_eq_bind, Nat.add_assoc]
    cases checkpoint_5.marchSquare (x : ℚ) (y : ℚ)
      ![F2.flatten.getD (y * w + x) 0, F2.flatten.getD (y * w + (x + 1)) 0,
        F2.flatten.getD ((y + 1) * w + (x + 1)) 0, F2.flatten.getD ((y + 1) * w + x) 0] iso
      (segs ++ (List.range x).flatMap fun x => cellSegments F2.flatten w iso x y) with
    | none => rfl
    | some p => rfl
  · exact ⟨_, checkpoint_5.singleWorker_direct F2.flatten w h iso hlen hw,
      checkpoint_3.singleWorker_direct_read F2 w h iso hF hrow⟩

/-- Witness for C15: the 3×3 field with a peak in the centre. -/
theorem sliding_window_equals_direct_read_witness :
    ∃ segs,
      checkpoint_5.singleWorker [[0, 0, 0], [0, 1, 0], [0, 0, 0]].flatten 3 3 (1 / 2) =
        some (segs, [specCells 3 3]) ∧
      checkpoint_3.singleWorker [[0, 0, 0], [0, 1, 0], [0, 0, 0]] 3 3 (1 / 2) =
        some (segs, [specCells 3 3]) :=
  (sliding_window_equals_direct_read [[0, 0, 0], [0, 1, 0], [0, 0, 0]] 3 3 (1 / 2) rfl
    (by decide) (by decide)).2

/-- C20: for `width >= 2`, `height >= 2` and a flat field of exactly
`width * height` samples, every index the traversal of `checkpoint_5` reads for a
row `0 <= y <= height-2` and a cell `0 <= x <= width-2`, namely `y*width`,
`(y+1)*width`, `y*width+x+1` and `(y+1)*width+x+1`, is smaller than
`width * height`, the four bounds-checked reads succeed, every row scan succeeds
from any buffer, and so does the whole parallel region for every number of
threads and schedule. -/
theorem flat_reads_in_bounds (F : List ℚ) (w h : Nat) (iso : ℚ)
    (hw : 2 ≤ w) (hh : 2 ≤ h) (hF : F.length = w * h) :
    (∀ y x, y + 2 ≤ h → x + 2 ≤ w →
      (y * w < w * h ∧ (y + 1) * w < w * h ∧
        y * w + (x + 1) < w * h ∧ (y + 1) * w + (x + 1) < w * h) ∧
      (F[y * w]?.isSome = true ∧ F[(y + 1) * w]?.isSome = true ∧
        F[y * w + (x + 1)]?.isSome = true ∧ F[(y + 1) * w + (x + 1)]?.isSome = true)) ∧
    (∀ y, y + 2 ≤ h → ∀ buf, (checkpoint_5.rowIteration F w iso buf y).isSome = true) ∧
    (∀ W owner order,
      (checkpoint_5.parallelRegion F w h iso W owner order).isSome = true) := by
  have hh1 : 1 ≤ h - 1 := by omega
  refine ⟨?_, ?_, ?_⟩
  · intro y x hy hx
    have hb := read_index_bounds w h y x hy hx
    refine ⟨hb, ?_⟩
    rw [← hF] at hb
    obtain ⟨b0, b1, b2, b3⟩ := hb
    simp [List.getElem?_eq_getElem b0, List.getElem?_eq_getElem b1,
      List.getElem?_eq_getElem b2, List.getElem?_eq_getElem b3]
  · intro y hy buf
    rw [checkpoint_5.rowIteration_direct F w h iso y hF (by omega) (by omega)]
    rfl
  · intro W owner order
    rw [checkpoint_5.parallelRegion_of_isSome F w h iso W owner order (fun y hy => by
      rw [checkpoint_5.rowIteration_direct F w h iso y hF (by omega) hy]; rfl)]
    rfl

/-- Witness for C20: a 2×2 field. -/
theorem flat_reads_in_bounds_witness :
    (checkpoint_5.parallelRegion [0, 1, 1, 0] 2 2 (1 / 2) 2 (fun y => y) [1, 0]).isSome = true :=
  (flat_reads_in_bounds [0, 1, 1, 0] 2 2 (1 / 2) (by decide) (by decide) rfl).2.2 2
    (fun y => y) [1, 0]

/-- C18, counterexample: a `4 × 2` checkerboard field at isolevel `1/2` with two
threads. The single row goes to thread 0 (a static split into ranges of at most
`ceil(1/2) = 1` row); its three cells are saddle cells, so thread 0 appends 6
segments, more than the capacity `2 * ceil(3/2) = 4` it reserved. -/
theorem reserved_capacity_counterexample :
    (∀ tid, tid < 2 → (threadRows 2 (fun _ => 0) tid).length ≤ (2 - 1 + 2 - 1) / 2) ∧
    alternative_optimizations.reservedCapacity 4 2 2 = 4 ∧
    2 * (((2 - 1) * (4 - 1) + 2 - 1) / 2) = 4 ∧
    ∃ buf, alternative_optimizations.parallelRegion [0, 1, 0, 1, 1, 0, 1, 0] 4 2 (1 / 2) 2
        (fun _ => 0) = some [buf, []] ∧
      buf.length = 6 ∧
      alternative_optimizations.reservedCapacity 4 2 2 < buf.length := by
  have hv0 : cellValues [0, 1, 0, 1, 1, 0, 1, 0] 4 0 0 = ![0, 1, 0, 1] := by
    simp [cellValues]
  have hv1 : cellValues [0, 1, 0, 1, 1, 0, 1, 0] 4 1 0 = ![1, 0, 1, 0] := by
    simp [cellValues]
  have hv2 : cellValues [0, 1, 0, 1, 1, 0, 1, 0] 4 2 0 = ![0, 1, 0, 1] := by
    simp [cellValues]
  have hc10 : checkpoint_5.caseIdx ![0, 1, 0, 1] (1 / 2) = 10 := by
    norm_num [checkpoint_5.caseIdx]
    simp
  have hc5 : checkpoint_5.caseIdx ![1, 0, 1, 0] (1 / 2) = 5 := by
    norm_num [checkpoint_5.caseIdx]
    simp
  have hl0 : (cellSegments [0, 1, 0, 1, 1, 0, 1, 0] 4 (1 / 2) 0 0).length = 2 := by
    rw [cellSegments, hv0, hc10, specSegments_length]; rfl
  have hl1 : (cellSegments [0, 1, 0, 1, 1, 0, 1, 0] 4 (1 / 2) 1 0).length = 2 := by
    rw [cellSegments, hv1, hc5, specSegments_length]; rfl
  have hl2 : (cellSegments [0, 1, 0, 1, 1, 0, 1, 0] 4 (1 / 2) 2 0).length = 2 := by
    rw [cellSegments, hv2, hc10, specSegments_length]; rfl
  have hreg := alternative_optimizations.checkerboard_run
  have hlen : ((List.range (4 - 1)).flatMap
      (fun x => cellSegments [0, 1, 0, 1, 1, 0, 1, 0] 4 (1 / 2) x 0)).length = 6 := by
    have hr3 : List.range (4 - 1) = [0, 1, 2] := rfl
    simp only [hr3, List.flatMap_cons, List.flatMap_nil, List.length_append, List.length_nil,
      hl0, hl1, hl2]
  refine ⟨by decide, by decide, by decide, _, hreg, hlen, ?_⟩
  rw [hlen]
  decide

/-- C18, amended: in `alternative_optimizations`, whenever the parallel region
completes and every thread was handed at most `ceil((height-1)/W)` rows, each
thread has appended at most `2 * (width-1) * ceil((height-1)/W)` segments (two
per cell of its rows). The reserved capacity `2 * ceil((height-1)*(width-1)/W)`
can be smaller than this; it is an estimate, not a bound. -/
theorem thread_segments_bound (F : List ℚ) (w h : Nat) (iso : ℚ) (W : Nat) (owner : Nat → Nat)
    (bufs : List (List LineSegment))
    (hrows : ∀ tid, tid < W → (threadRows h owner tid).length ≤ (h - 1 + W - 1) / W)
    (hrun : alternative_optimizations.parallelRegion F w h iso W owner = some bufs) :
    ∀ buf ∈ bufs, buf.length ≤ 2 * (w - 1) * ((h - 1 + W - 1) / W) := by
  intro buf hbuf
  obtain ⟨tid, htid, log, hthread⟩ :=
    alternative_optimizations.mem_threadSegments F w h iso W owner bufs hrun buf hbuf
  have hlen := checkpoint_5.thread_length F w iso _ _ hthread
  exact le_trans hlen (Nat.mul_le_mul_left _ (hrows tid htid))

/-- Witness for the amended C18: the checkerboard run of the counterexample,
where the buffer of thread 0 has at most `2 * 3 * 1` segments. -/
theorem thread_segments_bound_witness :
    ((List.range (4 - 1)).flatMap
        (fun x => cellSegments [0, 1, 0, 1, 1, 0, 1, 0] 4 (1 / 2) x 0)).length ≤
      2 * (4 - 1) * ((2 - 1 + 2 - 1) / 2) :=
  thread_segments_bound [0, 1, 0, 1, 1, 0, 1, 0] 4 2 (1 / 2) 2 (fun _ => 0) _
    (by decide) alternative_optimizations.checkerboard_run _ (List.mem_cons_self _ _)

/-! ## Further claims on the cell evaluator -/

/-- C16: the output-parameter `marchSquare` of `checkpoint_5` only appends. For
every buffer `B`, cell origin, corner values and isolevel, the value-returning
`marchSquare` of `checkpoint_1` returns a list `segs` for the corners `(cx,cy)`,
`(cx+1,cy)`, `(cx+1,cy+1)`, `(cx,cy+1)`, the buffer after the call is `B ++ segs`,
and its first `B.length` elements are those of `B`, unchanged. -/
theorem marchSquare_only_appends (B : List LineSegment) (cx cy : ℚ) (values : Fin 4 → ℚ)
    (iso : ℚ) :
    ∃ segs,
      checkpoint_1.marchSquare
          ![⟨cx, cy⟩, ⟨cx + 1, cy⟩, ⟨cx + 1, cy + 1⟩, ⟨cx, cy + 1⟩] values iso = some segs ∧
      checkpoint_5.marchSquare cx cy values iso B = some (B ++ segs) ∧
      (B ++ segs).take B.length = B := by
  refine ⟨_, checkpoint_1.marchSquare_spec _ values iso, ?_, by simp⟩
  rw [checkpoint_5.marchSquare_eq, checkpoint_1.caseIdx_eq]
  rfl

/-- C19: table accesses in `marchSquare` are always in bounds. The tables have
16 rows of 4 entries and 4 rows of 2 entries; in every row of `edgePairs`, when
`pair[i] != -1` at `i = 0` or `i = 2`, both `pair[i]` and `pair[i+1]` are edge
indices in `0..3` (so the terminator `-1` is never used as an edge); every entry
of `edgeCorners` is a corner index in `0..3`. For all inputs the evaluator
returns before indexing when the case index is 0 or 15 and otherwise indexes
`edgePairs` with a case index in `1..14`; the call succeeds (no bounds-checked
read fails) and every edge passed to `getEdgePoint` is in `0..3`. -/
theorem marchSquare_table_accesses_in_bounds (cx cy : ℚ) (values : Fin 4 → ℚ) (iso : ℚ)
    (out : List LineSegment) :
    (checkpoint_5.edgePairs.length = 16 ∧ checkpoint_5.edgeCorners.length = 4) ∧
    (∀ pair ∈ checkpoint_5.edgePairs, pair.length = 4 ∧
      ∀ i ∈ [0, 2], ∀ a, pair[i]? = some a → ∀ b, pair[i + 1]? = some b → a ≠ -1 →
        (0 ≤ a ∧ a ≤ 3) ∧ b ≠ -1 ∧ (0 ≤ b ∧ b ≤ 3)) ∧
    (∀ row ∈ checkpoint_5.edgeCorners, row.length = 2 ∧ ∀ c ∈ row, 0 ≤ c ∧ c ≤ 3) ∧
    ((checkpoint_5.caseIdx values iso = 0 ∨ checkpoint_5.caseIdx values iso = 15) →
      checkpoint_5.marchSquareTraced cx cy values iso out = some (out, [])) ∧
    (¬ (checkpoint_5.caseIdx values iso = 0 ∨ checkpoint_5.caseIdx values iso = 15) →
      1 ≤ checkpoint_5.caseIdx values iso ∧ checkpoint_5.caseIdx values iso ≤ 14 ∧
      ∃ pair, checkpoint_5.edgePairs[checkpoint_5.caseIdx values iso]? = some pair) ∧
    (∃ segs log, checkpoint_5.marchSquareTraced cx cy values iso out = some (out ++ segs, log) ∧
      ∀ call ∈ log, (0 ≤ call.edge ∧ call.edge ≤ 3) ∧
        ∃ c0 c1 : Fin 4,
          tableRow checkpoint_5.edgeCorners call.edge = some [(c0.val : Int), (c1.val : Int)] ∧
          at4 (checkpoint_5.cellCorners cx cy) (c0.val : Int) = some call.p1 ∧
          at4 (checkpoint_5.cellCorners cx cy) (c1.val : Int) = some call.p2 ∧
          at4 values (c0.val : Int) = some call.v1 ∧
          at4 values (c1.val : Int) = some call.v2) := by
  have hlt := checkpoint_5.caseIdx_lt values iso
  refine ⟨⟨rfl, rfl⟩, by decide, by decide, ?_, ?_, ?_⟩
  · intro h0
    simp [checkpoint_5.marchSquareTraced, h0]
  · intro h0
    obtain ⟨pair, hpair, -⟩ := checkpoint_5.rowPairs_edgePairs _ hlt
    exact ⟨by omega, by omega, pair, hpair⟩
  · refine ⟨_, _, checkpoint_5.marchSquareTraced_eq cx cy values iso out, ?_⟩
    intro call hcall
    rw [specLerpCalls, List.mem_flatMap] at hcall
    obtain ⟨ab, -, hmem⟩ := hcall
    have hcases : ∃ e : Fin 4,
        call = specLerpCall (checkpoint_5.cellCorners cx cy) values iso e := by
      simp only [List.mem_cons, List.mem_singleton, List.not_mem_nil, or_false] at hmem
      rcases hmem with h | h
      · exact ⟨_, h⟩
      · exact ⟨_, h⟩
    obtain ⟨e, rfl⟩ := hcases
    refine ⟨?_, (specEdgeCorners e).1, (specEdgeCorners e).2, ?_, ?_, ?_, ?_, ?_⟩
    · simp only [specLerpCall]; omega
    all_goals (fin_cases e <;> rfl)

/-- Witness for C19: the saddle cell `(1, 0, 1, 0)` at isolevel `1/2` has case
index 5, inside `1..14`, and `edgePairs[5]` exists. -/
theorem marchSquare_table_accesses_in_bounds_witness :
    1 ≤ checkpoint_5.caseIdx ![1, 0, 1, 0] (1 / 2) ∧
    checkpoint_5.caseIdx ![1, 0, 1, 0] (1 / 2) ≤ 14 ∧
    ∃ pair, checkpoint_5.edgePairs[checkpoint_5.caseIdx ![1, 0, 1, 0] (1 / 2)]? = some pair :=
  (marchSquare_table_accesses_in_bounds 0 0 ![1, 0, 1, 0] (1 / 2) []).2.2.2.2.1
    (by norm_num [checkpoint_5.caseIdx]; decide)

/-! ## Claims on symmetry and counting -/

/-- Beyond the guard, `lerp` does not depend on the direction in which the edge
is traversed. -/
theorem lerp_swap (p1 p2 : Point) (v1 v2 iso : ℚ) (h : EPS ≤ |v2 - v1|) :
    lerp p1 p2 v1 v2 iso = lerp p2 p1 v2 v1 iso := by
  have hnot : ¬ |v2 - v1| < EPS := not_lt.mpr h
  have hnot' : ¬ |v1 - v2| < EPS := by rw [abs_sub_comm]; exact hnot
  have hne : v2 - v1 ≠ 0 := by
    intro h0
    rw [h0, abs_zero] at h
    exact absurd h (by norm_num [EPS])
  have hne' : v1 - v2 ≠ 0 := by
    intro h0; apply hne; linarith
  simp only [lerp, lerpTraced, hnot, hnot', if_false, Point.mk.injEq]
  constructor <;> field_simp <;> ring

/-- C21 (shared-edge agreement): for all `p1`, `p2`, `v1`, `v2`, `iso` with
`|v2 - v1| >= EPS`, `lerp(p1, p2, v1, v2, iso) = lerp(p2, p1, v2, v1, iso)`.
Hence, when the two corner values of the shared edge differ by at least `EPS`:
the point `getEdgePoint` computes on edge 1 of a cell equals the point it
computes on edge 3 of the right neighbour, and the point on edge 2 of a cell
equals the point on edge 0 of the neighbour below, whatever the other corner
values; this holds in particular for the adjacent cells of a flat field. -/
theorem shared_edge_agreement (p1 p2 : Point) (v1 v2 iso : ℚ) (cx cy : ℚ)
    (values right below : Fin 4 → ℚ) (F : List ℚ) (w x y : Nat) :
    (EPS ≤ |v2 - v1| → lerp p1 p2 v1 v2 iso = lerp p2 p1 v2 v1 iso) ∧
    (right 0 = values 1 → right 3 = values 2 → EPS ≤ |values 2 - values 1| →
      ∃ p a b,
        getEdgePoint checkpoint_5.edgeCorners (checkpoint_5.cellCorners cx cy) values iso 1 =
          some (p, a) ∧
        getEdgePoint checkpoint_5.edgeCorners (checkpoint_5.cellCorners (cx + 1) cy) right iso 3 =
          some (p, b)) ∧
    (below 0 = values 3 → below 1 = values 2 → EPS ≤ |values 3 - values 2| →
      ∃ p a b,
        getEdgePoint checkpoint_5.edgeCorners (checkpoint_5.cellCorners cx cy) values iso 2 =
          some (p, a) ∧
        getEdgePoint checkpoint_5.edgeCorners (checkpoint_5.cellCorners cx (cy + 1)) below iso 0 =
          some (p, b)) ∧
    (EPS ≤ |cellValues F w x y 2 - cellValues F w x y 1| →
      ∃ p a b,
        getEdgePoint checkpoint_5.edgeCorners (checkpoint_5.cellCorners (x : ℚ) (y : ℚ))
          (cellValues F w x y) iso 1 = some (p, a) ∧
        getEdgePoint checkpoint_5.edgeCorners
          (checkpoint_5.cellCorners ((x + 1 : Nat) : ℚ) (y : ℚ))
          (cellValues F w (x + 1) y) iso 3 = some (p, b)) ∧
    (EPS ≤ |cellValues F w x y 3 - cellValues F w x y 2| →
      ∃ p a b,
        getEdgePoint checkpoint_5.edgeCorners (checkpoint_5.cellCorners (x : ℚ) (y : ℚ))
          (cellValues F w x y) iso 2 = some (p, a) ∧
        getEdgePoint checkpoint_5.edgeCorners
          (checkpoint_5.cellCorners (x : ℚ) ((y + 1 : Nat) : ℚ))
          (cellValues F w x (y + 1)) iso 0 = some (p, b)) := by
  have hright : ∀ (cx cy : ℚ) (values right : Fin 4 → ℚ), right 0 = values 1 →
      right 3 = values 2 → EPS ≤ |values 2 - values 1| →
      ∃ p a b,
        getEdgePoint checkpoint_5.edgeCorners (checkpoint_5.cellCorners cx cy) values iso 1 =
          some (p, a) ∧
        getEdgePoint checkpoint_5.edgeCorners (checkpoint_5.cellCorners (cx + 1) cy) right iso 3 =
          some (p, b) := by
    intro cx cy values right h0 h3 hE
    have hc3 : checkpoint_5.cellCorners (cx + 1) cy 3 = checkpoint_5.cellCorners cx cy 2 := rfl
    have hc0 : checkpoint_5.cellCorners (cx + 1) cy 0 = checkpoint_5.cellCorners cx cy 1 := rfl
    refine ⟨_, _,
      ⟨3, checkpoint_5.cellCorners (cx + 1) cy 3, checkpoint_5.cellCorners (cx + 1) cy 0,
        right 3, right 0, iso⟩,
      getEdgePoint_one _ values iso, ?_⟩
    rw [show checkpoint_5.edgeCorners = [[0, 1], [1, 2], [2, 3], [3, 0]] from rfl,
      getEdgePoint_three, lerp_swap _ _ _ _ iso hE, h0, h3, hc3, hc0]
  have hbelow : ∀ (cx cy : ℚ) (values below : Fin 4 → ℚ), below 0 = values 3 →
      below 1 = values 2 → EPS ≤ |values 3 - values 2| →
      ∃ p a b,
        getEdgePoint checkpoint_5.edgeCorners (checkpoint_5.cellCorners cx cy) values iso 2 =
          some (p, a) ∧
        getEdgePoint checkpoint_5.edgeCorners (checkpoint_5.cellCorners cx (cy + 1)) below iso 0 =
          some (p, b) := by
    intro cx cy values below h0 h1 hE
    have hc0 : checkpoint_5.cellCorners cx (cy + 1) 0 = checkpoint_5.cellCorners cx cy 3 := rfl
    have hc1 : checkpoint_5.cellCorners cx (cy + 1) 1 = checkpoint_5.cellCorners cx cy 2 := rfl
    refine ⟨_, _,
      ⟨0, checkpoint_5.cellCorners cx (cy + 1) 0, checkpoint_5.cellCorners cx (cy + 1) 1,
        below 0, below 1, iso⟩,
      getEdgePoint_two _ values iso, ?_⟩
    rw [show checkpoint_5.edgeCorners = [[0, 1], [1, 2], [2, 3], [3, 0]] from rfl,
      getEdgePoint_zero, lerp_swap _ _ _ _ iso hE, h0, h1, hc0, hc1]
  refine ⟨lerp_swap p1 p2 v1 v2 iso, hright cx cy values right, hbelow cx cy values below,
    fun hE => ?_, fun hE => ?_⟩
  · have := hright (x : ℚ) (y : ℚ) (cellValues F w x y) (cellValues F w (x + 1) y)
      (by simp [cellValues, Nat.add_assoc]) (by simp [cellValues, Nat.add_assoc]) hE
    simpa using this
  · have := hbelow (x : ℚ) (y : ℚ) (cellValues F w x y) (cellValues F w x (y + 1))
      (by simp [cellValues]) (by simp [cellValues]) hE
    simpa using this

/-- Witness for C21: the edge from value `0` to value `1`, and the cells `(0, 0)`
and `(1, 0)` of the 3×3 field with a peak in the centre. -/
theorem shared_edge_agreement_witness :
    lerp ⟨1, 0⟩ ⟨1, 1⟩ 0 1 (1 / 2) = lerp ⟨1, 1⟩ ⟨1, 0⟩ 1 0 (1 / 2) ∧
    ∃ p a b,
      getEdgePoint checkpoint_5.edgeCorners (checkpoint_5.cellCorners ((0 : Nat) : ℚ) ((0 : Nat) : ℚ))
        (cellValues [0, 0, 0, 0, 1, 0, 0, 0, 0] 3 0 0) (1 / 2) 1 = some (p, a) ∧
      getEdgePoint checkpoint_5.edgeCorners
        (checkpoint_5.cellCorners ((0 + 1 : Nat) : ℚ) ((0 : Nat) : ℚ))
        (cellValues [0, 0, 0, 0, 1, 0, 0, 0, 0] 3 (0 + 1) 0) (1 / 2) 3 = some (p, b) :=
  ⟨(shared_edge_agreement ⟨1, 0⟩ ⟨1, 1⟩ 0 1 (1 / 2) 0 0 ![0, 0, 1, 0] ![0, 0, 0, 1] ![0, 1, 0, 0]
      [0, 0, 0, 0, 1, 0, 0, 0, 0] 3 0 0).1 (by norm_num [EPS]),
    (shared_edge_agreement ⟨1, 0⟩ ⟨1, 1⟩ 0 1 (1 / 2) 0 0 ![0, 0, 1, 0] ![0, 0, 0, 1] ![0, 1, 0, 0]
      [0, 0, 0, 0, 1, 0, 0, 0, 0] 3 0 0).2.2.2.1 (by norm_num [cellValues, EPS])⟩

/-- Negating the two corner values and the isolevel does not change the point
`lerp` returns. -/
theorem lerp_neg (p1 p2 : Point) (v1 v2 iso : ℚ) :
    lerp p1 p2 (-v1) (-v2) (-iso) = lerp p1 p2 v1 v2 iso := by
  have habs : |(-v2) - (-v1)| = |v2 - v1| := by
    rw [show (-v2) - (-v1) = -(v2 - v1) by ring, abs_neg]
  have ht : ((-iso) - (-v1)) / ((-v2) - (-v1)) = (iso - v1) / (v2 - v1) := by
    rw [show (-iso) - (-v1) = -(iso - v1) by ring, show (-v2) - (-v1) = -(v2 - v1) by ring,
      neg_div_neg_eq]
  simp only [lerp, lerpTraced, habs, ht]
  split_ifs <;> rfl

theorem specEdgePoint_neg (corners : Fin 4 → Point) (values : Fin 4 → ℚ) (iso : ℚ) (e : Fin 4) :
    specEdgePoint corners (negValues values) (-iso) e = specEdgePoint corners values iso e := by
  simp only [specEdgePoint, negValues, lerp_neg]

/-- When no corner value equals the isolevel, negating the corner values and the
isolevel complements the case index. -/
theorem checkpoint_5.caseIdx_neg (values : Fin 4 → ℚ) (iso : ℚ) (hne : ∀ i, values i ≠ iso) :
    checkpoint_5.caseIdx (negValues values) (-iso) = 15 - checkpoint_5.caseIdx values iso := by
  have hflip : ∀ i, (negValues values i ≥ -iso) ↔ ¬ (values i ≥ iso) := by
    intro i
    simp only [negValues, ge_iff_le, neg_le_neg_iff, not_le]
    exact ⟨fun h => lt_of_le_of_ne h (hne i), fun h => h.le⟩
  rw [checkpoint_5.caseIdx_eq_sum, checkpoint_5.caseIdx_eq_sum]
  simp only [hflip]
  split_ifs <;> rfl

/-- In a saddle cell with no corner value on the isolevel the four crossing
points, one per edge, are pairwise different. -/
theorem checkpoint_5.saddle_points_ne (cx cy : ℚ) (values : Fin 4 → ℚ) (iso : ℚ)
    (hne : ∀ i : Fin 4, values i ≠ iso)
    (hc : checkpoint_5.caseIdx values iso = 5 ∨ checkpoint_5.caseIdx values iso = 10)
    (a b : Fin 4) (hab : a ≠ b) :
    specEdgePoint (checkpoint_5.cellCorners cx cy) values iso a ≠
      specEdgePoint (checkpoint_5.cellCorners cx cy) values iso b := by
  have hcr : ∀ e : Fin 4,
      Crossed (values (specEdgeCorners e).1) (values (specEdgeCorners e).2) iso := by
    intro e
    have hmem : ∃ ab ∈ specEdgePairs (checkpoint_5.caseIdx values iso), e ∈ [ab.1, ab.2] := by
      rcases hc with h | h <;> rw [h] <;> revert e <;> decide
    obtain ⟨ab, hab', he⟩ := hmem
    exact checkpoint_5.crossed_of_mem values iso ab hab' e he
  obtain ⟨ta, -, ha1, hta⟩ := lerp_of_crossed_lt
    (checkpoint_5.cellCorners cx cy (specEdgeCorners a).1)
    (checkpoint_5.cellCorners cx cy (specEdgeCorners a).2) _ _ iso (hcr a) (hne _)
  obtain ⟨tb, -, hb1, htb⟩ := lerp_of_crossed_lt
    (checkpoint_5.cellCorners cx cy (specEdgeCorners b).1)
    (checkpoint_5.cellCorners cx cy (specEdgeCorners b).2) _ _ iso (hcr b) (hne _)
  simp only [specEdgePoint, hta, htb]
  exact interpolants_ne cx cy a b hab ta tb ha1 hb1

/-- C22 (complement symmetry): for every cell in which no corner value equals the
isolevel, negating the four corner values and the isolevel gives the case index
`15 - c`. When `c` is not 5 or 10, the two calls of `marchSquare` emit the same
number (at most one) of segments, and the segment of the negated cell is the
segment of the cell up to exchanging start and end. In the saddle cases the
same four crossing points `P0..P3` (one per edge) are produced but paired
differently: case 5 emits `P0-P1`, `P3-P2` and its complement `P0-P3`, `P1-P2`;
case 10 emits `P0-P3`, `P1-P2` and its complement `P0-P1`, `P3-P2`; in both the
four crossing points are pairwise different. -/
theorem complement_symmetry (cx cy : ℚ) (values : Fin 4 → ℚ) (iso : ℚ)
    (hne : ∀ i : Fin 4, values i ≠ iso) :
    checkpoint_5.caseIdx (negValues values) (-iso) = 15 - checkpoint_5.caseIdx values iso ∧
    (checkpoint_5.caseIdx values iso ≠ 5 → checkpoint_5.caseIdx values iso ≠ 10 →
      ∃ segs segs',
        checkpoint_5.marchSquare cx cy values iso [] = some segs ∧
        checkpoint_5.marchSquare cx cy (negValues values) (-iso) [] = some segs' ∧
        segs.length ≤ 1 ∧
        List.Forall₂ SameUpToExchange segs segs') ∧
    (checkpoint_5.caseIdx values iso = 5 →
      checkpoint_5.marchSquare cx cy values iso [] = some
        [⟨specEdgePoint (checkpoint_5.cellCorners cx cy) values iso 0,
            specEdgePoint (checkpoint_5.cellCorners cx cy) values iso 1⟩,
          ⟨specEdgePoint (checkpoint_5.cellCorners cx cy) values iso 3,
            specEdgePoint (checkpoint_5.cellCorners cx cy) values iso 2⟩] ∧
      checkpoint_5.marchSquare cx cy (negValues values) (-iso) [] = some
        [⟨specEdgePoint (checkpoint_5.cellCorners cx cy) values iso 0,
            specEdgePoint (checkpoint_5.cellCorners cx cy) values iso 3⟩,
          ⟨specEdgePoint (checkpoint_5.cellCorners cx cy) values iso 1,
            specEdgePoint (checkpoint_5.cellCorners cx cy) values iso 2⟩]) ∧
    (checkpoint_5.caseIdx values iso = 10 →
      checkpoint_5.marchSquare cx cy values iso [] = some
        [⟨specEdgePoint (checkpoint_5.cellCorners cx cy) values iso 0,
            specEdgePoint (checkpoint_5.cellCorners cx cy) values iso 3⟩,
          ⟨specEdgePoint (checkpoint_5.cellCorners cx cy) values iso 1,
            specEdgePoint (checkpoint_5.cellCorners cx cy) values iso 2⟩] ∧
      checkpoint_5.marchSquare cx cy (negValues values) (-iso) [] = some
        [⟨specEdgePoint (checkpoint_5.cellCorners cx cy) values iso 0,
            specEdgePoint (checkpoint_5.cellCorners cx cy) values iso 1⟩,
          ⟨specEdgePoint (checkpoint_5.cellCorners cx cy) values iso 3,
            specEdgePoint (checkpoint_5.cellCorners cx cy) values iso 2⟩]) ∧
    (checkpoint_5.caseIdx values iso = 5 ∨ checkpoint_5.caseIdx values iso = 10 →
      ∀ a b : Fin 4, a ≠ b →
        specEdgePoint (checkpoint_5.cellCorners cx cy) values iso a ≠
          specEdgePoint (checkpoint_5.cellCorners cx cy) values iso b) := by
  have hsaddle := checkpoint_5.saddle_points_ne cx cy values iso hne
  have hneg := checkpoint_5.caseIdx_neg values iso hne
  have hlt := checkpoint_5.caseIdx_lt values iso
  have hm := checkpoint_5.marchSquare_eq cx cy values iso []
  have hm' := checkpoint_5.marchSquare_eq cx cy (negValues values) (-iso) []
  rw [hneg] at hm'
  simp only [List.nil_append, specSegments, specEdgePoint_neg] at hm hm'
  obtain ⟨c, hc⟩ : ∃ c, checkpoint_5.caseIdx values iso = c := ⟨_, rfl⟩
  rw [hc] at hneg hlt hm hm' hsaddle ⊢
  refine ⟨hneg, ?_, ?_, ?_, hsaddle⟩
  · intro h5 h10
    refine ⟨_, _, hm, hm', ?_, ?_⟩
    · interval_cases c <;> simp [specEdgePairs] at h5 h10 ⊢
    · interval_cases c <;> simp [specEdgePairs, SameUpToExchange] at h5 h10 ⊢
  · rintro rfl
    exact ⟨by simpa [specEdgePairs] using hm, by simpa [specEdgePairs] using hm'⟩
  · rintro rfl
    exact ⟨by simpa [specEdgePairs] using hm, by simpa [specEdgePairs] using hm'⟩

/-- Witness for C22: the single-corner cell `(1, 0, 0, 0)` and the saddle cell
`(1, 0, 1, 0)` at isolevel `1/2`. -/
theorem complement_symmetry_witness :
    checkpoint_5.caseIdx (negValues ![1, 0, 0, 0]) (-(1 / 2)) =
      15 - checkpoint_5.caseIdx ![1, 0, 0, 0] (1 / 2) ∧
    checkpoint_5.marchSquare 0 0 (negValues ![1, 0, 1, 0]) (-(1 / 2)) [] = some
      [⟨specEdgePoint (checkpoint_5.cellCorners 0 0) ![1, 0, 1, 0] (1 / 2) 0,
          specEdgePoint (checkpoint_5.cellCorners 0 0) ![1, 0, 1, 0] (1 / 2) 3⟩,
        ⟨specEdgePoint (checkpoint_5.cellCorners 0 0) ![1, 0, 1, 0] (1 / 2) 1,
          specEdgePoint (checkpoint_5.cellCorners 0 0) ![1, 0, 1, 0] (1 / 2) 2⟩] :=
  ⟨(complement_symmetry 0 0 ![1, 0, 0, 0] (1 / 2)
      (by intro i; fin_cases i <;> norm_num)).1,
    ((complement_symmetry 0 0 ![1, 0, 1, 0] (1 / 2)
      (by intro i; fin_cases i <;> norm_num)).2.2.1
      (by norm_num [checkpoint_5.caseIdx]; simp)).2⟩

/-- The number of segments of a cell: one if its case index is neither 0 nor 15,
plus one if it is 5 or 10. -/
theorem cellSegments_length (F : List ℚ) (w : Nat) (iso : ℚ) (c : Nat × Nat) :
    (cellSegments F w iso c.1 c.2).length =
      (if cellCase F w iso c ≠ 0 ∧ cellCase F w iso c ≠ 15 then 1 else 0) +
      (if cellCase F w iso c = 5 ∨ cellCase F w iso c = 10 then 1 else 0) := by
  have hlt : cellCase F w iso c < 16 := checkpoint_5.caseIdx_lt _ iso
  rw [cellSegments, specSegments_length, specEdgePairs_length _ (checkpoint_5.caseIdx_lt _ iso)]
  change (if cellCase F w iso c = 0 ∨ cellCase F w iso c = 15 then 0
    else if cellCase F w iso c = 5 ∨ cellCase F w iso c = 10 then 2 else 1) = _
  split_ifs <;> omega

/-- The segments of all cells, row by row, counted over the row-major list of
cells. -/
theorem length_flatMap_cellSegments (F : List ℚ) (w h : Nat) (iso : ℚ) :
    ((List.range (h - 1)).flatMap fun y =>
        (List.range (w - 1)).flatMap fun x => cellSegments F w iso x y).length =
      (specCells w h).countP
          (fun c => decide (cellCase F w iso c ≠ 0 ∧ cellCase F w iso c ≠ 15)) +
        (specCells w h).countP
          (fun c => decide (cellCase F w iso c = 5 ∨ cellCase F w iso c = 10)) := by
  have hcells : ((List.range (h - 1)).flatMap fun y =>
        (List.range (w - 1)).flatMap fun x => cellSegments F w iso x y) =
      (specCells w h).flatMap fun c => cellSegments F w iso c.1 c.2 := by
    rw [specCells, List.flatMap_assoc]
    refine List.flatMap_congr fun y _ => ?_
    rw [List.flatMap_map]
  rw [hcells]
  generalize specCells w h = cells
  induction cells with
  | nil => simp
  | cons c cs ih =>
    rw [List.flatMap_cons, List.length_append, ih, cellSegments_length,
      List.countP_cons, List.countP_cons]
    simp only [decide_eq_true_eq]
    omega

/-- C23: on a field of `width * height` samples with `width >= 1`, for every
isolevel, number of threads, schedule and merge order, the traversal succeeds
and the total number of segments it produces is the number of cells whose case
index is neither 0 nor 15 plus the number of cells whose case index is 5 or 10;
in particular it is at most `2 * (width-1) * (height-1)`. -/
theorem traversal_segment_count (F : List ℚ) (w h : Nat) (iso : ℚ)
    (W : Nat) (owner : Nat → Nat) (order : List Nat)
    (hF : F.length = w * h) (hw : 1 ≤ w)
    (howner : ∀ y, y < h - 1 → owner y < W) (horder : order.Perm (List.range W)) :
    ∃ segs logs, checkpoint_5.parallelRegion F w h iso W owner order = some (segs, logs) ∧
      segs.length =
        (specCells w h).countP
            (fun c => decide (cellCase F w iso c ≠ 0 ∧ cellCase F w iso c ≠ 15)) +
          (specCells w h).countP
            (fun c => decide (cellCase F w iso c = 5 ∨ cellCase F w iso c = 10)) ∧
      segs.length ≤ 2 * (w - 1) * (h - 1) := by
  have hrows : ∀ y, y < h - 1 →
      (checkpoint_5.rowIteration F w iso ([], []) y).isSome = true := by
    intro y hy
    rw [checkpoint_5.rowIteration_direct F w h iso y hF hw hy]; rfl
  have hperm := checkpoint_5.merged_perm F w h iso W owner order howner horder
  have hout : ((List.range (h - 1)).flatMap fun y => (checkpoint_5.rowOutput F w iso y).1) =
      (List.range (h - 1)).flatMap fun y =>
        (List.range (w - 1)).flatMap fun x => cellSegments F w iso x y :=
    List.flatMap_congr fun y hy => by
      rw [checkpoint_5.rowOutput_direct F w h iso y hF hw (List.mem_range.mp hy)]
  rw [hout] at hperm
  have hlen := hperm.length_eq
  rw [length_flatMap_cellSegments] at hlen
  refine ⟨_, _, checkpoint_5.parallelRegion_of_isSome F w h iso W owner order hrows, hlen, ?_⟩
  rw [hlen]
  have h1 := List.countP_le_length
    (fun c => decide (cellCase F w iso c ≠ 0 ∧ cellCase F w iso c ≠ 15)) (l := specCells w h)
  have h2 := List.countP_le_length
    (fun c => decide (cellCase F w iso c = 5 ∨ cellCase F w iso c = 10)) (l := specCells w h)
  rw [specCells_length] at h1 h2
  rw [Nat.mul_assoc]
  omega

/-- Witness for C23: the 3×3 field with a peak in the centre, two threads. -/
theorem traversal_segment_count_witness :
    ∃ segs logs,
      checkpoint_5.parallelRegion [0, 0, 0, 0, 1, 0, 0, 0, 0] 3 3 (1 / 2) 2 (fun y => y) [1, 0] =
        some (segs, logs) ∧
      segs.length =
        (specCells 3 3).countP
            (fun c => decide (cellCase [0, 0, 0, 0, 1, 0, 0, 0, 0] 3 (1 / 2) c ≠ 0 ∧
              cellCase [0, 0, 0, 0, 1, 0, 0, 0, 0] 3 (1 / 2) c ≠ 15)) +
          (specCells 3 3).countP
            (fun c => decide (cellCase [0, 0, 0, 0, 1, 0, 0, 0, 0] 3 (1 / 2) c = 5 ∨
              cellCase [0, 0, 0, 0, 1, 0, 0, 0, 0] 3 (1 / 2) c = 10)) ∧
      segs.length ≤ 2 * (3 - 1) * (3 - 1) :=
  traversal_segment_count [0, 0, 0, 0, 1, 0, 0, 0, 0] 3 3 (1 / 2) 2 (fun y => y) [1, 0]
    rfl (by decide) (fun _ hy => hy) (by decide)

/-! ## Lemmas on binary32 rounding -/

theorem binary32.roundHalfEven_intCast (n : ℤ) : binary32.roundHalfEven (n : ℚ) = n := by
  unfold binary32.roundHalfEven
  simp

/-- A number within less than `1/2` of an integer rounds to it. -/
theorem binary32.roundHalfEven_of_abs_lt (x : ℚ) (n : ℤ) (h : |x - n| < 1 / 2) :
    binary32.roundHalfEven x = n := by
  rw [abs_lt] at h
  obtain ⟨h1, h2⟩ := h
  unfold binary32.roundHalfEven
  by_cases hx : (n : ℚ) ≤ x
  · have hf : ⌊x⌋ = n := Int.floor_eq_iff.mpr ⟨hx, by linarith⟩
    simp only [hf]
    rw [if_pos h2]
  · push_neg at hx
    have hf : ⌊x⌋ = n - 1 := Int.floor_eq_iff.mpr ⟨by push_cast; linarith, by push_cast; linarith⟩
    simp only [hf]
    push_cast
    rw [if_neg (by linarith), if_pos (by linarith)]
    ring

/-- A number half way between two integers rounds to the even one. -/
theorem binary32.roundHalfEven_tie (x : ℚ) (n : ℤ) (h : x = n + 1 / 2) :
    binary32.roundHalfEven x = if n % 2 = 0 then n else n + 1 := by
  have hf : ⌊x⌋ = n := Int.floor_eq_iff.mpr ⟨by linarith, by linarith⟩
  unfold binary32.roundHalfEven
  simp only [hf]
  rw [if_neg (by linarith), if_neg (by linarith)]

theorem binary32.roundHalfEven_mono (x y : ℚ) (h : x ≤ y) :
    binary32.roundHalfEven x ≤ binary32.roundHalfEven y := by
  have hxle : binary32.roundHalfEven x ≤ ⌊x⌋ + 1 := by
    unfold binary32.roundHalfEven
    simp only
    split_ifs <;> omega
  have hyge : ⌊y⌋ ≤ binary32.roundHalfEven y := by
    unfold binary32.roundHalfEven
    simp only
    split_ifs <;> omega
  rcases (Int.floor_mono h).lt_or_eq with hlt | heq
  · omega
  · unfold binary32.roundHalfEven
    simp only [← heq]
    have hfx := Int.floor_le x
    split_ifs <;> first | omega | linarith

theorem binary32.roundHalfEven_neg (x : ℚ) :
    binary32.roundHalfEven (-x) = -binary32.roundHalfEven x := by
  by_cases hint : (⌊x⌋ : ℚ) = x
  · rw [← hint, ← Int.cast_neg, binary32.roundHalfEven_intCast, binary32.roundHalfEven_intCast]
  · have hlt : (⌊x⌋ : ℚ) < x := lt_of_le_of_ne (Int.floor_le x) hint
    have hlt2 := Int.lt_floor_add_one x
    have hf : ⌊-x⌋ = -⌊x⌋ - 1 :=
      Int.floor_eq_iff.mpr ⟨by push_cast; linarith, by push_cast; linarith⟩
    unfold binary32.roundHalfEven
    simp only [hf]
    push_cast
    split_ifs <;> first | omega | linarith

theorem binary32.quantum_pos (q : ℚ) : 0 < binary32.quantum q := by
  unfold binary32.quantum
  positivity

theorem binary32.quantum_neg (q : ℚ) : binary32.quantum (-q) = binary32.quantum q := by
  unfold binary32.quantum
  rw [abs_neg]

/-- The spacing in the binade `2^k <= |q| < 2^(k+1)`. -/
theorem binary32.quantum_of_binade (q : ℚ) (k : ℤ) (h1 : (2 : ℚ) ^ k ≤ |q|)
    (h2 : |q| < (2 : ℚ) ^ (k + 1)) :
    binary32.quantum q = 2 ^ (max k (-126) - 23) := by
  have hpos : 0 < |q| := lt_of_lt_of_le (by positivity) h1
  have hlog : Int.log 2 |q| = k := by
    apply le_antisymm
    · have := (Int.lt_zpow_iff_log_lt (b := 2) (by norm_num) hpos).mp
        (by exact_mod_cast h2 : |q| < ((2 : ℕ) : ℚ) ^ (k + 1))
      omega
    · exact (Int.zpow_le_iff_le_log (b := 2) (by norm_num) hpos).mp (by exact_mod_cast h1)
  unfold binary32.quantum
  rw [hlog]

theorem binary32.roundToGrid_neg (q : ℚ) :
    binary32.roundToGrid (-q) = -binary32.roundToGrid q := by
  unfold binary32.roundToGrid
  rw [binary32.quantum_neg, neg_div, binary32.roundHalfEven_neg]
  push_cast
  ring

theorem binary32.roundToGrid_zero : binary32.roundToGrid 0 = 0 := by
  unfold binary32.roundToGrid
  rw [zero_div]
  have := binary32.roundHalfEven_intCast 0
  simp only [Int.cast_zero] at this
  rw [this]
  simp

/-- Evaluation of the rounding in the binade `2^k <= |q| < 2^(k+1)`: a number
within less than half a spacing of `n * 2^(max k (-126) - 23)` rounds to it. -/
theorem binary32.roundToGrid_of_near (q : ℚ) (k : ℤ) (n : ℤ) (h1 : (2 : ℚ) ^ k ≤ |q|)
    (h2 : |q| < (2 : ℚ) ^ (k + 1))
    (hn : |q / 2 ^ (max k (-126) - 23) - n| < 1 / 2) :
    binary32.roundToGrid q = n * 2 ^ (max k (-126) - 23) := by
  unfold binary32.roundToGrid
  rw [binary32.quantum_of_binade q k h1 h2, binary32.roundHalfEven_of_abs_lt _ n hn]

/-- Evaluation of the rounding of a number half way between two neighbours. -/
theorem binary32.roundToGrid_of_tie (q : ℚ) (k : ℤ) (n : ℤ) (h1 : (2 : ℚ) ^ k ≤ |q|)
    (h2 : |q| < (2 : ℚ) ^ (k + 1))
    (hn : q / 2 ^ (max k (-126) - 23) = n + 1 / 2) :
    binary32.roundToGrid q =
      (if n % 2 = 0 then n else n + 1 : ℤ) * 2 ^ (max k (-126) - 23) := by
  unfold binary32.roundToGrid
  rw [binary32.quantum_of_binade q k h1 h2, binary32.roundHalfEven_tie _ n hn]

/-- A number `n * 2^j` with `|n| < 2^24` and `j >= -149` is a binary32 number:
rounding returns it. -/
theorem binary32.roundToGrid_of_representable (n : ℤ) (j : ℤ) (hn : |n| < 2 ^ 24)
    (hj : -149 ≤ j) :
    binary32.roundToGrid (n * 2 ^ j) = n * 2 ^ j := by
  by_cases h0 : n = 0
  · subst h0
    simpa using binary32.roundToGrid_zero
  have hnq : (0 : ℚ) < |(n : ℚ)| := abs_pos.mpr (by exact_mod_cast h0)
  have hq : |(n : ℚ) * 2 ^ j| = |(n : ℚ)| * 2 ^ j := by
    rw [abs_mul, abs_of_pos (by positivity : (0 : ℚ) < 2 ^ j)]
  have he1 : ((2 : ℕ) : ℚ) ^ Int.log 2 |(n : ℚ)| ≤ |(n : ℚ)| :=
    Int.zpow_log_le_self (by norm_num) hnq
  have he2 : |(n : ℚ)| < ((2 : ℕ) : ℚ) ^ (Int.log 2 |(n : ℚ)| + 1) :=
    Int.lt_zpow_succ_log_self (by norm_num) _
  have he24 : Int.log 2 |(n : ℚ)| < 24 := by
    have hlt : |(n : ℚ)| < ((2 : ℕ) : ℚ) ^ (24 : ℤ) := by
      have h24 : ((|n| : ℤ) : ℚ) < ((2 ^ 24 : ℤ) : ℚ) := Int.cast_lt.mpr hn
      rw [Int.cast_abs] at h24
      refine lt_of_lt_of_le h24 (le_of_eq ?_)
      norm_num
    have := (Int.lt_zpow_iff_log_lt (b := 2) (by norm_num) hnq).mp hlt
    omega
  generalize Int.log 2 |(n : ℚ)| = e at he1 he2 he24
  simp only [Nat.cast_ofNat] at he1 he2
  have hb1 : (2 : ℚ) ^ (e + j) ≤ |(n : ℚ) * 2 ^ j| := by
    rw [hq, zpow_add₀ (by norm_num : (2 : ℚ) ≠ 0)]
    exact mul_le_mul_of_nonneg_right he1 (by positivity)
  have hb2 : |(n : ℚ) * 2 ^ j| < (2 : ℚ) ^ (e + j + 1) := by
    rw [hq, show e + j + 1 = (e + 1) + j by ring, zpow_add₀ (by norm_num : (2 : ℚ) ≠ 0)]
    exact mul_lt_mul_of_pos_right he2 (by positivity)
  unfold binary32.roundToGrid
  rw [binary32.quantum_of_binade _ (e + j) hb1 hb2]
  have hd : j - (max (e + j) (-126) - 23) ≥ 0 := by
    rcases le_total (e + j) (-126) with hm | hm
    · rw [max_eq_right hm]; omega
    · rw [max_eq_left hm]; omega
  obtain ⟨d, hd'⟩ := Int.eq_ofNat_of_zero_le hd
  have hj' : j = (max (e + j) (-126) - 23) + d := by omega
  have hquot : (n : ℚ) * 2 ^ j / 2 ^ (max (e + j) (-126) - 23) = ((n * 2 ^ d : ℤ) : ℚ) := by
    rw [mul_div_assoc, ← zpow_sub₀ (by norm_num : (2 : ℚ) ≠ 0), hd']
    push_cast
    rw [zpow_natCast]
  rw [hquot, binary32.roundHalfEven_intCast]
  push_cast
  rw [mul_assoc, ← zpow_natCast, ← zpow_add₀ (by norm_num : (2 : ℚ) ≠ 0), add_comm, ← hj']

theorem binary32.roundToGrid_intCast (n : ℤ) (hn : |n| < 2 ^ 24) :
    binary32.roundToGrid (n : ℚ) = n := by
  have := binary32.roundToGrid_of_representable n 0 hn (by norm_num)
  simpa using this

theorem binary32.roundToGrid_nonneg (q : ℚ) (h : 0 ≤ q) : 0 ≤ binary32.roundToGrid q := by
  unfold binary32.roundToGrid
  have h0 := binary32.roundHalfEven_mono 0 (q / binary32.quantum q)
    (div_nonneg h (binary32.quantum_pos q).le)
  have hz := binary32.roundHalfEven_intCast 0
  simp only [Int.cast_zero] at hz
  rw [hz] at h0
  exact mul_nonneg (by exact_mod_cast h0) (binary32.quantum_pos q).le

theorem binary32.roundToGrid_mono_of_pos (x y : ℚ) (hx : 0 < x) (h : x ≤ y) :
    binary32.roundToGrid x ≤ binary32.roundToGrid y := by
  have hy : 0 < y := lt_of_lt_of_le hx h
  have hab : Int.log 2 x ≤ Int.log 2 y := Int.log_mono_right hx h
  have hx1 : x < ((2 : ℕ) : ℚ) ^ (Int.log 2 x + 1) := Int.lt_zpow_succ_log_self (by norm_num) _
  have hy1 : ((2 : ℕ) : ℚ) ^ Int.log 2 y ≤ y := Int.zpow_log_le_self (by norm_num) hy
  simp only [Nat.cast_ofNat] at hx1 hy1
  unfold binary32.roundToGrid binary32.quantum
  rw [abs_of_pos hx, abs_of_pos hy]
  generalize Int.log 2 x = a at hab hx1
  generalize Int.log 2 y = b at hab hy1
  have h2 : (2 : ℚ) ≠ 0 := by norm_num
  have h12 : (1 : ℚ) ≤ 2 := by norm_num
  rcases (max_le_max_right (-126) hab).lt_or_eq with hlt | heq
  · have hb : max b (-126) = b := by
      rcases le_total b (-126) with hm | hm
      · rw [max_eq_right hm] at hlt
        exact absurd hlt (not_lt.mpr (le_max_right _ _))
      · exact max_eq_left hm
    have hxq : x / 2 ^ (max a (-126) - 23) ≤ (((2 : ℤ) ^ 24 : ℤ) : ℚ) := by
      rw [div_le_iff₀ (by positivity)]
      have e : (((2 : ℤ) ^ 24 : ℤ) : ℚ) * 2 ^ (max a (-126) - 23) = 2 ^ (max a (-126) + 1) := by
        have : (((2 : ℤ) ^ 24 : ℤ) : ℚ) = (2 : ℚ) ^ (24 : ℤ) := by norm_num
        rw [this, ← zpow_add₀ h2]
        congr 1
        ring
      rw [e]
      exact hx1.le.trans (zpow_le_zpow_right₀ h12 (by have := le_max_left a (-126); omega))
    have hyq : (((2 : ℤ) ^ 23 : ℤ) : ℚ) ≤ y / 2 ^ (max b (-126) - 23) := by
      rw [le_div_iff₀ (by positivity)]
      have e : (((2 : ℤ) ^ 23 : ℤ) : ℚ) * 2 ^ (max b (-126) - 23) = 2 ^ b := by
        have : (((2 : ℤ) ^ 23 : ℤ) : ℚ) = (2 : ℚ) ^ (23 : ℤ) := by norm_num
        rw [this, ← zpow_add₀ h2, hb]
        congr 1
        ring
      rw [e]
      exact hy1
    have r1 := binary32.roundHalfEven_mono _ _ hxq
    have r2 := binary32.roundHalfEven_mono _ _ hyq
    rw [binary32.roundHalfEven_intCast] at r1 r2
    have r1' : (binary32.roundHalfEven (x / 2 ^ (max a (-126) - 23)) : ℚ) ≤ (2 : ℚ) ^ (24 : ℤ) := by
      have : ((binary32.roundHalfEven (x / 2 ^ (max a (-126) - 23)) : ℤ) : ℚ) ≤
          (((2 : ℤ) ^ 24 : ℤ) : ℚ) := Int.cast_le.mpr r1
      refine this.trans (le_of_eq ?_)
      norm_num
    have r2' : (2 : ℚ) ^ (23 : ℤ) ≤ (binary32.roundHalfEven (y / 2 ^ (max b (-126) - 23)) : ℚ) := by
      have : (((2 : ℤ) ^ 23 : ℤ) : ℚ) ≤
          ((binary32.roundHalfEven (y / 2 ^ (max b (-126) - 23)) : ℤ) : ℚ) := Int.cast_le.mpr r2
      refine (le_of_eq ?_).trans this
      norm_num
    calc (binary32.roundHalfEven (x / 2 ^ (max a (-126) - 23)) : ℚ) * 2 ^ (max a (-126) - 23)
        ≤ (2 : ℚ) ^ (24 : ℤ) * 2 ^ (max a (-126) - 23) :=
          mul_le_mul_of_nonneg_right r1' (by positivity)
      _ = 2 ^ (max a (-126) + 1) := by rw [← zpow_add₀ h2]; congr 1; ring
      _ ≤ 2 ^ max b (-126) := zpow_le_zpow_right₀ h12 (by omega)
      _ = (2 : ℚ) ^ (23 : ℤ) * 2 ^ (max b (-126) - 23) := by rw [← zpow_add₀ h2]; congr 1; ring
      _ ≤ (binary32.roundHalfEven (y / 2 ^ (max b (-126) - 23)) : ℚ) * 2 ^ (max b (-126) - 23) :=
          mul_le_mul_of_nonneg_right r2' (by positivity)
  · rw [heq]
    have hq : x / 2 ^ (max b (-126) - 23) ≤ y / 2 ^ (max b (-126) - 23) :=
      div_le_div_of_nonneg_right h (by positivity)
    exact mul_le_mul_of_nonneg_right
      (Int.cast_le.mpr (binary32.roundHalfEven_mono _ _ hq)) (by positivity)

/-- Rounding to the nearest binary32 number is monotone. -/
theorem binary32.roundToGrid_mono (x y : ℚ) (h : x ≤ y) :
    binary32.roundToGrid x ≤ binary32.roundToGrid y := by
  rcases lt_or_le 0 x with hx | hx
  · exact binary32.roundToGrid_mono_of_pos x y hx h
  · rcases le_or_lt 0 y with hy | hy
    · have h1 := binary32.roundToGrid_nonneg (-x) (by linarith)
      rw [binary32.roundToGrid_neg] at h1
      have h2 := binary32.roundToGrid_nonneg y hy
      linarith
    · have := binary32.roundToGrid_mono_of_pos (-y) (-x) (by linarith) (by linarith)
      rw [binary32.roundToGrid_neg, binary32.roundToGrid_neg] at this
      linarith

theorem binary32.roundToGrid_one : binary32.roundToGrid 1 = 1 := by
  have := binary32.roundToGrid_intCast 1 (by norm_num)
  simpa using this

theorem binary32.roundToGrid_neg_one : binary32.roundToGrid (-1) = -1 := by
  rw [binary32.roundToGrid_neg, binary32.roundToGrid_one]

/-! ## Lemmas on the cell evaluator in binary32 arithmetic -/

theorem binary32.segmentLoop_unrolled (gep : Int → Option (binary32.Point × binary32.LerpCall))
    (a b c d : Int) (st : List binary32.LineSegment × List binary32.LerpCall) :
    binary32.segmentLoop gep [a, b, c, d] 0 st =
      if a ≠ -1 then
        (gep a).bind fun pa => (gep b).bind fun pb =>
          if c ≠ -1 then
            (gep c).bind fun pc => (gep d).bind fun pd =>
              some (st.1 ++ [⟨pa.1, pb.1⟩, ⟨pc.1, pd.1⟩], st.2 ++ [pa.2, pb.2, pc.2, pd.2])
          else some (st.1 ++ [⟨pa.1, pb.1⟩], st.2 ++ [pa.2, pb.2])
      else some st := by
  have h4 : ∀ s, binary32.segmentLoop gep [a, b, c, d] 4 s = some s := by
    intro s; rw [binary32.segmentLoop]; simp
  have h2 : ∀ s, binary32.segmentLoop gep [a, b, c, d] 2 s =
      if c ≠ -1 then
        (gep c).bind fun pc => (gep d).bind fun pd =>
          some (s.1 ++ [⟨pc.1, pd.1⟩], s.2 ++ [pc.2, pd.2])
      else some s := by
    intro s; rw [binary32.segmentLoop]
    simp only [h4]
    by_cases hc : c = -1 <;> simp [hc]
  rw [binary32.segmentLoop]
  simp only [h2]
  by_cases ha : a = -1 <;> simp [ha]

theorem binary32.getEdgePoint_top (corners : Fin 4 → binary32.Point)
    (values : Fin 4 → binary32.F32) (iso : binary32.F32) :
    binary32.getEdgePoint [[0, 1], [1, 2], [2, 3], [3, 0]] corners values iso 0 =
      some (binary32.lerp (corners 0) (corners 1) (values 0) (values 1) iso,
        ⟨0, corners 0, corners 1, values 0, values 1, iso⟩) := by
  rfl

theorem binary32.getEdgePoint_right (corners : Fin 4 → binary32.Point)
    (values : Fin 4 → binary32.F32) (iso : binary32.F32) :
    binary32.getEdgePoint [[0, 1], [1, 2], [2, 3], [3, 0]] corners values iso 1 =
      some (binary32.lerp (corners 1) (corners 2) (values 1) (values 2) iso,
        ⟨1, corners 1, corners 2, values 1, values 2, iso⟩) := by
  rfl

theorem binary32.getEdgePoint_bottom (corners : Fin 4 → binary32.Point)
    (values : Fin 4 → binary32.F32) (iso : binary32.F32) :
    binary32.getEdgePoint [[0, 1], [1, 2], [2, 3], [3, 0]] corners values iso 2 =
      some (binary32.lerp (corners 2) (corners 3) (values 2) (values 3) iso,
        ⟨2, corners 2, corners 3, values 2, values 3, iso⟩) := by
  rfl

theorem binary32.getEdgePoint_left (corners : Fin 4 → binary32.Point)
    (values : Fin 4 → binary32.F32) (iso : binary32.F32) :
    binary32.getEdgePoint [[0, 1], [1, 2], [2, 3], [3, 0]] corners values iso 3 =
      some (binary32.lerp (corners 3) (corners 0) (values 3) (values 0) iso,
        ⟨3, corners 3, corners 0, values 3, values 0, iso⟩) := by
  rfl

theorem binary32.caseIdx_as_sum (values : Fin 4 → binary32.F32) (iso : binary32.F32) :
    binary32.caseIdx values iso =
      (if binary32.ge (values 0) iso then 1 else 0) +
      (if binary32.ge (values 1) iso then 2 else 0) +
      (if binary32.ge (values 2) iso then 4 else 0) +
      (if binary32.ge (values 3) iso then 8 else 0) := by
  unfold binary32.caseIdx
  cases binary32.ge (values 0) iso <;> cases binary32.ge (values 1) iso <;>
    cases binary32.ge (values 2) iso <;> cases binary32.ge (values 3) iso <;> rfl

theorem binary32.caseIdx_lt_sixteen (values : Fin 4 → binary32.F32) (iso : binary32.F32) :
    binary32.caseIdx values iso < 16 := by
  rw [binary32.caseIdx_as_sum]
  split_ifs <;> omega

/-- On finite values the comparisons of binary32 are the exact ones, so the case
index is that of the exact embedding. -/
theorem binary32.caseIdx_ofValues (values : Fin 4 → ℚ) (iso : ℚ) :
    binary32.caseIdx (binary32.ofValues values) (.finite iso) =
      checkpoint_5.caseIdx values iso := by
  rw [binary32.caseIdx_as_sum, checkpoint_5.caseIdx_eq_sum]
  simp only [binary32.ofValues, binary32.ge, decide_eq_true_eq]

/-- The `marchSquare` of the binary32 embedding appends one segment per pair of
the table row, each endpoint the `lerp` call on that edge. -/
theorem binary32.marchSquareTraced_unfold (cx cy : binary32.F32) (values : Fin 4 → binary32.F32)
    (iso : binary32.F32) (out : List binary32.LineSegment) :
    binary32.marchSquareTraced cx cy values iso out =
      some (out ++ binary32.specSegments (binary32.cellCorners cx cy) values iso
          (binary32.caseIdx values iso),
        binary32.specLerpCalls (binary32.cellCorners cx cy) values iso
          (binary32.caseIdx values iso)) := by
  obtain ⟨c, hc⟩ : ∃ c, binary32.caseIdx values iso = c := ⟨_, rfl⟩
  have hlt := binary32.caseIdx_lt_sixteen values iso
  simp only [binary32.marchSquareTraced, hc]
  rw [hc] at hlt
  interval_cases c <;>
    simp [checkpoint_5.edgePairs, checkpoint_5.edgeCorners, binary32.segmentLoop_unrolled,
      binary32.getEdgePoint_top, binary32.getEdgePoint_right, binary32.getEdgePoint_bottom,
      binary32.getEdgePoint_left, binary32.specSegments, binary32.specLerpCalls, specEdgePairs,
      binary32.specEdgePoint, binary32.specLerpCall, specEdgeCorners,
      show ((3 : Fin 4) : Nat) = 3 from rfl]

theorem binary32.marchSquare_unfold (cx cy : binary32.F32) (values : Fin 4 → binary32.F32)
    (iso : binary32.F32) (out : List binary32.LineSegment) :
    binary32.marchSquare cx cy values iso out =
      some (out ++ binary32.specSegments (binary32.cellCorners cx cy) values iso
          (binary32.caseIdx values iso)) := by
  simp [binary32.marchSquare, binary32.marchSquareTraced_unfold]

theorem binary32.roundNearestEven_of_lt (q : ℚ) (h : |q| < binary32.overflowThreshold) :
    binary32.roundNearestEven q = .finite (binary32.roundToGrid q) := by
  unfold binary32.roundNearestEven
  rw [if_neg (not_le.mpr h)]

theorem binary32.roundNearestEven_of_le (q : ℚ) (h : binary32.overflowThreshold ≤ |q|) :
    binary32.roundNearestEven q = .infinite (decide (q < 0)) := by
  unfold binary32.roundNearestEven
  rw [if_pos h]

theorem binary32.one_lt_overflowThreshold : (16777217 : ℚ) < binary32.overflowThreshold := by
  norm_num [binary32.overflowThreshold]

/-- The quotient `t` that `lerp` computes on a crossed edge, when the difference
`iso - v1` does not overflow and the guard did not fire: a finite number in
`[0, 1]`. -/
theorem binary32_quotient_of_crossed (v1 v2 iso : ℚ) (h : Crossed v1 v2 iso)
    (hov : |iso - v1| < binary32.overflowThreshold)
    (hg : binary32.lt (binary32.fabs (binary32.sub (.finite v2) (.finite v1))) binary32.EPS =
      false) :
    ∃ t : ℚ, 0 ≤ t ∧ t ≤ 1 ∧
      binary32.div (binary32.sub (.finite iso) (.finite v1))
        (binary32.sub (.finite v2) (.finite v1)) = .finite t := by
  have hnum : binary32.sub (.finite iso) (.finite v1) =
      .finite (binary32.roundToGrid (iso - v1)) := binary32.roundNearestEven_of_lt _ hov
  rw [hnum]
  have hden : binary32.sub (.finite v2) (.finite v1) = binary32.roundNearestEven (v2 - v1) := rfl
  rw [hden] at hg ⊢
  rcases le_or_lt binary32.overflowThreshold |v2 - v1| with hbig | hsmall
  · rw [binary32.roundNearestEven_of_le _ hbig]
    exact ⟨0, le_refl _, zero_le_one, rfl⟩
  · rw [binary32.roundNearestEven_of_lt _ hsmall] at hg ⊢
    have hd : ¬ |binary32.roundToGrid (v2 - v1)| < 8796093 / 8796093022208 := by
      simpa [binary32.lt, binary32.fabs, binary32.EPS] using hg
    have hd0 : binary32.roundToGrid (v2 - v1) ≠ 0 := by
      intro h0
      rw [h0] at hd
      norm_num at hd
    have hquot : 0 ≤ binary32.roundToGrid (iso - v1) / binary32.roundToGrid (v2 - v1) ∧
        binary32.roundToGrid (iso - v1) / binary32.roundToGrid (v2 - v1) ≤ 1 := by
      rcases h with ⟨h1, h2⟩ | ⟨h1, h2⟩
      · have h2 := not_le.mp h2
        have hn : binary32.roundToGrid (iso - v1) ≤ 0 := by
          have := binary32.roundToGrid_mono (iso - v1) 0 (by linarith)
          rwa [binary32.roundToGrid_zero] at this
        have hdn : binary32.roundToGrid (v2 - v1) ≤ binary32.roundToGrid (iso - v1) :=
          binary32.roundToGrid_mono _ _ (by linarith)
        have hneg : binary32.roundToGrid (v2 - v1) < 0 :=
          lt_of_le_of_ne (hdn.trans hn) hd0
        exact ⟨div_nonneg_of_nonpos hn hneg.le, by rw [div_le_one_of_neg hneg]; exact hdn⟩
      · have h1 := not_le.mp h1
        have hn : 0 ≤ binary32.roundToGrid (iso - v1) :=
          binary32.roundToGrid_nonneg _ (by linarith)
        have hdn : binary32.roundToGrid (iso - v1) ≤ binary32.roundToGrid (v2 - v1) :=
          binary32.roundToGrid_mono _ _ (by linarith)
        have hpos : 0 < binary32.roundToGrid (v2 - v1) :=
          lt_of_le_of_ne (hn.trans hdn) (Ne.symm hd0)
        exact ⟨div_nonneg hn hpos.le, by rw [div_le_one hpos]; exact hdn⟩
    have hlt : |binary32.roundToGrid (iso - v1) / binary32.roundToGrid (v2 - v1)| <
        binary32.overflowThreshold := by
      rw [abs_of_nonneg hquot.1]
      exact lt_of_le_of_lt hquot.2 (by norm_num [binary32.overflowThreshold])
    refine ⟨binary32.roundToGrid
      (binary32.roundToGrid (iso - v1) / binary32.roundToGrid (v2 - v1)), ?_, ?_, ?_⟩
    · exact binary32.roundToGrid_nonneg _ hquot.1
    · have := binary32.roundToGrid_mono _ 1 hquot.2
      rwa [binary32.roundToGrid_one] at this
    · show (if binary32.roundToGrid (v2 - v1) = 0 then _ else _) = _
      rw [if_neg hd0, binary32.roundNearestEven_of_lt _ hlt]

/-- A finite binary32 number is below the overflow threshold and on the grid. -/
theorem binary32.representable_iff (q : ℚ) :
    binary32.Representable q ↔
      |q| < binary32.overflowThreshold ∧ binary32.roundToGrid q = q := by
  unfold binary32.Representable binary32.roundNearestEven
  by_cases h : binary32.overflowThreshold ≤ |q|
  · rw [if_pos h]
    constructor
    · intro hc; exact absurd hc (by simp)
    · intro hc; exact absurd hc.1 (not_lt.mpr h)
  · rw [if_neg h]
    constructor
    · intro hc
      exact ⟨not_le.mp h, by simpa using hc⟩
    · intro hc
      rw [hc.2]

/-- The natural numbers up to `2^24` are binary32 numbers. -/
theorem binary32.representable_natCast (n : ℕ) (h : n ≤ 2 ^ 24) :
    binary32.Representable (n : ℚ) := by
  rw [binary32.representable_iff]
  have hthr := binary32.one_lt_overflowThreshold
  have hq : (n : ℚ) ≤ 16777216 := by exact_mod_cast h
  refine ⟨by rw [abs_of_nonneg (by positivity)]; linarith, ?_⟩
  rcases Nat.lt_or_ge n (2 ^ 24) with hlt | hge
  · have := binary32.roundToGrid_intCast (n : ℤ) (by
      rw [abs_of_nonneg (by positivity)]; exact_mod_cast hlt)
    simpa using this
  · have hn : n = 2 ^ 24 := le_antisymm h hge
    have := binary32.roundToGrid_of_representable 1 24 (by norm_num) (by norm_num)
    rw [hn]
    norm_num at this ⊢
    exact this

/-- One coordinate of the point `lerp` returns: between two binary32 coordinates
`a1`, `a2` that are equal or differ by 1, the value `a1 + t * (a2 - a1)` computed
in binary32 for `t` in `[0, 1]` is a finite number between `a1` and `a2`. -/
theorem binary32.coordinate_between (a1 a2 : ℚ) (h1 : binary32.Representable a1)
    (h2 : binary32.Representable a2) (hd : a2 - a1 = 1 ∨ a2 - a1 = 0 ∨ a2 - a1 = -1)
    (t : ℚ) (ht0 : 0 ≤ t) (ht1 : t ≤ 1) :
    ∃ x : ℚ, binary32.add (.finite a1)
        (binary32.mul (.finite t) (binary32.sub (.finite a2) (.finite a1))) = .finite x ∧
      min a1 a2 ≤ x ∧ x ≤ max a1 a2 := by
  have hthr := binary32.one_lt_overflowThreshold
  obtain ⟨h1q, hgrid1⟩ := (binary32.representable_iff a1).mp h1
  obtain ⟨h2q, hgrid2⟩ := (binary32.representable_iff a2).mp h2
  have hdq : |a2 - a1| ≤ 1 := by
    rcases hd with hd | hd | hd <;> rw [hd] <;> norm_num
  have hgridd : binary32.roundToGrid (a2 - a1) = a2 - a1 := by
    rcases hd with hd | hd | hd <;> rw [hd]
    · exact binary32.roundToGrid_one
    · exact binary32.roundToGrid_zero
    · exact binary32.roundToGrid_neg_one
  have hsub : binary32.sub (.finite a2) (.finite a1) = .finite (a2 - a1) := by
    show binary32.roundNearestEven (a2 - a1) = _
    rw [binary32.roundNearestEven_of_lt _ (by linarith), hgridd]
  rw [hsub]
  have hprod : |t * (a2 - a1)| ≤ 1 := by
    rw [abs_mul, abs_of_nonneg ht0]
    calc t * |a2 - a1| ≤ 1 * 1 := mul_le_mul ht1 hdq (abs_nonneg _) zero_le_one
      _ = 1 := one_mul 1
  have hmul : binary32.mul (.finite t) (.finite (a2 - a1)) =
      .finite (binary32.roundToGrid (t * (a2 - a1))) :=
    binary32.roundNearestEven_of_lt _ (by linarith)
  rw [hmul]
  -- the rounded product lies between 0 and a2 - a1
  have hs : (min 0 (a2 - a1) ≤ binary32.roundToGrid (t * (a2 - a1))) ∧
      binary32.roundToGrid (t * (a2 - a1)) ≤ max 0 (a2 - a1) := by
    rcases le_total 0 (a2 - a1) with hpos | hneg
    · rw [min_eq_left hpos, max_eq_right hpos]
      constructor
      · exact binary32.roundToGrid_nonneg _ (mul_nonneg ht0 hpos)
      · have := binary32.roundToGrid_mono (t * (a2 - a1)) (a2 - a1) (by nlinarith)
        rwa [hgridd] at this
    · rw [min_eq_right hneg, max_eq_left hneg]
      constructor
      · have := binary32.roundToGrid_mono (a2 - a1) (t * (a2 - a1)) (by nlinarith)
        rwa [hgridd] at this
      · have := binary32.roundToGrid_mono (t * (a2 - a1)) 0
          (mul_nonpos_of_nonneg_of_nonpos ht0 hneg)
        rwa [binary32.roundToGrid_zero] at this
  generalize binary32.roundToGrid (t * (a2 - a1)) = s at hs
  have hsum1 : min a1 a2 ≤ a1 + s := by
    rcases le_total a1 a2 with hle | hle
    · rw [min_eq_left hle]
      have := hs.1
      rw [min_eq_left (by linarith)] at this
      linarith
    · rw [min_eq_right hle]
      have := hs.1
      rw [min_eq_right (by linarith)] at this
      linarith
  have hsum2 : a1 + s ≤ max a1 a2 := by
    rcases le_total a1 a2 with hle | hle
    · rw [max_eq_right hle]
      have := hs.2
      rw [max_eq_right (by linarith)] at this
      linarith
    · rw [max_eq_left hle]
      have := hs.2
      rw [max_eq_left (by linarith)] at this
      linarith
  have hmin : -binary32.overflowThreshold < min a1 a2 := by
    rw [abs_lt] at h1q h2q
    exact lt_min h1q.1 h2q.1
  have hmax : max a1 a2 < binary32.overflowThreshold := by
    rw [abs_lt] at h1q h2q
    exact max_lt h1q.2 h2q.2
  have hfin : |a1 + s| < binary32.overflowThreshold := by
    rw [abs_lt]
    constructor <;> linarith
  refine ⟨binary32.roundToGrid (a1 + s), binary32.roundNearestEven_of_lt _ hfin, ?_, ?_⟩
  · rcases le_total a1 a2 with hle | hle
    · rw [min_eq_left hle] at hsum1 ⊢
      have := binary32.roundToGrid_mono _ _ hsum1
      rwa [hgrid1] at this
    · rw [min_eq_right hle] at hsum1 ⊢
      have := binary32.roundToGrid_mono _ _ hsum1
      rwa [hgrid2] at this
  · rcases le_total a1 a2 with hle | hle
    · rw [max_eq_right hle] at hsum2 ⊢
      have := binary32.roundToGrid_mono _ _ hsum2
      rwa [hgrid2] at this
    · rw [max_eq_left hle] at hsum2 ⊢
      have := binary32.roundToGrid_mono _ _ hsum2
      rwa [hgrid1] at this

/-- On a crossed edge between two corners with binary32 coordinates that are
equal or differ by 1, when `iso - v1` does not overflow, the point `lerp`
returns in binary32 arithmetic has finite coordinates between those of the two
corners, and the quotient of a division it executes is in `[0, 1]`. -/
theorem binary32_lerp_of_crossed (a1 b1 a2 b2 : ℚ) (ha1 : binary32.Representable a1)
    (hb1 : binary32.Representable b1) (ha2 : binary32.Representable a2)
    (hb2 : binary32.Representable b2) (hda : a2 - a1 = 1 ∨ a2 - a1 = 0 ∨ a2 - a1 = -1)
    (hdb : b2 - b1 = 1 ∨ b2 - b1 = 0 ∨ b2 - b1 = -1)
    (v1 v2 iso : ℚ) (h : Crossed v1 v2 iso) (hov : |iso - v1| < binary32.overflowThreshold) :
    (∃ x y : ℚ,
      binary32.lerp ⟨.finite a1, .finite b1⟩ ⟨.finite a2, .finite b2⟩
        (.finite v1) (.finite v2) (.finite iso) = ⟨.finite x, .finite y⟩ ∧
      min a1 a2 ≤ x ∧ x ≤ max a1 a2 ∧ min b1 b2 ≤ y ∧ y ≤ max b1 b2) ∧
    ∀ nd ∈ (binary32.lerpTraced ⟨.finite a1, .finite b1⟩ ⟨.finite a2, .finite b2⟩
        (.finite v1) (.finite v2) (.finite iso)).2,
      binary32.InUnitInterval (binary32.div nd.1 nd.2) := by
  cases hg : binary32.lt (binary32.fabs (binary32.sub (.finite v2) (.finite v1))) binary32.EPS
  · obtain ⟨t, ht0, ht1, ht⟩ := binary32_quotient_of_crossed v1 v2 iso h hov hg
    obtain ⟨x, hx, hx1, hx2⟩ := binary32.coordinate_between a1 a2 ha1 ha2 hda t ht0 ht1
    obtain ⟨y, hy, hy1, hy2⟩ := binary32.coordinate_between b1 b2 hb1 hb2 hdb t ht0 ht1
    refine ⟨⟨x, y, ?_, hx1, hx2, hy1, hy2⟩, ?_⟩
    · simp only [binary32.lerp, binary32.lerpTraced, hg, Bool.false_eq_true, if_false, ht, hx, hy]
    · simp only [binary32.lerpTraced, hg, Bool.false_eq_true, if_false, List.mem_singleton]
      rintro nd rfl
      rw [ht]
      exact ⟨by simpa [binary32.ge] using ht0, by simpa [binary32.ge] using ht1⟩
  · refine ⟨⟨a1, b1, ?_, min_le_left _ _, le_max_left _ _, min_le_left _ _, le_max_left _ _⟩, ?_⟩
    · simp only [binary32.lerp, binary32.lerpTraced, hg, if_true]
    · simp only [binary32.lerpTraced, hg, if_true, List.not_mem_nil, false_implies, implies_true]

/-- The corners of a cell whose corner coordinates `cx + 1` and `cy + 1` are
computed exactly. -/
theorem binary32.cellCorners_exact (cx cy : ℚ) (hx : binary32.Representable (cx + 1))
    (hy : binary32.Representable (cy + 1)) :
    binary32.cellCorners (.finite cx) (.finite cy) =
      ![⟨.finite cx, .finite cy⟩, ⟨.finite (cx + 1), .finite cy⟩,
        ⟨.finite (cx + 1), .finite (cy + 1)⟩, ⟨.finite cx, .finite (cy + 1)⟩] := by
  have kx : binary32.add (.finite cx) (.finite 1) = .finite (cx + 1) := hx
  have ky : binary32.add (.finite cy) (.finite 1) = .finite (cy + 1) := hy
  unfold binary32.cellCorners
  rw [kx, ky]

/-- In binary32 arithmetic, for a cell with binary32 origin coordinates whose
corner coordinates `cx + 1`, `cy + 1` are computed exactly and an isolevel whose
difference to the first corner value of the edge does not overflow, the crossing
point on a crossed edge lies on that closed edge. -/
theorem binary32_liesOnEdge_of_crossed (cx cy : ℚ) (hx : binary32.Representable cx)
    (hy : binary32.Representable cy) (hx1 : binary32.Representable (cx + 1))
    (hy1 : binary32.Representable (cy + 1))
    (values : Fin 4 → ℚ) (iso : ℚ) (e : Fin 4)
    (h : Crossed (values (specEdgeCorners e).1) (values (specEdgeCorners e).2) iso)
    (hov : |iso - values (specEdgeCorners e).1| < binary32.overflowThreshold) :
    binary32.LiesOnEdge cx cy (e.val : Int)
        (binary32.specEdgePoint (binary32.cellCorners (.finite cx) (.finite cy))
          (binary32.ofValues values) (.finite iso) e) ∧
    ∀ nd ∈ (binary32.lerpTraced
        (binary32.cellCorners (.finite cx) (.finite cy) (specEdgeCorners e).1)
        (binary32.cellCorners (.finite cx) (.finite cy) (specEdgeCorners e).2)
        (.finite (values (specEdgeCorners e).1)) (.finite (values (specEdgeCorners e).2))
        (.finite iso)).2,
      binary32.InUnitInterval (binary32.div nd.1 nd.2) := by
  rw [binary32.specEdgePoint, binary32.cellCorners_exact cx cy hx1 hy1]
  fin_cases e
  · obtain ⟨⟨x, y, hp, h1, h2, h3, h4⟩, hdiv⟩ := binary32_lerp_of_crossed cx cy (cx + 1) cy
      hx hy hx1 hy (by simp) (by simp) _ _ iso h hov
    refine ⟨?_, hdiv⟩
    simp only [specEdgeCorners, binary32.ofValues] at hp ⊢
    erw [hp]
    simp only [min_self, max_self, min_eq_left (le_add_of_nonneg_right zero_le_one),
      max_eq_right (le_add_of_nonneg_right zero_le_one)] at h1 h2 h3 h4
    exact Or.inl ⟨rfl, le_antisymm h4 h3, h1, h2⟩
  · obtain ⟨⟨x, y, hp, h1, h2, h3, h4⟩, hdiv⟩ := binary32_lerp_of_crossed (cx + 1) cy (cx + 1)
      (cy + 1) hx1 hy hx1 hy1 (by simp) (by simp) _ _ iso h hov
    refine ⟨?_, hdiv⟩
    simp only [specEdgeCorners, binary32.ofValues] at hp ⊢
    erw [hp]
    simp only [min_self, max_self, min_eq_left (le_add_of_nonneg_right zero_le_one),
      max_eq_right (le_add_of_nonneg_right zero_le_one)] at h1 h2 h3 h4
    exact Or.inr (Or.inl ⟨rfl, le_antisymm h2 h1, h3, h4⟩)
  · obtain ⟨⟨x, y, hp, h1, h2, h3, h4⟩, hdiv⟩ := binary32_lerp_of_crossed (cx + 1) (cy + 1) cx
      (cy + 1) hx1 hy1 hx hy1 (by simp) (by simp) _ _ iso h hov
    refine ⟨?_, hdiv⟩
    simp only [specEdgeCorners, binary32.ofValues] at hp ⊢
    erw [hp]
    simp only [min_self, max_self, min_eq_right (le_add_of_nonneg_right zero_le_one),
      max_eq_left (le_add_of_nonneg_right zero_le_one)] at h1 h2 h3 h4
    exact Or.inr (Or.inr (Or.inl ⟨rfl, le_antisymm h4 h3, h1, h2⟩))
  · obtain ⟨⟨x, y, hp, h1, h2, h3, h4⟩, hdiv⟩ := binary32_lerp_of_crossed cx (cy + 1) cx cy
      hx hy1 hx hy (by simp) (by simp) _ _ iso h hov
    refine ⟨?_, hdiv⟩
    simp only [specEdgeCorners, binary32.ofValues] at hp ⊢
    erw [hp]
    simp only [min_self, max_self, min_eq_right (le_add_of_nonneg_right zero_le_one),
      max_eq_left (le_add_of_nonneg_right zero_le_one)] at h1 h2 h3 h4
    exact Or.inr (Or.inr (Or.inr ⟨rfl, le_antisymm h2 h1, h3, h4⟩))

/-! ## Evaluation of binary32 operations and of runs of the cell evaluator -/

/-- A number `n * 2^j` with `|n| < 2^24` and `-149 <= j <= 104` is a finite
binary32 number: an operation with that exact result returns it. -/
theorem binary32.roundNearestEven_of_representable (n : ℤ) (j : ℤ) (hn : |n| < 2 ^ 24)
    (hj : -149 ≤ j) (hj2 : j ≤ 104) :
    binary32.roundNearestEven (n * 2 ^ j) = .finite (n * 2 ^ j) := by
  have hnq : |(n : ℚ)| ≤ 2 ^ 24 - 1 := by
    have hn' : |n| ≤ 2 ^ 24 - 1 := by omega
    have : ((|n| : ℤ) : ℚ) ≤ ((2 ^ 24 - 1 : ℤ) : ℚ) := Int.cast_le.mpr hn'
    rw [Int.cast_abs] at this
    refine this.trans (le_of_eq ?_)
    norm_num
  have hpow : (2 : ℚ) ^ j ≤ 2 ^ (104 : ℤ) := zpow_le_zpow_right₀ (by norm_num) hj2
  have hlt : |(n : ℚ) * 2 ^ j| < binary32.overflowThreshold := by
    rw [abs_mul, abs_of_pos (by positivity : (0 : ℚ) < 2 ^ j)]
    calc |(n : ℚ)| * 2 ^ j ≤ (2 ^ 24 - 1) * 2 ^ (104 : ℤ) :=
          mul_le_mul hnq hpow (by positivity) (by norm_num)
      _ < binary32.overflowThreshold := by norm_num [binary32.overflowThreshold]
  rw [binary32.roundNearestEven_of_lt _ hlt, binary32.roundToGrid_of_representable n j hn hj]

/-- The binary32 number `q = n * 2^j` is returned unchanged. -/
theorem binary32.roundNearestEven_eq_self (q : ℚ) (n : ℤ) (j : ℤ) (hn : |n| < 2 ^ 24)
    (hj : -149 ≤ j) (hj2 : j ≤ 104) (hq : q = n * 2 ^ j) :
    binary32.roundNearestEven q = .finite q := by
  rw [hq]
  exact binary32.roundNearestEven_of_representable n j hn hj hj2

theorem binary32.add_eval (a b c : ℚ) (r : binary32.F32) (h : a + b = c)
    (hr : binary32.roundNearestEven c = r) : binary32.add (.finite a) (.finite b) = r := by
  show binary32.roundNearestEven (a + b) = r
  rw [h, hr]

theorem binary32.sub_eval (a b c : ℚ) (r : binary32.F32) (h : a - b = c)
    (hr : binary32.roundNearestEven c = r) : binary32.sub (.finite a) (.finite b) = r := by
  show binary32.roundNearestEven (a - b) = r
  rw [h, hr]

theorem binary32.mul_eval (a b c : ℚ) (r : binary32.F32) (h : a * b = c)
    (hr : binary32.roundNearestEven c = r) : binary32.mul (.finite a) (.finite b) = r := by
  show binary32.roundNearestEven (a * b) = r
  rw [h, hr]

theorem binary32.div_eval (a b c : ℚ) (r : binary32.F32) (hb : b ≠ 0) (h : a / b = c)
    (hr : binary32.roundNearestEven c = r) : binary32.div (.finite a) (.finite b) = r := by
  show (if b = 0 then _ else binary32.roundNearestEven (a / b)) = r
  rw [if_neg hb, h, hr]

/-- The guard of `lerp` does not fire on a finite denominator of magnitude at
least `EPS`. -/
theorem binary32.guard_eval (d : ℚ) (h : (8796093 / 8796093022208 : ℚ) ≤ |d|) :
    binary32.lt (binary32.fabs (.finite d)) binary32.EPS = false := by
  show decide (|d| < 8796093 / 8796093022208) = false
  rw [decide_eq_false_iff_not, not_lt]
  exact h

/-- Evaluation of a binary32 operation whose exact result `q`, in the binade
`2^k <= |q| < 2^(k+1)`, is within less than half a spacing of the binary32
number `c = n * 2^(max k (-126) - 23)`. -/
theorem binary32.roundNearestEven_near (q c : ℚ) (k n : ℤ)
    (hlt : |q| < binary32.overflowThreshold) (h1 : (2 : ℚ) ^ k ≤ |q|)
    (h2 : |q| < (2 : ℚ) ^ (k + 1)) (hn : |q / 2 ^ (max k (-126) - 23) - n| < 1 / 2)
    (hc : (n : ℚ) * 2 ^ (max k (-126) - 23) = c) :
    binary32.roundNearestEven q = .finite c := by
  rw [binary32.roundNearestEven_of_lt _ hlt, binary32.roundToGrid_of_near q k n h1 h2 hn, hc]

/-- Evaluation of a binary32 operation whose exact result `q` is half way
between two neighbouring binary32 numbers, the lower one `c` with an even
significand `n`. -/
theorem binary32.roundNearestEven_tie_even (q c : ℚ) (k n : ℤ)
    (hlt : |q| < binary32.overflowThreshold) (h1 : (2 : ℚ) ^ k ≤ |q|)
    (h2 : |q| < (2 : ℚ) ^ (k + 1)) (hn : q / 2 ^ (max k (-126) - 23) = n + 1 / 2)
    (heven : n % 2 = 0) (hc : (n : ℚ) * 2 ^ (max k (-126) - 23) = c) :
    binary32.roundNearestEven q = .finite c := by
  rw [binary32.roundNearestEven_of_lt _ hlt, binary32.roundToGrid_of_tie q k n h1 h2 hn,
    if_pos heven, hc]

/-- Evaluation of a binary32 operation whose exact result `q` is half way
between two neighbouring binary32 numbers, the upper one `c` with an even
significand `n + 1`. -/
theorem binary32.roundNearestEven_tie_odd (q c : ℚ) (k n : ℤ)
    (hlt : |q| < binary32.overflowThreshold) (h1 : (2 : ℚ) ^ k ≤ |q|)
    (h2 : |q| < (2 : ℚ) ^ (k + 1)) (hn : q / 2 ^ (max k (-126) - 23) = n + 1 / 2)
    (hodd : ¬ n % 2 = 0) (hc : ((n + 1 : ℤ) : ℚ) * 2 ^ (max k (-126) - 23) = c) :
    binary32.roundNearestEven q = .finite c := by
  rw [binary32.roundNearestEven_of_lt _ hlt, binary32.roundToGrid_of_tie q k n h1 h2 hn,
    if_neg hodd, hc]

/-- The run of `marchSquare` in binary32 arithmetic on the cell with origin
`(16777218, 0)`, corner values `(0, 1/2, 0, 0)` and isolevel `1/2`: the corner
coordinate `cell_x + 1 = 16777219` is rounded to `16777220`, and the one segment
emitted starts and ends there. -/
theorem binary32.large_origin_run :
    binary32.marchSquare (.finite 16777218) (.finite 0)
        (binary32.ofValues ![0, 1 / 2, 0, 0]) (.finite (1 / 2)) [] =
      some [⟨⟨.finite 16777220, .finite 0⟩, ⟨.finite 16777220, .finite 0⟩⟩] := by
  have hc : binary32.caseIdx (binary32.ofValues ![0, 1 / 2, 0, 0]) (.finite (1 / 2)) = 2 := by
    rw [binary32.caseIdx_ofValues]
    norm_num [checkpoint_5.caseIdx]
  have r0 : binary32.roundNearestEven 0 = .finite 0 :=
    binary32.roundNearestEven_eq_self _ 0 0 (by norm_num) (by norm_num) (by norm_num)
      (by norm_num)
  have rhalf : binary32.roundNearestEven (1 / 2) = .finite (1 / 2) :=
    binary32.roundNearestEven_eq_self _ 1 (-1) (by norm_num) (by norm_num) (by norm_num)
      (by norm_num)
  have rneghalf : binary32.roundNearestEven (-(1 / 2)) = .finite (-(1 / 2)) :=
    binary32.roundNearestEven_eq_self _ (-1) (-1) (by norm_num) (by norm_num) (by norm_num)
      (by norm_num)
  have r1 : binary32.roundNearestEven 1 = .finite 1 :=
    binary32.roundNearestEven_eq_self _ 1 0 (by norm_num) (by norm_num) (by norm_num)
      (by norm_num)
  have r2 : binary32.roundNearestEven 2 = .finite 2 :=
    binary32.roundNearestEven_eq_self _ 2 0 (by norm_num) (by norm_num) (by norm_num)
      (by norm_num)
  have rbig : binary32.roundNearestEven 16777220 = .finite 16777220 :=
    binary32.roundNearestEven_eq_self _ 4194305 2 (by norm_num) (by norm_num) (by norm_num)
      (by norm_num)
  have rtie : binary32.roundNearestEven 16777219 = .finite 16777220 :=
    binary32.roundNearestEven_tie_odd _ _ 24 8388609
      (by rw [abs_lt]; norm_num [binary32.overflowThreshold])
      (by rw [le_abs']; norm_num) (by rw [abs_lt]; norm_num) (by norm_num) (by norm_num)
      (by norm_num)
  have cx1 : binary32.add (.finite 16777218) (.finite 1) = .finite 16777220 :=
    binary32.add_eval _ _ _ _ (by norm_num) rtie
  have cy1 : binary32.add (.finite 0) (.finite 1) = .finite 1 :=
    binary32.add_eval _ _ _ _ (by norm_num) r1
  have d0 : binary32.sub (.finite (1 / 2)) (.finite 0) = .finite (1 / 2) :=
    binary32.sub_eval _ _ _ _ (by norm_num) rhalf
  have g0 : binary32.lt (binary32.fabs (.finite (1 / 2))) binary32.EPS = false :=
    binary32.guard_eval _ (by rw [le_abs']; norm_num)
  have t0 : binary32.div (.finite (1 / 2)) (.finite (1 / 2)) = .finite 1 :=
    binary32.div_eval _ _ _ _ (by norm_num) (by norm_num) r1
  have dx0 : binary32.sub (.finite 16777220) (.finite 16777218) = .finite 2 :=
    binary32.sub_eval _ _ _ _ (by norm_num) r2
  have mx0 : binary32.mul (.finite 1) (.finite 2) = .finite 2 :=
    binary32.mul_eval _ _ _ _ (by norm_num) r2
  have ax0 : binary32.add (.finite 16777218) (.finite 2) = .finite 16777220 :=
    binary32.add_eval _ _ _ _ (by norm_num) rbig
  have dy0 : binary32.sub (.finite 0) (.finite 0) = .finite 0 :=
    binary32.sub_eval _ _ _ _ (by norm_num) r0
  have my0 : binary32.mul (.finite 1) (.finite 0) = .finite 0 :=
    binary32.mul_eval _ _ _ _ (by norm_num) r0
  have ay0 : binary32.add (.finite 0) (.finite 0) = .finite 0 :=
    binary32.add_eval _ _ _ _ (by norm_num) r0
  have d1 : binary32.sub (.finite 0) (.finite (1 / 2)) = .finite (-(1 / 2)) :=
    binary32.sub_eval _ _ _ _ (by norm_num) rneghalf
  have g1 : binary32.lt (binary32.fabs (.finite (-(1 / 2)))) binary32.EPS = false :=
    binary32.guard_eval _ (by rw [le_abs']; norm_num)
  have n1 : binary32.sub (.finite (1 / 2)) (.finite (1 / 2)) = .finite 0 :=
    binary32.sub_eval _ _ _ _ (by norm_num) r0
  have t1 : binary32.div (.finite 0) (.finite (-(1 / 2))) = .finite 0 :=
    binary32.div_eval _ _ _ _ (by norm_num) (by norm_num) r0
  have dx1 : binary32.sub (.finite 16777220) (.finite 16777220) = .finite 0 :=
    binary32.sub_eval _ _ _ _ (by norm_num) r0
  have mx1 : binary32.mul (.finite 0) (.finite 0) = .finite 0 :=
    binary32.mul_eval _ _ _ _ (by norm_num) r0
  have ax1 : binary32.add (.finite 16777220) (.finite 0) = .finite 16777220 :=
    binary32.add_eval _ _ _ _ (by norm_num) rbig
  have dy1 : binary32.sub (.finite 1) (.finite 0) = .finite 1 :=
    binary32.sub_eval _ _ _ _ (by norm_num) r1
  have my1 : binary32.mul (.finite 0) (.finite 1) = .finite 0 :=
    binary32.mul_eval _ _ _ _ (by norm_num) r0
  rw [binary32.marchSquare_unfold, hc]
  simp only [binary32.specSegments, specEdgePairs, List.map_cons, List.map_nil,
    binary32.specEdgePoint, specEdgeCorners, binary32.ofValues, List.nil_append,
    binary32.cellCorners, Matrix.cons_val_zero, Matrix.cons_val_one, Matrix.head_cons,
    Matrix.cons_val_two, Matrix.cons_val_three, Matrix.cons_val_succ, Matrix.tail_cons,
    binary32.lerp, binary32.lerpTraced,
    cx1, cy1, d0, g0, t0, dx0, mx0, ax0, dy0, my0, ay0, d1, g1, n1, t1, dx1, mx1, ax1, dy1,
    my1,
    Bool.false_eq_true, if_false]

/-- The run of `marchSquare` in binary32 arithmetic on the cell at the origin
with corner values `(1/2, 0, 0, 0)` and isolevel `1/2`: every operation is exact
and the one segment emitted runs from `(0, 0)` to `(0, 0)`. -/
theorem binary32.corner_on_isolevel_run :
    binary32.marchSquare (.finite 0) (.finite 0)
        (binary32.ofValues ![1 / 2, 0, 0, 0]) (.finite (1 / 2)) [] =
      some [⟨⟨.finite 0, .finite 0⟩, ⟨.finite 0, .finite 0⟩⟩] := by
  have hc : binary32.caseIdx (binary32.ofValues ![1 / 2, 0, 0, 0]) (.finite (1 / 2)) = 1 := by
    rw [binary32.caseIdx_ofValues]
    norm_num [checkpoint_5.caseIdx]
  have r0 : binary32.roundNearestEven 0 = .finite 0 :=
    binary32.roundNearestEven_eq_self _ 0 0 (by norm_num) (by norm_num) (by norm_num)
      (by norm_num)
  have rhalf : binary32.roundNearestEven (1 / 2) = .finite (1 / 2) :=
    binary32.roundNearestEven_eq_self _ 1 (-1) (by norm_num) (by norm_num) (by norm_num)
      (by norm_num)
  have rneghalf : binary32.roundNearestEven (-(1 / 2)) = .finite (-(1 / 2)) :=
    binary32.roundNearestEven_eq_self _ (-1) (-1) (by norm_num) (by norm_num) (by norm_num)
      (by norm_num)
  have r1 : binary32.roundNearestEven 1 = .finite 1 :=
    binary32.roundNearestEven_eq_self _ 1 0 (by norm_num) (by norm_num) (by norm_num)
      (by norm_num)
  have rneg1 : binary32.roundNearestEven (-1) = .finite (-1) :=
    binary32.roundNearestEven_eq_self _ (-1) 0 (by norm_num) (by norm_num) (by norm_num)
      (by norm_num)
  have c1 : binary32.add (.finite 0) (.finite 1) = .finite 1 :=
    binary32.add_eval _ _ _ _ (by norm_num) r1
  have d3 : binary32.sub (.finite (1 / 2)) (.finite 0) = .finite (1 / 2) :=
    binary32.sub_eval _ _ _ _ (by norm_num) rhalf
  have g3 : binary32.lt (binary32.fabs (.finite (1 / 2))) binary32.EPS = false :=
    binary32.guard_eval _ (by rw [le_abs']; norm_num)
  have t3 : binary32.div (.finite (1 / 2)) (.finite (1 / 2)) = .finite 1 :=
    binary32.div_eval _ _ _ _ (by norm_num) (by norm_num) r1
  have dx3 : binary32.sub (.finite 0) (.finite 0) = .finite 0 :=
    binary32.sub_eval _ _ _ _ (by norm_num) r0
  have mx3 : binary32.mul (.finite 1) (.finite 0) = .finite 0 :=
    binary32.mul_eval _ _ _ _ (by norm_num) r0
  have ax3 : binary32.add (.finite 0) (.finite 0) = .finite 0 :=
    binary32.add_eval _ _ _ _ (by norm_num) r0
  have dy3 : binary32.sub (.finite 0) (.finite 1) = .finite (-1) :=
    binary32.sub_eval _ _ _ _ (by norm_num) rneg1
  have my3 : binary32.mul (.finite 1) (.finite (-1)) = .finite (-1) :=
    binary32.mul_eval _ _ _ _ (by norm_num) rneg1
  have ay3 : binary32.add (.finite 1) (.finite (-1)) = .finite 0 :=
    binary32.add_eval _ _ _ _ (by norm_num) r0
  have d0 : binary32.sub (.finite 0) (.finite (1 / 2)) = .finite (-(1 / 2)) :=
    binary32.sub_eval _ _ _ _ (by norm_num) rneghalf
  have g0 : binary32.lt (binary32.fabs (.finite (-(1 / 2)))) binary32.EPS = false :=
    binary32.guard_eval _ (by rw [le_abs']; norm_num)
  have n0 : binary32.sub (.finite (1 / 2)) (.finite (1 / 2)) = .finite 0 :=
    binary32.sub_eval _ _ _ _ (by norm_num) r0
  have t0 : binary32.div (.finite 0) (.finite (-(1 / 2))) = .finite 0 :=
    binary32.div_eval _ _ _ _ (by norm_num) (by norm_num) r0
  have dx0 : binary32.sub (.finite 1) (.finite 0) = .finite 1 :=
    binary32.sub_eval _ _ _ _ (by norm_num) r1
  have mx0 : binary32.mul (.finite 0) (.finite 1) = .finite 0 :=
    binary32.mul_eval _ _ _ _ (by norm_num) r0
  have my0 : binary32.mul (.finite 0) (.finite 0) = .finite 0 :=
    binary32.mul_eval _ _ _ _ (by norm_num) r0
  rw [binary32.marchSquare_unfold, hc]
  simp only [binary32.specSegments, specEdgePairs, List.map_cons, List.map_nil,
    binary32.specEdgePoint, specEdgeCorners, binary32.ofValues, List.nil_append,
    binary32.cellCorners, Matrix.cons_val_zero, Matrix.cons_val_one, Matrix.head_cons,
    Matrix.cons_val_two, Matrix.cons_val_three, Matrix.cons_val_succ, Matrix.tail_cons,
    binary32.lerp, binary32.lerpTraced,
    c1, d3, g3, t3, dx3, mx3, ax3, dy3, my3, ay3, d0, g0, n0, t0, dx0, mx0, my0,
    Bool.false_eq_true, if_false]

/-- The run of `marchSquare` in binary32 arithmetic on the cell with origin
`(2, 2)`, corner values `(1/2 + 2^(-24), 0, 0, 0)` and isolevel `1/2`: no corner
value equals the isolevel, the quotients `t` are rounded to `1 - 2^(-23)` on
edge 3 and to `(2^23 - 1) * 2^(-46)` on edge 0, and both end points are rounded
to `(2, 2)`. -/
theorem binary32.rounding_collapse_run :
    binary32.marchSquare (.finite 2) (.finite 2)
        (binary32.ofValues ![8388609 / 16777216, 0, 0, 0]) (.finite (1 / 2)) [] =
      some [⟨⟨.finite 2, .finite 2⟩, ⟨.finite 2, .finite 2⟩⟩] := by
  have hc : binary32.caseIdx (binary32.ofValues ![8388609 / 16777216, 0, 0, 0])
      (.finite (1 / 2)) = 1 := by
    rw [binary32.caseIdx_ofValues]
    norm_num [checkpoint_5.caseIdx]
  have r0 : binary32.roundNearestEven 0 = .finite 0 :=
    binary32.roundNearestEven_eq_self _ 0 0 (by norm_num) (by norm_num) (by norm_num)
      (by norm_num)
  have rhalf : binary32.roundNearestEven (1 / 2) = .finite (1 / 2) :=
    binary32.roundNearestEven_eq_self _ 1 (-1) (by norm_num) (by norm_num) (by norm_num)
      (by norm_num)
  have r1 : binary32.roundNearestEven 1 = .finite 1 :=
    binary32.roundNearestEven_eq_self _ 1 0 (by norm_num) (by norm_num) (by norm_num)
      (by norm_num)
  have rneg1 : binary32.roundNearestEven (-1) = .finite (-1) :=
    binary32.roundNearestEven_eq_self _ (-1) 0 (by norm_num) (by norm_num) (by norm_num)
      (by norm_num)
  have r2 : binary32.roundNearestEven 2 = .finite 2 :=
    binary32.roundNearestEven_eq_self _ 2 0 (by norm_num) (by norm_num) (by norm_num)
      (by norm_num)
  have r3 : binary32.roundNearestEven 3 = .finite 3 :=
    binary32.roundNearestEven_eq_self _ 3 0 (by norm_num) (by norm_num) (by norm_num)
      (by norm_num)
  have ra : binary32.roundNearestEven (8388609 / 16777216) = .finite (8388609 / 16777216) :=
    binary32.roundNearestEven_eq_self _ 8388609 (-24) (by norm_num) (by norm_num) (by norm_num)
      (by norm_num)
  have rnega : binary32.roundNearestEven (-(8388609 / 16777216)) = .finite (-(8388609 / 16777216)) :=
    binary32.roundNearestEven_eq_self _ (-8388609) (-24) (by norm_num) (by norm_num) (by norm_num)
      (by norm_num)
  have rulp : binary32.roundNearestEven (-(1 / 16777216)) = .finite (-(1 / 16777216)) :=
    binary32.roundNearestEven_eq_self _ (-1) (-24) (by norm_num) (by norm_num) (by norm_num)
      (by norm_num)
  have rnt3 : binary32.roundNearestEven (-(8388607 / 8388608)) = .finite (-(8388607 / 8388608)) :=
    binary32.roundNearestEven_eq_self _ (-8388607) (-23) (by norm_num) (by norm_num) (by norm_num)
      (by norm_num)
  have rt0 : binary32.roundNearestEven (8388607 / 70368744177664) = .finite (8388607 / 70368744177664) :=
    binary32.roundNearestEven_eq_self _ 8388607 (-46) (by norm_num) (by norm_num) (by norm_num)
      (by norm_num)
  have rq3 : binary32.roundNearestEven (8388608 / 8388609) = .finite (8388607 / 8388608) :=
    binary32.roundNearestEven_near _ _ (-1) 16777214 (by rw [abs_lt]; norm_num [binary32.overflowThreshold])
      (by rw [le_abs']; norm_num) (by rw [abs_lt]; norm_num) (by rw [abs_lt]; norm_num)
      (by norm_num)
  have rq0 : binary32.roundNearestEven (1 / 8388609) = .finite (8388607 / 70368744177664) :=
    binary32.roundNearestEven_near _ _ (-24) 16777214 (by rw [abs_lt]; norm_num [binary32.overflowThreshold])
      (by rw [le_abs']; norm_num) (by rw [abs_lt]; norm_num) (by rw [abs_lt]; norm_num)
      (by norm_num)
  have ry3 : binary32.roundNearestEven (16777217 / 8388608) = .finite 2 :=
    binary32.roundNearestEven_tie_even _ _ 1 8388608 (by rw [abs_lt]; norm_num [binary32.overflowThreshold])
      (by rw [le_abs']; norm_num) (by rw [abs_lt]; norm_num) (by norm_num) (by norm_num)
      (by norm_num)
  have rx0 : binary32.roundNearestEven (140737496743935 / 70368744177664) = .finite 2 :=
    binary32.roundNearestEven_near _ _ 1 8388608 (by rw [abs_lt]; norm_num [binary32.overflowThreshold])
      (by rw [le_abs']; norm_num) (by rw [abs_lt]; norm_num) (by rw [abs_lt]; norm_num)
      (by norm_num)
  have c1 : binary32.add (.finite 2) (.finite 1) = .finite 3 :=
    binary32.add_eval _ _ _ _ (by norm_num) r3
  have d3 : binary32.sub (.finite (8388609 / 16777216)) (.finite 0) = .finite (8388609 / 16777216) :=
    binary32.sub_eval _ _ _ _ (by norm_num) ra
  have g3 : binary32.lt (binary32.fabs (.finite (8388609 / 16777216))) binary32.EPS = false :=
    binary32.guard_eval _ (by rw [le_abs']; norm_num)
  have n3 : binary32.sub (.finite (1 / 2)) (.finite 0) = .finite (1 / 2) :=
    binary32.sub_eval _ _ _ _ (by norm_num) rhalf
  have t3 : binary32.div (.finite (1 / 2)) (.finite (8388609 / 16777216)) = .finite (8388607 / 8388608) :=
    binary32.div_eval _ _ _ _ (by norm_num) (by norm_num) rq3
  have dx3 : binary32.sub (.finite 2) (.finite 2) = .finite 0 :=
    binary32.sub_eval _ _ _ _ (by norm_num) r0
  have mx3 : binary32.mul (.finite (8388607 / 8388608)) (.finite 0) = .finite 0 :=
    binary32.mul_eval _ _ _ _ (by norm_num) r0
  have ax3 : binary32.add (.finite 2) (.finite 0) = .finite 2 :=
    binary32.add_eval _ _ _ _ (by norm_num) r2
  have dy3 : binary32.sub (.finite 2) (.finite 3) = .finite (-1) :=
    binary32.sub_eval _ _ _ _ (by norm_num) rneg1
  have my3 : binary32.mul (.finite (8388607 / 8388608)) (.finite (-1)) = .finite (-(8388607 / 8388608)) :=
    binary32.mul_eval _ _ _ _ (by norm_num) rnt3
  have ay3 : binary32.add (.finite 3) (.finite (-(8388607 / 8388608))) = .finite 2 :=
    binary32.add_eval _ _ _ _ (by norm_num) ry3
  have d0 : binary32.sub (.finite 0) (.finite (8388609 / 16777216)) = .finite (-(8388609 / 16777216)) :=
    binary32.sub_eval _ _ _ _ (by norm_num) rnega
  have g0 : binary32.lt (binary32.fabs (.finite (-(8388609 / 16777216)))) binary32.EPS = false :=
    binary32.guard_eval _ (by rw [le_abs']; norm_num)
  have n0 : binary32.sub (.finite (1 / 2)) (.finite (8388609 / 16777216)) = .finite (-(1 / 16777216)) :=
    binary32.sub_eval _ _ _ _ (by norm_num) rulp
  have t0 : binary32.div (.finite (-(1 / 16777216))) (.finite (-(8388609 / 16777216))) = .finite (8388607 / 70368744177664) :=
    binary32.div_eval _ _ _ _ (by norm_num) (by norm_num) rq0
  have dx0 : binary32.sub (.finite 3) (.finite 2) = .finite 1 :=
    binary32.sub_eval _ _ _ _ (by norm_num) r1
  have mx0 : binary32.mul (.finite (8388607 / 70368744177664)) (.finite 1) = .finite (8388607 / 70368744177664) :=
    binary32.mul_eval _ _ _ _ (by norm_num) rt0
  have ax0 : binary32.add (.finite 2) (.finite (8388607 / 70368744177664)) = .finite 2 :=
    binary32.add_eval _ _ _ _ (by norm_num) rx0
  have my0 : binary32.mul (.finite (8388607 / 70368744177664)) (.finite 0) = .finite 0 :=
    binary32.mul_eval _ _ _ _ (by norm_num) r0
  rw [binary32.marchSquare_unfold, hc]
  simp only [binary32.specSegments, specEdgePairs, List.map_cons, List.map_nil,
    binary32.specEdgePoint, specEdgeCorners, binary32.ofValues, List.nil_append,
    binary32.cellCorners, Matrix.cons_val_zero, Matrix.cons_val_one, Matrix.head_cons,
    Matrix.cons_val_two, Matrix.cons_val_three, Matrix.cons_val_succ, Matrix.tail_cons,
    binary32.lerp, binary32.lerpTraced,
    c1, d3, g3, n3, t3, dx3, mx3, ax3, dy3, my3, ay3, d0, g0, n0, t0, dx0, mx0, ax0, my0,
    Bool.false_eq_true, if_false]

theorem binary32.add_nan_right (a : binary32.F32) : binary32.add a .nan = .nan := by
  cases a <;> rfl

theorem binary32.mul_nan_left (a : binary32.F32) : binary32.mul .nan a = .nan := by
  cases a <;> rfl

/-- The run of `marchSquare` in binary32 arithmetic on the corner values
`(3.4e38f, -3e38f, -3e38f, -3e38f)` at isolevel `3e38f`, all finite binary32
numbers. The case index is 1 and edge 3 is crossed; in the `lerp` call on edge 3
both differences `v2 - v1` and `iso - v1` overflow to `+inf`, the guard does not
fire, the division `inf / inf` gives `t = NaN`, and the segment emitted starts at
`(NaN, NaN)`. -/
theorem binary32.overflow_run :
    (binary32.roundNearestEven 339999995214436424907732413799364296704 =
        .finite 339999995214436424907732413799364296704 ∧
      binary32.roundNearestEven 300000000549775575777803994281145270272 =
        .finite 300000000549775575777803994281145270272) ∧
    binary32.caseIdx
      (binary32.ofValues ![339999995214436424907732413799364296704,
        -300000000549775575777803994281145270272, -300000000549775575777803994281145270272,
        -300000000549775575777803994281145270272])
      (.finite 300000000549775575777803994281145270272) = 1 ∧
    checkpoint_5.edgePairs[1]? = some [3, 0, -1, -1] ∧
    Crossed (-300000000549775575777803994281145270272) 339999995214436424907732413799364296704
      300000000549775575777803994281145270272 ∧
    (binary32.lerpTraced ⟨.finite 0, .finite 1⟩ ⟨.finite 0, .finite 0⟩
        (.finite (-300000000549775575777803994281145270272))
        (.finite 339999995214436424907732413799364296704)
        (.finite 300000000549775575777803994281145270272)).2 =
      [(.infinite false, .infinite false)] ∧
    binary32.div (.infinite false) (.infinite false) = .nan ∧
    ¬ binary32.InUnitInterval .nan ∧
    (∃ p log, binary32.marchSquareTraced (.finite 0) (.finite 0)
        (binary32.ofValues ![339999995214436424907732413799364296704,
          -300000000549775575777803994281145270272, -300000000549775575777803994281145270272,
          -300000000549775575777803994281145270272])
        (.finite 300000000549775575777803994281145270272) [] =
      some ([⟨⟨.nan, .nan⟩, p⟩], log)) ∧
    ¬ binary32.LiesOnEdge 0 0 3 ⟨.nan, .nan⟩ := by
  have hthr : binary32.overflowThreshold = 340282356779733661637539395458142568448 := by
    norm_num [binary32.overflowThreshold]
  have hrep0 : binary32.roundNearestEven 339999995214436424907732413799364296704 =
      .finite 339999995214436424907732413799364296704 := by
    rw [binary32.roundNearestEven_of_lt _ (by rw [hthr]; norm_num)]
    have := binary32.roundToGrid_of_representable 8381647 105 (by norm_num) (by norm_num)
    norm_num at this
    rw [this]
  have hrep1 : binary32.roundNearestEven 300000000549775575777803994281145270272 =
      .finite 300000000549775575777803994281145270272 := by
    rw [binary32.roundNearestEven_of_lt _ (by rw [hthr]; norm_num)]
    have := binary32.roundToGrid_of_representable 7395571 105 (by norm_num) (by norm_num)
    norm_num at this
    rw [this]
  have hc : binary32.caseIdx
      (binary32.ofValues ![339999995214436424907732413799364296704,
        -300000000549775575777803994281145270272, -300000000549775575777803994281145270272,
        -300000000549775575777803994281145270272])
      (.finite 300000000549775575777803994281145270272) = 1 := by
    rw [binary32.caseIdx_ofValues]
    norm_num [checkpoint_5.caseIdx]
  have hden : binary32.sub (.finite 339999995214436424907732413799364296704)
      (.finite (-300000000549775575777803994281145270272)) = .infinite false := by
    show binary32.roundNearestEven _ = _
    rw [binary32.roundNearestEven_of_le _ (by rw [hthr]; norm_num)]
    norm_num
  have hnum : binary32.sub (.finite 300000000549775575777803994281145270272)
      (.finite (-300000000549775575777803994281145270272)) = .infinite false := by
    show binary32.roundNearestEven _ = _
    rw [binary32.roundNearestEven_of_le _ (by rw [hthr]; norm_num)]
    norm_num
  have hguard : binary32.lt (binary32.fabs (.infinite false)) binary32.EPS = false := rfl
  have hlerp : ∀ p1 p2 : binary32.Point,
      binary32.lerpTraced p1 p2 (.finite (-300000000549775575777803994281145270272))
        (.finite 339999995214436424907732413799364296704)
        (.finite 300000000549775575777803994281145270272) =
      (⟨.nan, .nan⟩, [(.infinite false, .infinite false)]) := by
    intro p1 p2
    simp only [binary32.lerpTraced, hden, hnum, hguard, Bool.false_eq_true, if_false]
    have hdiv : binary32.div (.infinite false) (.infinite false) = .nan := rfl
    rw [hdiv, binary32.mul_nan_left, binary32.mul_nan_left, binary32.add_nan_right,
      binary32.add_nan_right]
  refine ⟨⟨hrep0, hrep1⟩, hc, rfl, ?_, ?_, rfl, ?_, ?_, ?_⟩
  · unfold Crossed
    norm_num
  · rw [hlerp]
  · unfold binary32.InUnitInterval
    simp [binary32.ge]
  · rw [binary32.marchSquareTraced_unfold, hc]
    refine ⟨binary32.specEdgePoint (binary32.cellCorners (.finite 0) (.finite 0))
      (binary32.ofValues ![339999995214436424907732413799364296704,
        -300000000549775575777803994281145270272, -300000000549775575777803994281145270272,
        -300000000549775575777803994281145270272])
      (.finite 300000000549775575777803994281145270272) 0,
      binary32.specLerpCalls (binary32.cellCorners (.finite 0) (.finite 0))
      (binary32.ofValues ![339999995214436424907732413799364296704,
        -300000000549775575777803994281145270272, -300000000549775575777803994281145270272,
        -300000000549775575777803994281145270272])
      (.finite 300000000549775575777803994281145270272) 1, ?_⟩
    simp only [binary32.specSegments, specEdgePairs, List.map_cons, List.map_nil,
      binary32.specEdgePoint, specEdgeCorners, binary32.ofValues, List.nil_append]
    have h3 : binary32.lerp (binary32.cellCorners (.finite 0) (.finite 0) 3)
        (binary32.cellCorners (.finite 0) (.finite 0) 0)
        (.finite (-300000000549775575777803994281145270272))
        (.finite 339999995214436424907732413799364296704)
        (.finite 300000000549775575777803994281145270272) = ⟨.nan, .nan⟩ := by
      rw [binary32.lerp, hlerp]
    simp only [Matrix.cons_val_zero, Matrix.cons_val_three, Matrix.cons_val_succ,
      Matrix.head_cons, Matrix.tail_cons] at h3 ⊢
    erw [h3]
  · simp [binary32.LiesOnEdge]


theorem binary32.roundNearestEven_zero : binary32.roundNearestEven 0 = .finite 0 :=
  binary32.roundNearestEven_eq_self _ 0 0 (by norm_num) (by norm_num) (by norm_num)
    (by norm_num)

/-! ## The claims on `lerp` and its results in binary32 arithmetic -/

/-- C6: in binary32 arithmetic, when the computed difference `denom = v2 - v1`
has `|denom| < EPS`, with `EPS` the `float` constant `1e-6f` (the binary32 number
nearest to `10^(-6)`), `lerp(p1, p2, v1, v2, iso)` returns `p1` unchanged and
performs no division, whatever `p2` and `iso` are (finite or not); in particular
`lerp` with two equal finite corner values returns `p1` and performs no
division. -/
theorem lerp_flat_edge_guard (p1 p2 : binary32.Point) (v1 v2 iso : binary32.F32)
    (h : binary32.lt (binary32.fabs (binary32.sub v2 v1)) binary32.EPS = true) :
    (binary32.lerp p1 p2 v1 v2 iso = p1 ∧ (binary32.lerpTraced p1 p2 v1 v2 iso).2 = []) ∧
    (∀ (q2 : binary32.Point) (iso2 : binary32.F32),
      binary32.lerp p1 q2 v1 v2 iso2 = p1 ∧ (binary32.lerpTraced p1 q2 v1 v2 iso2).2 = []) ∧
    (∀ (v : ℚ) (q1 q2 : binary32.Point) (iso2 : binary32.F32),
      binary32.lerp q1 q2 (.finite v) (.finite v) iso2 = q1 ∧
      (binary32.lerpTraced q1 q2 (.finite v) (.finite v) iso2).2 = []) ∧
    binary32.roundNearestEven (1 / 1000000) = binary32.EPS ∧
    binary32.EPS = .finite EPS := by
  have hguard : ∀ (q1 q2 : binary32.Point) (w1 w2 i : binary32.F32),
      binary32.lt (binary32.fabs (binary32.sub w2 w1)) binary32.EPS = true →
      binary32.lerp q1 q2 w1 w2 i = q1 ∧ (binary32.lerpTraced q1 q2 w1 w2 i).2 = [] := by
    intro q1 q2 w1 w2 i hw
    simp only [binary32.lerp, binary32.lerpTraced, hw, if_true, and_self]
  refine ⟨hguard p1 p2 v1 v2 iso h, fun q2 iso2 => hguard p1 q2 v1 v2 iso2 h,
    fun v q1 q2 iso2 => hguard q1 q2 _ _ iso2 ?_, ?_, rfl⟩
  · have hsub : binary32.sub (.finite v) (.finite v) = .finite 0 :=
      binary32.sub_eval _ _ _ _ (sub_self v) binary32.roundNearestEven_zero
    rw [hsub]
    show decide (|(0 : ℚ)| < 8796093 / 8796093022208) = true
    rw [decide_eq_true_iff, abs_zero]
    norm_num
  · exact binary32.roundNearestEven_near _ _ (-20) 8796093
      (by rw [abs_lt]; norm_num [binary32.overflowThreshold])
      (by rw [le_abs']; norm_num) (by rw [abs_lt]; norm_num) (by rw [abs_lt]; norm_num)
      (by norm_num)

/-- Witness for C6: the corner values `1` and `1 + 2^(-21)` (both binary32
numbers); their difference `2^(-21)` is computed exactly and is below `EPS`. -/
theorem lerp_flat_edge_guard_witness :
    binary32.lt (binary32.fabs (binary32.sub (.finite (2097153 / 2097152)) (.finite 1)))
      binary32.EPS = true ∧
    binary32.lerp ⟨.finite 3, .finite 4⟩ ⟨.finite 5, .finite 6⟩ (.finite 1)
      (.finite (2097153 / 2097152)) (.finite 7) = ⟨.finite 3, .finite 4⟩ :=
  have hsub : binary32.sub (.finite (2097153 / 2097152)) (.finite 1) = .finite (1 / 2097152) :=
    binary32.sub_eval _ _ _ _ (by norm_num)
      (binary32.roundNearestEven_eq_self _ 1 (-21) (by norm_num) (by norm_num) (by norm_num)
        (by norm_num))
  have h : binary32.lt (binary32.fabs (binary32.sub (.finite (2097153 / 2097152)) (.finite 1)))
      binary32.EPS = true := by
    rw [hsub]
    show decide (|(1 / 2097152 : ℚ)| < 8796093 / 8796093022208) = true
    rw [decide_eq_true_iff, abs_lt]
    norm_num
  ⟨h, (lerp_flat_edge_guard ⟨.finite 3, .finite 4⟩ ⟨.finite 5, .finite 6⟩ (.finite 1)
    (.finite (2097153 / 2097152)) (.finite 7) h).1.1⟩

/-- C8, counterexample, in binary32 arithmetic. (a) Corner values
`(3.4e38f, -3e38f, -3e38f, -3e38f)` at isolevel `3e38f`, all finite binary32
numbers: the case index is 1 and edge 3 is crossed; in the `lerp` call on edge 3
both differences `v2 - v1` and `iso - v1` overflow to `+inf`, the guard does not
fire, the division `inf / inf` gives `t = NaN`, which is not in `[0, 1]`, and the
segment `marchSquare` emits starts at `(NaN, NaN)`, which lies on no edge.
(b) The cell with origin `(16777218, 0)`, corner values `(0, 1/2, 0, 0)` and
isolevel `1/2`: the origin is a binary32 number, the case index is 2, the table
names edge 0 for the start of the segment, the corner coordinate
`cell_x + 1 = 16777219` is rounded to `16777220`, and the segment starts at
`(16777220, 0)`, outside the edge `y = 0`, `16777218 <= x <= 16777219`. -/
theorem marchSquare_crossed_edges_counterexample :
    ((binary32.roundNearestEven 339999995214436424907732413799364296704 =
          .finite 339999995214436424907732413799364296704 ∧
        binary32.roundNearestEven 300000000549775575777803994281145270272 =
          .finite 300000000549775575777803994281145270272) ∧
      binary32.caseIdx
        (binary32.ofValues ![339999995214436424907732413799364296704,
          -300000000549775575777803994281145270272, -300000000549775575777803994281145270272,
          -300000000549775575777803994281145270272])
        (.finite 300000000549775575777803994281145270272) = 1 ∧
      checkpoint_5.edgePairs[1]? = some [3, 0, -1, -1] ∧
      Crossed (-300000000549775575777803994281145270272) 339999995214436424907732413799364296704
        300000000549775575777803994281145270272 ∧
      (binary32.lerpTraced ⟨.finite 0, .finite 1⟩ ⟨.finite 0, .finite 0⟩
          (.finite (-300000000549775575777803994281145270272))
          (.finite 339999995214436424907732413799364296704)
          (.finite 300000000549775575777803994281145270272)).2 =
        [(.infinite false, .infinite false)] ∧
      binary32.div (.infinite false) (.infinite false) = .nan ∧
      ¬ binary32.InUnitInterval .nan ∧
      (∃ p log, binary32.marchSquareTraced (.finite 0) (.finite 0)
          (binary32.ofValues ![339999995214436424907732413799364296704,
            -300000000549775575777803994281145270272, -300000000549775575777803994281145270272,
            -300000000549775575777803994281145270272])
          (.finite 300000000549775575777803994281145270272) [] =
        some ([⟨⟨.nan, .nan⟩, p⟩], log)) ∧
      ¬ binary32.LiesOnEdge 0 0 3 ⟨.nan, .nan⟩) ∧
    (binary32.Representable 16777218 ∧
      binary32.add (.finite 16777218) (.finite 1) = .finite 16777220 ∧
      binary32.caseIdx (binary32.ofValues ![0, 1 / 2, 0, 0]) (.finite (1 / 2)) = 2 ∧
      checkpoint_5.edgePairs[2]? = some [0, 1, -1, -1] ∧
      binary32.marchSquare (.finite 16777218) (.finite 0)
          (binary32.ofValues ![0, 1 / 2, 0, 0]) (.finite (1 / 2)) [] =
        some [⟨⟨.finite 16777220, .finite 0⟩, ⟨.finite 16777220, .finite 0⟩⟩] ∧
      ¬ binary32.LiesOnEdge 16777218 0 0 ⟨.finite 16777220, .finite 0⟩) := by
  refine ⟨binary32.overflow_run, ?_, ?_, ?_, rfl, binary32.large_origin_run, ?_⟩
  · exact binary32.roundNearestEven_eq_self _ 8388609 1 (by norm_num) (by norm_num)
      (by norm_num) (by norm_num)
  · exact binary32.add_eval 16777218 1 16777219 _ (by norm_num)
      (binary32.roundNearestEven_tie_odd 16777219 16777220 24 8388609
        (by rw [abs_lt]; norm_num [binary32.overflowThreshold])
        (by rw [le_abs']; norm_num) (by rw [abs_lt]; norm_num) (by norm_num) (by norm_num)
        (by norm_num))
  · rw [binary32.caseIdx_ofValues]
    norm_num [checkpoint_5.caseIdx]
  · simp only [binary32.LiesOnEdge, OnEdge]
    norm_num

/-- C8, amended. In exact arithmetic, for every cell and isolevel, `marchSquare`
calls `lerp` exactly on the edges of the pairs of `edgePairs[caseIdx]`, each call
receives the two corner values of its edge, and each such edge is crossed
(exactly one of the two corner values is `>= isolevel`); every division executed
has its quotient `t` in `[0, 1]`, and the start and the end of every emitted
segment lie on the closed cell edges named by the table pair: edge 0 on `y = cy`
with `x` in `[cx, cx+1]`, edge 1 on `x = cx+1` with `y` in `[cy, cy+1]`, edge 2 on
`y = cy+1` with `x` in `[cx, cx+1]`, edge 3 on `x = cx` with `y` in `[cy, cy+1]`.
In binary32 arithmetic, for finite corner values and isolevel, the calls are the
same and every called edge is crossed; when moreover the origin coordinates
`cx`, `cy` are binary32 numbers whose successors `cx + 1`, `cy + 1` are binary32
numbers too (the corner coordinates are computed exactly) and on no crossed edge
the difference `isolevel - v1` to the value of its first corner overflows
(`|isolevel - v1| < 2^128 - 2^103`), every division executed has its quotient in
`[0, 1]` and the start and the end of every emitted segment are finite points on
the closed edges named by the table pair. The origins of the cells of a grid,
natural numbers `n` with `n + 1 <= 2^24`, satisfy the condition on the origin. -/
theorem marchSquare_crossed_edges (cx cy : ℚ) (values : Fin 4 → ℚ) (iso : ℚ)
    (out : List LineSegment) (out32 : List binary32.LineSegment) :
    (∃ pair segs log,
      checkpoint_5.edgePairs[checkpoint_5.caseIdx values iso]? = some pair ∧
      checkpoint_5.marchSquareTraced cx cy values iso out = some (out ++ segs, log) ∧
      log.map LerpCall.edge = (rowPairs pair).flatMap (fun ab => [ab.1, ab.2]) ∧
      (∀ call ∈ log,
        (∃ e : Fin 4, call = specLerpCall (checkpoint_5.cellCorners cx cy) values iso e) ∧
        Crossed call.v1 call.v2 call.iso ∧
        ∀ nd ∈ (lerpTraced call.p1 call.p2 call.v1 call.v2 call.iso).2,
          0 ≤ nd.1 / nd.2 ∧ nd.1 / nd.2 ≤ 1) ∧
      List.Forall₂
        (fun (seg : LineSegment) (ab : Int × Int) =>
          OnEdge cx cy ab.1 seg.start ∧ OnEdge cx cy ab.2 seg.end_)
        segs (rowPairs pair)) ∧
    (∃ pair segs log,
      checkpoint_5.edgePairs[binary32.caseIdx (binary32.ofValues values) (.finite iso)]? =
        some pair ∧
      binary32.marchSquareTraced (.finite cx) (.finite cy) (binary32.ofValues values)
        (.finite iso) out32 = some (out32 ++ segs, log) ∧
      log.map binary32.LerpCall.edge = (rowPairs pair).flatMap (fun ab => [ab.1, ab.2]) ∧
      (∀ call ∈ log, ∃ e : Fin 4,
        call = binary32.specLerpCall (binary32.cellCorners (.finite cx) (.finite cy))
          (binary32.ofValues values) (.finite iso) e ∧
        Crossed (values (specEdgeCorners e).1) (values (specEdgeCorners e).2) iso) ∧
      (binary32.Representable cx → binary32.Representable cy →
        binary32.Representable (cx + 1) → binary32.Representable (cy + 1) →
        (∀ e : Fin 4, Crossed (values (specEdgeCorners e).1) (values (specEdgeCorners e).2) iso →
          |iso - values (specEdgeCorners e).1| < binary32.overflowThreshold) →
        (∀ call ∈ log,
          ∀ nd ∈ (binary32.lerpTraced call.p1 call.p2 call.v1 call.v2 call.iso).2,
            binary32.InUnitInterval (binary32.div nd.1 nd.2)) ∧
        List.Forall₂
          (fun (seg : binary32.LineSegment) (ab : Int × Int) =>
            binary32.LiesOnEdge cx cy ab.1 seg.start ∧ binary32.LiesOnEdge cx cy ab.2 seg.end_)
          segs (rowPairs pair))) ∧
    (∀ n : ℕ, n + 1 ≤ 2 ^ 24 →
      binary32.Representable (n : ℚ) ∧ binary32.Representable ((n : ℚ) + 1)) := by
  obtain ⟨pair, hpair, hrow⟩ :=
    checkpoint_5.rowPairs_edgePairs _ (checkpoint_5.caseIdx_lt values iso)
  have hcr := checkpoint_5.crossed_of_mem values iso
  refine ⟨?_, ?_, ?_⟩
  · have hon : ∀ ab ∈ specEdgePairs (checkpoint_5.caseIdx values iso), ∀ e ∈ [ab.1, ab.2],
        OnEdge cx cy (e.val : Int)
          (specEdgePoint (checkpoint_5.cellCorners cx cy) values iso e) := by
      intro ab hab e he
      obtain ⟨⟨t, h0, h1, ht⟩, -⟩ :=
        lerp_of_crossed (checkpoint_5.cellCorners cx cy (specEdgeCorners e).1)
          (checkpoint_5.cellCorners cx cy (specEdgeCorners e).2) _ _ iso (hcr ab hab e he)
      rw [specEdgePoint, ht]
      exact onEdge_of_interpolant cx cy e t h0 h1
    refine ⟨pair, _, _, hpair, checkpoint_5.marchSquareTraced_eq cx cy values iso out, ?_, ?_, ?_⟩
    · rw [hrow, specLerpCalls]
      simp [List.map_flatMap, List.flatMap_map, specLerpCall]
    · intro call hcall
      rw [specLerpCalls, List.mem_flatMap] at hcall
      obtain ⟨ab, hab, hmem⟩ := hcall
      have hcases : ∃ e ∈ [ab.1, ab.2],
          call = specLerpCall (checkpoint_5.cellCorners cx cy) values iso e := by
        simpa using hmem
      obtain ⟨e, he, rfl⟩ := hcases
      exact ⟨⟨e, rfl⟩, hcr ab hab e he,
        (lerp_of_crossed _ _ _ _ iso (hcr ab hab e he)).2⟩
    · rw [hrow, specSegments, List.forall₂_map_left_iff, List.forall₂_map_right_iff]
      exact List.forall₂_same.mpr fun ab hab =>
        ⟨hon ab hab ab.1 (by simp), hon ab hab ab.2 (by simp)⟩
  · have hcalls : ∀ call ∈ binary32.specLerpCalls
          (binary32.cellCorners (.finite cx) (.finite cy)) (binary32.ofValues values)
          (.finite iso) (checkpoint_5.caseIdx values iso),
        ∃ ab ∈ specEdgePairs (checkpoint_5.caseIdx values iso), ∃ e ∈ [ab.1, ab.2],
          call = binary32.specLerpCall (binary32.cellCorners (.finite cx) (.finite cy))
            (binary32.ofValues values) (.finite iso) e := by
      intro call hcall
      rw [binary32.specLerpCalls, List.mem_flatMap] at hcall
      obtain ⟨ab, hab, hmem⟩ := hcall
      exact ⟨ab, hab, by simpa using hmem⟩
    have hrun := binary32.marchSquareTraced_unfold (.finite cx) (.finite cy)
      (binary32.ofValues values) (.finite iso) out32
    rw [binary32.caseIdx_ofValues] at hrun ⊢
    refine ⟨pair, _, _, hpair, hrun, ?_, ?_, ?_⟩
    · rw [hrow, binary32.specLerpCalls]
      simp [List.map_flatMap, List.flatMap_map, binary32.specLerpCall]
    · intro call hcall
      obtain ⟨ab, hab, e, he, rfl⟩ := hcalls call hcall
      exact ⟨e, rfl, hcr ab hab e he⟩
    · intro hx hy hx1 hy1 hov
      constructor
      · intro call hcall
        obtain ⟨ab, hab, e, he, rfl⟩ := hcalls call hcall
        exact (binary32_liesOnEdge_of_crossed cx cy hx hy hx1 hy1 values iso e
          (hcr ab hab e he) (hov e (hcr ab hab e he))).2
      · rw [hrow, binary32.specSegments, List.forall₂_map_left_iff,
          List.forall₂_map_right_iff]
        exact List.forall₂_same.mpr fun ab hab =>
          ⟨(binary32_liesOnEdge_of_crossed cx cy hx hy hx1 hy1 values iso ab.1
              (hcr ab hab ab.1 (by simp)) (hov _ (hcr ab hab ab.1 (by simp)))).1,
            (binary32_liesOnEdge_of_crossed cx cy hx hy hx1 hy1 values iso ab.2
              (hcr ab hab ab.2 (by simp)) (hov _ (hcr ab hab ab.2 (by simp)))).1⟩
  · intro n hn
    refine ⟨binary32.representable_natCast n (by omega), ?_⟩
    have := binary32.representable_natCast (n + 1) hn
    simpa using this

/-- Witness for the amended C8: the cell at the origin with corner values
`(1, 0, 0, 0)` at isolevel `1/2` in binary32 arithmetic. -/
theorem marchSquare_crossed_edges_witness :
    ∃ pair segs log,
      checkpoint_5.edgePairs[binary32.caseIdx (binary32.ofValues ![1, 0, 0, 0])
        (.finite (1 / 2))]? = some pair ∧
      binary32.marchSquareTraced (.finite 0) (.finite 0)
        (binary32.ofValues ![1, 0, 0, 0]) (.finite (1 / 2)) [] = some ([] ++ segs, log) ∧
      (∀ call ∈ log,
        ∀ nd ∈ (binary32.lerpTraced call.p1 call.p2 call.v1 call.v2 call.iso).2,
          binary32.InUnitInterval (binary32.div nd.1 nd.2)) ∧
      List.Forall₂
        (fun (seg : binary32.LineSegment) (ab : Int × Int) =>
          binary32.LiesOnEdge 0 0 ab.1 seg.start ∧ binary32.LiesOnEdge 0 0 ab.2 seg.end_)
        segs (rowPairs pair) := by
  obtain ⟨pair, segs, log, h1, h2, -, -, h5⟩ :=
    (marchSquare_crossed_edges 0 0 ![1, 0, 0, 0] (1 / 2) [] []).2.1
  have hr0 : binary32.Representable 0 := binary32.roundNearestEven_zero
  have hr1 : binary32.Representable (0 + 1) :=
    binary32.roundNearestEven_eq_self _ 1 0 (by norm_num) (by norm_num) (by norm_num)
      (by norm_num)
  have hov : ∀ e : Fin 4,
      Crossed ((![1, 0, 0, 0] : Fin 4 → ℚ) (specEdgeCorners e).1)
        ((![1, 0, 0, 0] : Fin 4 → ℚ) (specEdgeCorners e).2) (1 / 2) →
      |(1 / 2 : ℚ) - (![1, 0, 0, 0] : Fin 4 → ℚ) (specEdgeCorners e).1| <
        binary32.overflowThreshold := by
    intro e _
    fin_cases e <;>
      (simp only [specEdgeCorners]; rw [abs_lt]; norm_num [binary32.overflowThreshold])
  exact ⟨pair, segs, log, h1, h2, h5 hr0 hr0 hr1 hr1 hov⟩

/-! ## Zero-length segments -/

theorem EPS_pos : 0 < EPS := by norm_num [EPS]

/-- On a crossed edge `lerp` returns `p1 + t * (p2 - p1)` with `t` in `[0, 1]`;
`t = 1` exactly when the second corner value is the isolevel and the edge is not
flat, and `t = 0` exactly when the first corner value is the isolevel or the
edge is flat. -/
theorem lerp_parameter (p1 p2 : Point) (v1 v2 iso : ℚ) (h : Crossed v1 v2 iso) :
    ∃ t : ℚ, 0 ≤ t ∧ t ≤ 1 ∧
      lerp p1 p2 v1 v2 iso = ⟨p1.x + t * (p2.x - p1.x), p1.y + t * (p2.y - p1.y)⟩ ∧
      (t = 1 ↔ v2 = iso ∧ EPS ≤ |v2 - v1|) ∧ (t = 0 ↔ v1 = iso ∨ |v2 - v1| < EPS) := by
  by_cases hg : |v2 - v1| < EPS
  · refine ⟨0, le_refl _, zero_le_one, ?_, ?_, ?_⟩
    · simp [lerp, lerpTraced, hg]
    · constructor
      · intro h01; exact absurd h01 (by norm_num)
      · intro hc; exact absurd hg (not_lt.mpr hc.2)
    · exact ⟨fun _ => Or.inr hg, fun _ => rfl⟩
  · have hne : v2 - v1 ≠ 0 := by
      intro h0
      rw [h0, abs_zero] at hg
      exact hg EPS_pos
    have ht : 0 ≤ (iso - v1) / (v2 - v1) ∧ (iso - v1) / (v2 - v1) ≤ 1 := by
      rcases h with ⟨h1, h2⟩ | ⟨h1, h2⟩
      · have h2 := not_le.mp h2
        have hneg : v2 - v1 < 0 := by linarith
        exact ⟨div_nonneg_of_nonpos (by linarith) hneg.le,
          by rw [div_le_one_of_neg hneg]; linarith⟩
      · have h1 := not_le.mp h1
        have hpos : 0 < v2 - v1 := by linarith
        exact ⟨div_nonneg (by linarith) hpos.le, by rw [div_le_one hpos]; linarith⟩
    refine ⟨(iso - v1) / (v2 - v1), ht.1, ht.2, ?_, ?_, ?_⟩
    · simp [lerp, lerpTraced, hg]
    · rw [div_eq_one_iff_eq hne]
      constructor
      · intro he; exact ⟨by linarith, not_lt.mp hg⟩
      · intro he; linarith [he.1]
    · rw [div_eq_zero_iff]
      constructor
      · rintro (he | he)
        · exact Or.inl (by linarith)
        · exact absurd he hne
      · rintro (he | he)
        · exact Or.inl (by linarith)
        · exact absurd he hg

/-- Two points `p1 + s * (p2 - p1)` and `q1 + t * (q2 - q1)`, `s` and `t` in
`[0, 1]`, on two different edges `a`, `b` of the unit cell coincide exactly when
the edges meet in a corner and both points are that corner. -/
theorem interpolants_eq_iff (cx cy : ℚ) (a b : Fin 4) (hab : a ≠ b) (s t : ℚ)
    (hs0 : 0 ≤ s) (hs1 : s ≤ 1) (ht0 : 0 ≤ t) (ht1 : t ≤ 1) :
    (⟨(checkpoint_5.cellCorners cx cy (specEdgeCorners a).1).x +
          s * ((checkpoint_5.cellCorners cx cy (specEdgeCorners a).2).x -
            (checkpoint_5.cellCorners cx cy (specEdgeCorners a).1).x),
        (checkpoint_5.cellCorners cx cy (specEdgeCorners a).1).y +
          s * ((checkpoint_5.cellCorners cx cy (specEdgeCorners a).2).y -
            (checkpoint_5.cellCorners cx cy (specEdgeCorners a).1).y)⟩ : Point) =
      ⟨(checkpoint_5.cellCorners cx cy (specEdgeCorners b).1).x +
          t * ((checkpoint_5.cellCorners cx cy (specEdgeCorners b).2).x -
            (checkpoint_5.cellCorners cx cy (specEdgeCorners b).1).x),
        (checkpoint_5.cellCorners cx cy (specEdgeCorners b).1).y +
          t * ((checkpoint_5.cellCorners cx cy (specEdgeCorners b).2).y -
            (checkpoint_5.cellCorners cx cy (specEdgeCorners b).1).y)⟩ ↔
    (b = a + 1 ∧ s = 1 ∧ t = 0) ∨ (a = b + 1 ∧ t = 1 ∧ s = 0) := by
  rw [Point.mk.injEq]
  fin_cases a <;> fin_cases b <;>
    first
    | exact absurd rfl hab
    | (simp [checkpoint_5.cellCorners, specEdgeCorners]
       constructor
       · intro h
         constructor <;> linarith [h.1, h.2]
       · intro h
         constructor <;> linarith [h.1, h.2])
    | (simp [checkpoint_5.cellCorners, specEdgeCorners]
       intro h
       constructor <;> intro h2 <;> linarith)
    | simp [checkpoint_5.cellCorners, specEdgeCorners]

/-- Edge `e` of the table runs from corner `e` to corner `e + 1`. -/
theorem specEdgeCorners_eq (e : Fin 4) : specEdgeCorners e = (e, e + 1) := by
  revert e; decide

/-- A table pair whose second edge follows its first and meets it in a corner at
or above the isolevel belongs to the case where that corner alone is. -/
theorem specEdgePairs_corner_inside (c : Nat) (hc : c < 16) :
    ∀ ab ∈ specEdgePairs c, ab.2 = ab.1 + 1 → c.testBit ab.2.val = true → c = 2 ^ ab.2.val := by
  interval_cases c <;> decide

/-- A table pair whose first edge follows its second meets it in a corner below
the isolevel. -/
theorem specEdgePairs_corner_outside (c : Nat) (hc : c < 16) :
    ∀ ab ∈ specEdgePairs c, ab.1 = ab.2 + 1 → c.testBit ab.1.val = false := by
  interval_cases c <;> decide

/-- The cases 1, 2, 4, 8: the one pair joins the edge entering the corner to the
edge leaving it. -/
theorem specEdgePairs_single_corner (k : Fin 4) : specEdgePairs (2 ^ k.val) = [(k - 1, k)] := by
  revert k; decide

/-- In exact arithmetic a segment that `marchSquare` emits has its
start equal to its end exactly when the case index is 1, 2, 4 or 8 (a single
corner `k` is at or above the isolevel), the value of corner `k` equals the
isolevel, and the edge entering corner `k` is not flat (its two corner values
differ by at least `EPS`); every other emitted segment has its start different
from its end. -/
theorem zero_length_iff (cx cy : ℚ) (values : Fin 4 → ℚ) (iso : ℚ)
    (out : List LineSegment) :
    ∃ segs, checkpoint_5.marchSquare cx cy values iso out = some (out ++ segs) ∧
      ∀ s ∈ segs, (ZeroLength s ↔
        ∃ k : Fin 4, checkpoint_5.caseIdx values iso = 2 ^ k.val ∧ values k = iso ∧
          EPS ≤ |values k - values (k - 1)|) := by
  refine ⟨_, checkpoint_5.marchSquare_eq cx cy values iso out, ?_⟩
  intro s hs
  rw [specSegments, List.mem_map] at hs
  obtain ⟨ab, hab, rfl⟩ := hs
  have hlt := checkpoint_5.caseIdx_lt values iso
  have hcr := checkpoint_5.crossed_of_mem values iso ab hab
  have hbit := checkpoint_5.testBit_caseIdx values iso
  obtain ⟨ta, ha0, ha1, hta, ha_one, ha_zero⟩ := lerp_parameter
    (checkpoint_5.cellCorners cx cy (specEdgeCorners ab.1).1)
    (checkpoint_5.cellCorners cx cy (specEdgeCorners ab.1).2) _ _ iso (hcr ab.1 (by simp))
  obtain ⟨tb, hb0, hb1, htb, hb_one, hb_zero⟩ := lerp_parameter
    (checkpoint_5.cellCorners cx cy (specEdgeCorners ab.2).1)
    (checkpoint_5.cellCorners cx cy (specEdgeCorners ab.2).2) _ _ iso (hcr ab.2 (by simp))
  have hne := specEdgePairs_ne _ hlt ab hab
  unfold ZeroLength
  simp only [specEdgePoint, hta, htb]
  rw [interpolants_eq_iff cx cy ab.1 ab.2 hne ta tb ha0 ha1 hb0 hb1, ha_one, hb_one, ha_zero,
    hb_zero]
  simp only [specEdgeCorners_eq]
  constructor
  · rintro (⟨hnext, ⟨hv, heps⟩, -⟩ | ⟨hnext, ⟨hv, -⟩, -⟩)
    · rw [← hnext] at hv heps
      have hin : (checkpoint_5.caseIdx values iso).testBit ab.2.val = true :=
        (hbit ab.2).mpr (le_of_eq hv.symm)
      refine ⟨ab.2, specEdgePairs_corner_inside _ hlt ab hab hnext hin, hv, ?_⟩
      have hprev : ab.2 - 1 = ab.1 := by rw [hnext]; simp
      rw [hprev]
      exact heps
    · rw [← hnext] at hv
      have hin : (checkpoint_5.caseIdx values iso).testBit ab.1.val = true :=
        (hbit ab.1).mpr (le_of_eq hv.symm)
      rw [specEdgePairs_corner_outside _ hlt ab hab hnext] at hin
      exact absurd hin (by simp)
  · rintro ⟨k, hk, hv, heps⟩
    rw [hk, specEdgePairs_single_corner, List.mem_singleton] at hab
    subst hab
    left
    simp only [sub_add_cancel]
    exact ⟨trivial, ⟨hv, heps⟩, Or.inl hv⟩

/-- A point on two different closed edges of the unit cell is the corner in
which the two edges meet. -/
theorem onEdge_two_edges (cx cy : ℚ) (a b : Fin 4) (hab : a ≠ b) (p : Point)
    (ha : OnEdge cx cy (a.val : Int) p) (hb : OnEdge cx cy (b.val : Int) p) :
    ∃ k : Fin 4, ((a, b) = (k - 1, k) ∨ (a, b) = (k, k - 1)) ∧
      p = checkpoint_5.cellCorners cx cy k := by
  obtain ⟨x, y⟩ := p
  fin_cases a <;> fin_cases b <;>
    first
    | exact absurd rfl hab
    | (exfalso
       simp [OnEdge] at ha hb
       linarith [ha.1, hb.1])
    | (simp [OnEdge] at ha hb
       first
       | exact ⟨0, by decide, by simp [checkpoint_5.cellCorners, ha.1, hb.1]⟩
       | exact ⟨1, by decide, by simp [checkpoint_5.cellCorners, ha.1, hb.1]⟩
       | exact ⟨2, by decide, by simp [checkpoint_5.cellCorners, ha.1, hb.1]⟩
       | exact ⟨3, by decide, by simp [checkpoint_5.cellCorners, ha.1, hb.1]⟩)

/-- C17, counterexample. (a) In exact arithmetic, for the cell at the origin with
corner values `(1/2, 0, 0, 0)` and isolevel `1/2` (corner 0 lies exactly on the
isolevel), `marchSquare` emits one segment, from `(0, 0)` to `(0, 0)`. (b) The
same run in binary32 arithmetic emits the same segment. (c) In binary32
arithmetic, for the cell with origin `(2, 2)`, corner values
`(0x1.000002p-1, 0, 0, 0)` and isolevel `1/2`, where no corner value equals the
isolevel, both endpoints are rounded to the corner `(2, 2)`: `marchSquare` emits
one segment, from `(2, 2)` to `(2, 2)`; in exact arithmetic the segment of that
cell has two different endpoints. -/
theorem marchSquare_zero_length_counterexample :
    (checkpoint_5.marchSquare 0 0 ![1 / 2, 0, 0, 0] (1 / 2) [] = some [⟨⟨0, 0⟩, ⟨0, 0⟩⟩] ∧
      ZeroLength ⟨⟨0, 0⟩, ⟨0, 0⟩⟩) ∧
    binary32.marchSquare (.finite 0) (.finite 0) (binary32.ofValues ![1 / 2, 0, 0, 0])
        (.finite (1 / 2)) [] =
      some [⟨⟨.finite 0, .finite 0⟩, ⟨.finite 0, .finite 0⟩⟩] ∧
    (binary32.roundNearestEven (8388609 / 16777216) = .finite (8388609 / 16777216) ∧
      (∀ i : Fin 4, (![8388609 / 16777216, 0, 0, 0] : Fin 4 → ℚ) i ≠ 1 / 2) ∧
      binary32.marchSquare (.finite 2) (.finite 2)
          (binary32.ofValues ![8388609 / 16777216, 0, 0, 0]) (.finite (1 / 2)) [] =
        some [⟨⟨.finite 2, .finite 2⟩, ⟨.finite 2, .finite 2⟩⟩] ∧
      ∃ s, checkpoint_5.marchSquare 2 2 ![8388609 / 16777216, 0, 0, 0] (1 / 2) [] = some [s] ∧
        ¬ ZeroLength s) := by
  have hc : checkpoint_5.caseIdx ![1 / 2, 0, 0, 0] (1 / 2) = 1 := by
    norm_num [checkpoint_5.caseIdx]
  have hc2 : checkpoint_5.caseIdx ![8388609 / 16777216, 0, 0, 0] (1 / 2) = 1 := by
    norm_num [checkpoint_5.caseIdx]
  refine ⟨⟨?_, rfl⟩, binary32.corner_on_isolevel_run, ?_, ?_, binary32.rounding_collapse_run, ?_⟩
  · rw [checkpoint_5.marchSquare_eq, hc]
    have hE : ¬ |(1 / 2 : ℚ)| < EPS := by norm_num [EPS, abs_lt]
    have hE' : ¬ |(0 : ℚ) - 1 / 2| < EPS := by norm_num [EPS, abs_lt]
    simp only [specSegments, specEdgePairs, specEdgePoint, specEdgeCorners,
      checkpoint_5.cellCorners, lerp, lerpTraced]
    norm_num [hE, hE']
  · exact binary32.roundNearestEven_eq_self _ 8388609 (-24) (by norm_num) (by norm_num)
      (by norm_num) (by norm_num)
  · intro i
    fin_cases i <;> norm_num
  · obtain ⟨segs, hrun, hiff⟩ :=
      zero_length_iff 2 2 ![8388609 / 16777216, 0, 0, 0] (1 / 2) []
    have hsegs : segs = specSegments (checkpoint_5.cellCorners 2 2)
        ![8388609 / 16777216, 0, 0, 0] (1 / 2) 1 := by
      have h2 := checkpoint_5.marchSquare_eq 2 2 ![8388609 / 16777216, 0, 0, 0] (1 / 2) []
      rw [hc2, hrun] at h2
      simpa using h2
    have hlen : segs.length = 1 := by rw [hsegs]; rfl
    obtain ⟨s, rfl⟩ := List.length_eq_one.mp hlen
    refine ⟨s, by simpa using hrun, ?_⟩
    rw [hiff s (List.mem_singleton_self s)]
    rintro ⟨k, -, hk, -⟩
    fin_cases k <;> norm_num at hk

/-- C17, amended. In exact arithmetic, a segment that `marchSquare` emits has its
start equal to its end exactly when the case index is 1, 2, 4 or 8 (a single
corner `k` is at or above the isolevel), the value of corner `k` equals the
isolevel, and the edge entering corner `k` is not flat (its two corner values
differ by at least `EPS`); every other emitted segment has its start different
from its end. In binary32 arithmetic, for finite corner values and isolevel, when
the origin coordinates `cx`, `cy` and their successors `cx + 1`, `cy + 1` are
binary32 numbers and on no crossed edge the difference `isolevel - v1` to the
value of its first corner overflows, a segment that `marchSquare` emits has its
start equal to its end only at a corner `k` of the cell in which the two edges of
its table pair meet; in particular every segment between two opposite edges has
its start different from its end. -/
theorem marchSquare_zero_length_iff (cx cy : ℚ) (values : Fin 4 → ℚ) (iso : ℚ)
    (out : List LineSegment) (out32 : List binary32.LineSegment) :
    (∃ segs, checkpoint_5.marchSquare cx cy values iso out = some (out ++ segs) ∧
      ∀ s ∈ segs, (ZeroLength s ↔
        ∃ k : Fin 4, checkpoint_5.caseIdx values iso = 2 ^ k.val ∧ values k = iso ∧
          EPS ≤ |values k - values (k - 1)|)) ∧
    (binary32.Representable cx → binary32.Representable cy →
      binary32.Representable (cx + 1) → binary32.Representable (cy + 1) →
      (∀ e : Fin 4, Crossed (values (specEdgeCorners e).1) (values (specEdgeCorners e).2) iso →
        |iso - values (specEdgeCorners e).1| < binary32.overflowThreshold) →
      ∃ segs, binary32.marchSquare (.finite cx) (.finite cy) (binary32.ofValues values)
          (.finite iso) out32 = some (out32 ++ segs) ∧
        ∀ s ∈ segs, s.start = s.end_ →
          ∃ k : Fin 4,
            ((k - 1, k) ∈ specEdgePairs (checkpoint_5.caseIdx values iso) ∨
              (k, k - 1) ∈ specEdgePairs (checkpoint_5.caseIdx values iso)) ∧
            s.start = ⟨.finite (checkpoint_5.cellCorners cx cy k).x,
              .finite (checkpoint_5.cellCorners cx cy k).y⟩) := by
  refine ⟨zero_length_iff cx cy values iso out, ?_⟩
  intro hx hy hx1 hy1 hov
  have hrun := binary32.marchSquare_unfold (.finite cx) (.finite cy) (binary32.ofValues values)
    (.finite iso) out32
  rw [binary32.caseIdx_ofValues] at hrun
  refine ⟨_, hrun, ?_⟩
  intro s hs heq
  rw [binary32.specSegments, List.mem_map] at hs
  obtain ⟨ab, hab, rfl⟩ := hs
  have hlt := checkpoint_5.caseIdx_lt values iso
  have hcr := checkpoint_5.crossed_of_mem values iso ab hab
  have hne := specEdgePairs_ne _ hlt ab hab
  have h1 := (binary32_liesOnEdge_of_crossed cx cy hx hy hx1 hy1 values iso ab.1
    (hcr ab.1 (by simp)) (hov _ (hcr ab.1 (by simp)))).1
  have h2 := (binary32_liesOnEdge_of_crossed cx cy hx hy hx1 hy1 values iso ab.2
    (hcr ab.2 (by simp)) (hov _ (hcr ab.2 (by simp)))).1
  simp only at heq ⊢
  rw [← heq] at h2
  generalize binary32.specEdgePoint (binary32.cellCorners (.finite cx) (.finite cy))
    (binary32.ofValues values) (.finite iso) ab.1 = p at h1 h2 ⊢
  obtain ⟨px, py⟩ := p
  cases px <;> cases py <;> simp only [binary32.LiesOnEdge] at h1 h2
  rename_i x y
  obtain ⟨k, hk, hp⟩ := onEdge_two_edges cx cy ab.1 ab.2 hne ⟨x, y⟩ h1 h2
  refine ⟨k, ?_, ?_⟩
  · rcases hk with hk | hk
    · left; rw [← hk]; exact hab
    · right; rw [← hk]; exact hab
  · rw [← hp]

/-- Witness for the amended C17: the saddle cell `(1, 0, 1, 0)` at the origin at
isolevel `1/2` in binary32 arithmetic. -/
theorem marchSquare_zero_length_iff_witness :
    ∃ segs, binary32.marchSquare (.finite 0) (.finite 0)
        (binary32.ofValues ![1, 0, 1, 0]) (.finite (1 / 2)) [] = some ([] ++ segs) ∧
      ∀ s ∈ segs, s.start = s.end_ →
        ∃ k : Fin 4,
          ((k - 1, k) ∈ specEdgePairs (checkpoint_5.caseIdx ![1, 0, 1, 0] (1 / 2)) ∨
            (k, k - 1) ∈ specEdgePairs (checkpoint_5.caseIdx ![1, 0, 1, 0] (1 / 2))) ∧
          s.start = ⟨.finite (checkpoint_5.cellCorners 0 0 k).x,
            .finite (checkpoint_5.cellCorners 0 0 k).y⟩ :=
  have hr0 : binary32.Representable 0 := binary32.roundNearestEven_zero
  have hr1 : binary32.Representable (0 + 1) :=
    binary32.roundNearestEven_eq_self _ 1 0 (by norm_num) (by norm_num) (by norm_num)
      (by norm_num)
  (marchSquare_zero_length_iff 0 0 ![1, 0, 1, 0] (1 / 2) [] []).2 hr0 hr0 hr1 hr1
    (fun e _ => by
      fin_cases e <;>
        (simp only [specEdgeCorners]; rw [abs_lt]; norm_num [binary32.overflowThreshold]))
